import Mathlib

/-!
# unordered_bimap

A shallow embedding of `src/unordered_bimap.h`: a bidirectional hash map whose
entries are heap nodes linked in insertion order and referenced from two
bucket tables.

Modelling choices.

* A pointer `node *` is an `Option Nat`: `none` is `nullptr`, `some a` is the
  address `a`.  The free store `Mem` maps an address to the node stored there,
  or to nothing when the address is not allocated.  `new` hands out the address
  `brk` and moves `brk` up, so it never returns an address that is in use;
  `delete` empties the cell.
* Every dereference goes through `Mem.read`; reading through `nullptr` or
  through an address that is not allocated is undefined behaviour and is
  reported as `Fault.undefined`.
* `key_hashtable` and `value_hashtable` are vectors of `PRIME_SIZE` lists; they
  are only ever indexed with `hash % PRIME_SIZE`, so `at` cannot throw, and a
  table is a function from the bucket number to the collision list.  A
  container holds its two tables by value: the pointer to a table and the
  vector it points to are one thing here, so the sharing of one vector by two
  containers, which the move constructor brings about, is not represented;
  the sharing of nodes is.
* `KeyHash` and `ValueHash` are arbitrary functions into `Nat`.
* `elem_count` is a `std::size_t`.  The count never exceeds the number of
  allocated nodes, so `++` is exact; `--` on zero wraps to `SIZE_MAX`.
* Loops take a fuel argument: one unit per evaluation of the loop condition.
  Running out is reported as `Fault.fuel`.
* `iterator::tail_ptr` always holds `&tail` of the container the cursor was
  made by.  Reading `*tail_ptr` is modelled by reading `tail` of that
  container, which the operations that need it take as an argument.
-/

namespace UBimap

/-- Bucket count of both tables, `const int PRIME_SIZE = 200003`. -/
def PRIME_SIZE : Nat := 200003

/-- Largest value of `std::size_t`. -/
def SIZE_MAX : Nat := 2 ^ 64 - 1

/-- Ways in which a run does not return a value. -/
inductive Fault where
  | undefined
  | out_of_range
  | fuel
  deriving DecidableEq, Repr

/-- Result of running a piece of the program. -/
abbrev Run (α : Type) := Except Fault α

/-- The record `struct node`. -/
structure node (Key Value : Type) where
  key : Key
  value : Value
  prev : Option Nat
  next : Option Nat
  deriving DecidableEq, Repr

/-- The free store: the allocated nodes and the allocation frontier. -/
structure Mem (Key Value : Type) where
  cell : Nat → Option (node Key Value)
  brk : Nat

/-- The data members of `unordered_bimap`. -/
structure unordered_bimap where
  head : Option Nat
  tail : Option Nat
  key_hashtable : Nat → List Nat
  value_hashtable : Nat → List Nat
  elem_count : Nat

/-- The cursor `struct iterator`; `tail_ptr` is implicit, see the header. -/
structure iterator where
  data : Option Nat
  deriving DecidableEq, Repr

section Store

variable {Key Value : Type}

/-- The store of a program that has allocated nothing yet. -/
def Mem.init : Mem Key Value := ⟨fun _ => none, 0⟩

/-- Reading `*p`. -/
def Mem.read (m : Mem Key Value) (p : Option Nat) : Run (node Key Value) :=
  match p with
  | none => .error .undefined
  | some a =>
    match m.cell a with
    | none => .error .undefined
    | some n => .ok n

/-- Overwriting the node stored at an allocated address. -/
def Mem.write (m : Mem Key Value) (a : Nat) (n : node Key Value) : Mem Key Value :=
  ⟨fun q => if q = a then some n else m.cell q, m.brk⟩

/-- The expression `new node(...)`: the address handed out and the store afterwards. -/
def Mem.alloc (m : Mem Key Value) (n : node Key Value) : Nat × Mem Key Value :=
  (m.brk, ⟨fun q => if q = m.brk then some n else m.cell q, m.brk + 1⟩)

/-- The statement `delete p`. -/
def Mem.free (m : Mem Key Value) (a : Nat) : Mem Key Value :=
  ⟨fun q => if q = a then none else m.cell q, m.brk⟩

/-- Replacing one collision list of a table. -/
def set_bucket (t : Nat → List Nat) (i : Nat) (l : List Nat) : Nat → List Nat :=
  fun j => if j = i then l else t j

/-- A store in which nothing is allocated at or above the allocation frontier. -/
def Mem.Fresh (m : Mem Key Value) : Prop := ∀ p, m.brk ≤ p → m.cell p = none

end Store

namespace iterator

variable {Key Value : Type}

/-- The member `operator*`. -/
def deref (m : Mem Key Value) (it : iterator) : Run (Key × Value) := do
  let n ← m.read it.data
  pure (n.key, n.value)

/-- Prefix `operator++`: the cursor afterwards. -/
def incr (m : Mem Key Value) (it : iterator) : Run iterator := do
  let n ← m.read it.data
  pure ⟨n.next⟩

/-- Postfix `operator++`: the value returned and the cursor afterwards. -/
def post_incr (m : Mem Key Value) (it : iterator) : Run (iterator × iterator) := do
  let cur := it
  let n ← m.read it.data
  pure (cur, ⟨n.next⟩)

/-- Prefix `operator--`; `tail` is the current content of `*tail_ptr`. -/
def decr (m : Mem Key Value) (tail : Option Nat) (it : iterator) : Run iterator :=
  match it.data with
  | none => pure ⟨tail⟩
  | some a => do
    let n ← m.read (some a)
    pure ⟨n.prev⟩

/-- Postfix `operator--`: the value returned and the cursor afterwards. -/
def post_decr (m : Mem Key Value) (it : iterator) : Run (iterator × iterator) := do
  let cur := it
  let n ← m.read it.data
  pure (cur, ⟨n.prev⟩)

/-- The member `operator==`. -/
def eq (a b : iterator) : Bool := a.data == b.data

/-- The member `operator!=`. -/
def ne (a b : iterator) : Bool := a.data != b.data

end iterator

namespace unordered_bimap

variable {Key Value : Type} [DecidableEq Key] [DecidableEq Value]
variable (KeyHash : Key → Nat) (ValueHash : Value → Nat)

/-- The container made by the defaulted constructor. -/
def init : unordered_bimap := ⟨none, none, fun _ => [], fun _ => [], 0⟩

/-- The call `std::find_if` over a collision list with the predicate `key == n->key`. -/
def find_if_key (m : Mem Key Value) (key : Key) : List Nat → Run (Option Nat)
  | [] => .ok none
  | p :: rest =>
    match m.read (some p) with
    | .error f => .error f
    | .ok n => if key = n.key then .ok (some p) else find_if_key m key rest

/-- The call `std::find_if` over a collision list with the predicate `value == n->value`. -/
def find_if_value (m : Mem Key Value) (value : Value) : List Nat → Run (Option Nat)
  | [] => .ok none
  | p :: rest =>
    match m.read (some p) with
    | .error f => .error f
    | .ok n => if value = n.value then .ok (some p) else find_if_value m value rest

/-- The member `find_key`. -/
def find_key (m : Mem Key Value) (b : unordered_bimap) (key : Key) : Run (Option Nat) :=
  find_if_key m key (b.key_hashtable (KeyHash key % PRIME_SIZE))

/-- The member `find_value`. -/
def find_value (m : Mem Key Value) (b : unordered_bimap) (value : Value) : Run (Option Nat) :=
  find_if_value m value (b.value_hashtable (ValueHash value % PRIME_SIZE))

/-- The member `present_left`. -/
def present_left (m : Mem Key Value) (b : unordered_bimap) (key : Key) : Run Bool := do
  let r ← find_key KeyHash m b key
  pure r.isSome

/-- The member `present_right`. -/
def present_right (m : Mem Key Value) (b : unordered_bimap) (value : Value) : Run Bool := do
  let r ← find_value ValueHash m b value
  pure r.isSome

/-- The member `begin`. -/
def begin (b : unordered_bimap) : iterator := ⟨b.head⟩

/-- The member `end`. -/
def end_ (_b : unordered_bimap) : iterator := ⟨none⟩

/-- The member `size`. -/
def size (b : unordered_bimap) : Nat := b.elem_count

/-- The member `empty`. -/
def empty (b : unordered_bimap) : Bool := b.elem_count == 0

/-- The private member `insert(node *elem)`. -/
def insert_node (m : Mem Key Value) (b : unordered_bimap) (elem : Nat) :
    Run (iterator × Mem Key Value × unordered_bimap) := do
  let e ← m.read (some elem)
  let pl ← present_left KeyHash m b e.key
  let dup ← if pl then pure true else present_right ValueHash m b e.value
  if dup then
    pure (b.end_, m.free elem, b)
  else
    let (m1, b1) ← (match b.tail with
      | none => pure (m, { b with head := some elem, tail := some elem })
      | some t => do
        let nt ← m.read (some t)
        pure (m.write t { nt with next := some elem }, b))
    let b2 := { b1 with tail := some elem }
    let e1 ← m1.read (some elem)
    let key_hash := KeyHash e1.key % PRIME_SIZE
    let value_hash := ValueHash e1.value % PRIME_SIZE
    let b3 := { b2 with
      key_hashtable := set_bucket b2.key_hashtable key_hash (b2.key_hashtable key_hash ++ [elem])
      value_hashtable :=
        set_bucket b2.value_hashtable value_hash (b2.value_hashtable value_hash ++ [elem]) }
    let b4 := { b3 with elem_count := b3.elem_count + 1 }
    pure (⟨some elem⟩, m1, b4)

/-- The public member `insert(key, value)`: `new node(key, value, tail)`, then `insert(node *)`. -/
def insert (m : Mem Key Value) (b : unordered_bimap) (key : Key) (value : Value) :
    Run (iterator × Mem Key Value × unordered_bimap) :=
  let (tmp, m1) := m.alloc ⟨key, value, b.tail, none⟩
  insert_node KeyHash ValueHash m1 b tmp

/-- The call `l.erase(std::find(l.begin(), l.end(), p))`; erasing at `l.end()` is undefined. -/
def list_erase_find (l : List Nat) (p : Option Nat) : Run (List Nat) :=
  match p with
  | none => .error .undefined
  | some a => if a ∈ l then .ok (l.erase a) else .error .undefined

/-- The member `erase(iterator elem)`. -/
def erase (m : Mem Key Value) (b : unordered_bimap) (elem : iterator) :
    Run (iterator × Mem Key Value × unordered_bimap) := do
  let n ← m.read elem.data
  let result : iterator := ⟨n.next⟩
  let (m1, b1) ← (match n.prev with
    | some q => do
      let nq ← m.read (some q)
      pure (m.write q { nq with next := n.next }, b)
    | none => pure (m, { b with head := n.next }))
  let n1 ← m1.read elem.data
  let (m2, b2) ← (match n1.next with
    | some q => do
      let nq ← m1.read (some q)
      pure (m1.write q { nq with prev := n1.prev }, b1)
    | none => pure (m1, { b1 with tail := n1.prev }))
  let n2 ← m2.read elem.data
  let key_hash := KeyHash n2.key % PRIME_SIZE
  let value_hash := ValueHash n2.value % PRIME_SIZE
  let fk ← find_key KeyHash m2 b2 n2.key
  let key_list ← list_erase_find (b2.key_hashtable key_hash) fk
  let b3 := { b2 with key_hashtable := set_bucket b2.key_hashtable key_hash key_list }
  let fv ← find_value ValueHash m2 b3 n2.value
  let value_list ← list_erase_find (b3.value_hashtable value_hash) fv
  let b4 := { b3 with value_hashtable := set_bucket b3.value_hashtable value_hash value_list }
  let b5 := { b4 with elem_count := if b4.elem_count = 0 then SIZE_MAX else b4.elem_count - 1 }
  match elem.data with
  | none => .error .undefined
  | some a => pure (result, m2.free a, b5)

/-- The loop of `clear`: `while (!empty()) { next = i; ++next; erase(i); i = next; }`. -/
def clear_loop : Nat → Mem Key Value → unordered_bimap → iterator →
    Run (Mem Key Value × unordered_bimap)
  | 0, _, _, _ => .error .fuel
  | fuel + 1, m, b, i =>
    if b.empty then .ok (m, b)
    else do
      let next ← i.incr m
      let (_, m1, b1) ← erase KeyHash ValueHash m b i
      clear_loop fuel m1 b1 next

/-- The member `clear`. -/
def clear (fuel : Nat) (m : Mem Key Value) (b : unordered_bimap) :
    Run (Mem Key Value × unordered_bimap) :=
  clear_loop KeyHash ValueHash fuel m b b.begin

/-- The loop of `erase_range`: `while (it != last) { next = it; ++next; erase(it); it = next; }`. -/
def erase_range_loop : Nat → Mem Key Value → unordered_bimap → iterator → iterator →
    Run (iterator × Mem Key Value × unordered_bimap)
  | 0, _, _, _, _ => .error .fuel
  | fuel + 1, m, b, it, last =>
    if it.ne last then do
      let next ← it.incr m
      let (_, m1, b1) ← erase KeyHash ValueHash m b it
      erase_range_loop fuel m1 b1 next last
    else .ok (it, m, b)

/-- The member `erase_range(first, last)`. -/
def erase_range (fuel : Nat) (m : Mem Key Value) (b : unordered_bimap) (first last : iterator) :
    Run (iterator × Mem Key Value × unordered_bimap) :=
  erase_range_loop KeyHash ValueHash fuel m b first last

/-- The member `erase_left`. -/
def erase_left (m : Mem Key Value) (b : unordered_bimap) (key : Key) :
    Run (Bool × Mem Key Value × unordered_bimap) := do
  let it ← find_key KeyHash m b key
  let p ← present_left KeyHash m b key
  if p then
    let (_, m1, b1) ← erase KeyHash ValueHash m b ⟨it⟩
    pure (true, m1, b1)
  else pure (false, m, b)

/-- The member `erase_right`. -/
def erase_right (m : Mem Key Value) (b : unordered_bimap) (value : Value) :
    Run (Bool × Mem Key Value × unordered_bimap) := do
  let it ← find_value ValueHash m b value
  let p ← present_right ValueHash m b value
  if p then
    let (_, m1, b1) ← erase KeyHash ValueHash m b ⟨it⟩
    pure (true, m1, b1)
  else pure (false, m, b)

/-- The member `find_left`. -/
def find_left (m : Mem Key Value) (b : unordered_bimap) (key : Key) : Run iterator := do
  let r ← find_key KeyHash m b key
  pure ⟨r⟩

/-- The member `find_right`. -/
def find_right (m : Mem Key Value) (b : unordered_bimap) (value : Value) : Run iterator := do
  let r ← find_value ValueHash m b value
  pure ⟨r⟩

/-- The member `at_left`; `throw std::out_of_range` is `Fault.out_of_range`. -/
def at_left (m : Mem Key Value) (b : unordered_bimap) (key : Key) : Run Value := do
  let it ← find_key KeyHash m b key
  match it with
  | some a => do
    let n ← m.read (some a)
    pure n.value
  | none => .error .out_of_range

/-- The member `at_right`; `throw std::out_of_range` is `Fault.out_of_range`. -/
def at_right (m : Mem Key Value) (b : unordered_bimap) (value : Value) : Run Key := do
  let it ← find_value ValueHash m b value
  match it with
  | some a => do
    let n ← m.read (some a)
    pure n.key
  | none => .error .out_of_range

/-- The loop `for (auto pair : other) this->insert(pair.first, pair.second)` of the copy
constructor and of copy assignment.  The cursors returned by the calls of `insert`, which the
source discards, are collected in the first component. -/
def copy_loop : Nat → Mem Key Value → unordered_bimap → iterator →
    Run (List iterator × Mem Key Value × unordered_bimap)
  | 0, _, _, _ => .error .fuel
  | fuel + 1, m, this, it =>
    if it.ne ⟨none⟩ then do
      let pair ← it.deref m
      let (r, m1, this1) ← insert KeyHash ValueHash m this pair.1 pair.2
      let it1 ← it.incr m1
      let (rs, m2, this2) ← copy_loop fuel m1 this1 it1
      pure (r :: rs, m2, this2)
    else .ok ([], m, this)

/-- The copy constructor `unordered_bimap(const unordered_bimap &other)`. -/
def copy_ctor (fuel : Nat) (m : Mem Key Value) (other : unordered_bimap) :
    Run (List iterator × Mem Key Value × unordered_bimap) :=
  copy_loop KeyHash ValueHash fuel m init other.begin

/-- Copy assignment `this = other` for two different objects. -/
def copy_assign (fuel : Nat) (m : Mem Key Value) (this other : unordered_bimap) :
    Run (List iterator × Mem Key Value × unordered_bimap) := do
  let (m1, this1) ← clear KeyHash ValueHash fuel m this
  copy_loop KeyHash ValueHash fuel m1 this1 other.begin

/-- Copy assignment `this = this`: `other` is the object that `clear` has just emptied. -/
def copy_assign_self (fuel : Nat) (m : Mem Key Value) (this : unordered_bimap) :
    Run (List iterator × Mem Key Value × unordered_bimap) := do
  let (m1, this1) ← clear KeyHash ValueHash fuel m this
  copy_loop KeyHash ValueHash fuel m1 this1 this1.begin

/-- The move constructor: the new object and the donor afterwards.  `std::move` of a raw pointer
or of a `std::size_t` copies it, so the donor keeps all five members. -/
def move_ctor (other : unordered_bimap) : unordered_bimap × unordered_bimap :=
  (⟨other.head, other.tail, other.key_hashtable, other.value_hashtable, other.elem_count⟩, other)

/-- Move assignment `this = std::move(other)` for two different objects: `this` and `other`
afterwards. -/
def move_assign (fuel : Nat) (m : Mem Key Value) (this other : unordered_bimap) :
    Run (Mem Key Value × unordered_bimap × unordered_bimap) := do
  let (m1, this1) ← clear KeyHash ValueHash fuel m this
  pure (m1,
    ⟨other.head, other.tail, other.key_hashtable, other.value_hashtable, other.elem_count⟩,
    ⟨this1.head, this1.tail, this1.key_hashtable, this1.value_hashtable, this1.elem_count⟩)

/-- Move assignment `this = std::move(this)`: each `std::swap` exchanges a member with itself. -/
def move_assign_self (fuel : Nat) (m : Mem Key Value) (this : unordered_bimap) :
    Run (Mem Key Value × unordered_bimap) :=
  clear KeyHash ValueHash fuel m this

/-- The loop of `operator==`. -/
def eq_loop : Nat → Mem Key Value → iterator → iterator → Run Bool
  | 0, _, _, _ => .error .fuel
  | fuel + 1, m, it_left, it_right =>
    if it_left.ne ⟨none⟩ then do
      let l ← it_left.deref m
      let r ← it_right.deref m
      if l.1 ≠ r.1 ∨ l.2 ≠ r.2 then pure false
      else do
        let it_left1 ← it_left.incr m
        let it_right1 ← it_right.incr m
        eq_loop fuel m it_left1 it_right1
    else .ok true

/-- The free function `operator==`. -/
def eq (fuel : Nat) (m : Mem Key Value) (lhs rhs : unordered_bimap) : Run Bool :=
  if lhs.size ≠ rhs.size then .ok false
  else eq_loop fuel m lhs.begin rhs.begin

/-- The free function `operator!=`. -/
def ne (fuel : Nat) (m : Mem Key Value) (lhs rhs : unordered_bimap) : Run Bool := do
  let r ← eq fuel m lhs rhs
  pure (!r)

/-- The loop `for (auto elem : b)` of the tests, collecting the pairs it visits. -/
def traverse_loop : Nat → Mem Key Value → iterator → Run (List (Key × Value))
  | 0, _, _ => .error .fuel
  | fuel + 1, m, it =>
    if it.ne ⟨none⟩ then do
      let elem ← it.deref m
      let it1 ← it.incr m
      let rest ← traverse_loop fuel m it1
      pure (elem :: rest)
    else .ok []

/-- The pairs met on the way from `begin()` to `end()`. -/
def traverse (fuel : Nat) (m : Mem Key Value) (b : unordered_bimap) : Run (List (Key × Value)) :=
  traverse_loop fuel m b.begin

/-- The cursor after `n` applications of `operator++`. -/
def advance (m : Mem Key Value) : Nat → iterator → Run iterator
  | 0, it => .ok it
  | n + 1, it => do
    let it1 ← it.incr m
    advance m n it1

/-- The loop of the test `ordering`: the pairs are inserted one after the other. -/
def insert_all (m : Mem Key Value) (b : unordered_bimap) :
    List (Key × Value) → Run (Mem Key Value × unordered_bimap)
  | [] => .ok (m, b)
  | p :: rest => do
    let (_, m1, b1) ← insert KeyHash ValueHash m b p.1 p.2
    insert_all m1 b1 rest

/-- A cursor that references a live entry: it is met on the way from `begin()` and is not
`end()`. -/
def ValidCursor (m : Mem Key Value) (b : unordered_bimap) (it : iterator) : Prop :=
  it.data ≠ none ∧ ∃ n, advance m n b.begin = .ok it

/-- A range of the container: `first` is `i` advances from `begin()` and `last` is `j` advances
from `first`. -/
def ValidRange (m : Mem Key Value) (b : unordered_bimap) (first last : iterator)
    (i j : Nat) : Prop :=
  advance m i b.begin = .ok first ∧ advance m j first = .ok last

/-- One call of a public mutating operation that returns, cursors being valid. -/
inductive Step : Mem Key Value → unordered_bimap → Mem Key Value → unordered_bimap → Prop
  | insert {m b} (k : Key) (v : Value) {r m1 b1} :
      insert KeyHash ValueHash m b k v = .ok (r, m1, b1) → Step m b m1 b1
  | erase {m b} (it : iterator) {r m1 b1} :
      ValidCursor m b it → erase KeyHash ValueHash m b it = .ok (r, m1, b1) → Step m b m1 b1
  | erase_range {m b} (fuel : Nat) (first last : iterator) (i j : Nat) {r m1 b1} :
      ValidRange m b first last i j →
      erase_range KeyHash ValueHash fuel m b first last = .ok (r, m1, b1) → Step m b m1 b1
  | erase_left {m b} (k : Key) {r m1 b1} :
      erase_left KeyHash ValueHash m b k = .ok (r, m1, b1) → Step m b m1 b1
  | erase_right {m b} (v : Value) {r m1 b1} :
      erase_right KeyHash ValueHash m b v = .ok (r, m1, b1) → Step m b m1 b1
  | clear {m b} (fuel : Nat) {m1 b1} :
      clear KeyHash ValueHash fuel m b = .ok (m1, b1) → Step m b m1 b1

/-- The states of one container that the public mutating operations reach from the empty
container, created in any store. -/
inductive Reachable : Mem Key Value → unordered_bimap → Prop
  | init (m0 : Mem Key Value) : m0.Fresh → Reachable m0 init
  | step {m b m1 b1} : Reachable m b → Step KeyHash ValueHash m b m1 b1 → Reachable m1 b1

/-- The states of two containers living in one store, each reached from the empty container
by calls of the public mutating operations, in any interleaving. -/
inductive Reachable2 : Mem Key Value → unordered_bimap → unordered_bimap → Prop
  | init (m0 : Mem Key Value) : m0.Fresh → Reachable2 m0 init init
  | left {m a b m1 a1} :
      Reachable2 m a b → Step KeyHash ValueHash m a m1 a1 → Reachable2 m1 a1 b
  | right {m a b m1 b1} :
      Reachable2 m a b → Step KeyHash ValueHash m b m1 b1 → Reachable2 m1 a b1

/-- Bookkeeping of order preservation, in the words of the specification: the third component
lists the pairs whose insert succeeded and that have not been erased since, in the order of
their successful insertion. -/
inductive Tracks : Mem Key Value → unordered_bimap → List (Key × Value) → Prop
  | init (m0 : Mem Key Value) : m0.Fresh → Tracks m0 init []
  | insert_ok {m b ps} (k : Key) (v : Value) {r m1 b1} :
      Tracks m b ps → insert KeyHash ValueHash m b k v = .ok (r, m1, b1) → r.data ≠ none →
      Tracks m1 b1 (ps ++ [(k, v)])
  | insert_rejected {m b ps} (k : Key) (v : Value) {r m1 b1} :
      Tracks m b ps → insert KeyHash ValueHash m b k v = .ok (r, m1, b1) → r.data = none →
      Tracks m1 b1 ps
  | erase {m b ps} (it : iterator) {kv r m1 b1} :
      Tracks m b ps → ValidCursor m b it → it.deref m = .ok kv →
      erase KeyHash ValueHash m b it = .ok (r, m1, b1) → Tracks m1 b1 (ps.erase kv)

end unordered_bimap

/-! ## The abstract view of a container -/

/-- A live entry as the proofs see it: the address of its node and the pair stored there. -/
structure Entry (Key Value : Type) where
  addr : Nat
  key : Key
  value : Value

section View

variable {Key Value : Type}

/-- The pair of an entry. -/
def Entry.pair (e : Entry Key Value) : Key × Value := (e.key, e.value)

/-- The address of the first entry of a list, or `q` when there is none. -/
def first_or (q : Option Nat) : List (Entry Key Value) → Option Nat
  | [] => q
  | e :: _ => some e.addr

/-- The address of the last entry of a list, or `p` when there is none. -/
def last_or (p : Option Nat) : List (Entry Key Value) → Option Nat
  | [] => p
  | e :: rest => last_or (some e.addr) rest

/-- The nodes of the entries form a doubly linked segment of the store: the first has `prev = p`,
the last has `next = q`, and neighbours point at each other. -/
def Chain (cell : Nat → Option (node Key Value)) :
    Option Nat → List (Entry Key Value) → Option Nat → Prop
  | _, [], _ => True
  | p, e :: rest, q =>
    cell e.addr = some ⟨e.key, e.value, p, first_or q rest⟩ ∧ Chain cell (some e.addr) rest q

/-- The addresses in a bucket: those of the entries whose hash falls into it, in order. -/
def bucket_of (hash : Entry Key Value → Nat) (L : List (Entry Key Value)) (i : Nat) : List Nat :=
  (L.filter (fun e => hash e % PRIME_SIZE = i)).map Entry.addr

/-- The representation invariant: the container `b` in the store `m` holds exactly the entries
`L`, in this order. -/
structure Inv (KeyHash : Key → Nat) (ValueHash : Value → Nat) (m : Mem Key Value)
    (b : unordered_bimap) (L : List (Entry Key Value)) : Prop where
  fresh : m.Fresh
  below : ∀ e ∈ L, e.addr < m.brk
  chain : Chain m.cell none L none
  head : b.head = first_or none L
  tail : b.tail = last_or none L
  count : b.elem_count = L.length
  keys : (L.map Entry.key).Nodup
  values : (L.map Entry.value).Nodup
  key_index : ∀ i, b.key_hashtable i = bucket_of (fun e => KeyHash e.key) L i
  value_index : ∀ i, b.value_hashtable i = bucket_of (fun e => ValueHash e.value) L i

end View

section ViewDefs

variable {Key Value : Type}

/-- Every entry of the list has a node at its address that holds its pair. -/
def Stored (cell : Nat → Option (node Key Value)) (L : List (Entry Key Value)) : Prop :=
  ∀ e ∈ L, ∃ pr nx, cell e.addr = some ⟨e.key, e.value, pr, nx⟩

end ViewDefs

/-! ## A concrete run

The three inserts of the test `erase_iterator`, under a hash that sends every key and every
value to the same bucket. -/

/-- A hash under which all keys, and all values, collide. -/
def demo_hash : Nat → Nat := fun _ => 7

/-- The result of a call of `insert`, or the state before when the call does not return. -/
def after_insert (s : Mem Nat Nat × unordered_bimap) (k v : Nat) :
    iterator × Mem Nat Nat × unordered_bimap :=
  match unordered_bimap.insert demo_hash demo_hash s.1 s.2 k v with
  | .ok r => r
  | .error _ => (⟨none⟩, s)

/-- After `insert(1, 2)` into the empty container. -/
def demo1 : iterator × Mem Nat Nat × unordered_bimap :=
  after_insert (Mem.init, unordered_bimap.init) 1 2

/-- After `insert(5, 10)`. -/
def demo2 : iterator × Mem Nat Nat × unordered_bimap := after_insert demo1.2 5 10

/-- After `insert(100, 200)`. -/
def demo3 : iterator × Mem Nat Nat × unordered_bimap := after_insert demo2.2 100 200

/-- After `insert(9, 9)` into a second container, created empty in the store of `demo3`. -/
def demo4 : iterator × Mem Nat Nat × unordered_bimap :=
  after_insert (demo3.2.1, unordered_bimap.init) 9 9

/-- The two containers of `demo4` after the move assignment that gives the second one, which
holds `(9, 9)`, the content of the first one: the store, the target and the donor. -/
def demo_moved : Mem Nat Nat × unordered_bimap × unordered_bimap :=
  match unordered_bimap.move_assign demo_hash demo_hash 2 demo4.2.1 demo4.2.2 demo3.2.2 with
  | .ok r => r
  | .error _ => (demo4.2.1, demo4.2.2, demo3.2.2)

/-- A second container holding the pairs of `demo2` in the other order, after `insert(5, 10)`. -/
def demo5 : iterator × Mem Nat Nat × unordered_bimap :=
  after_insert (demo2.2.1, unordered_bimap.init) 5 10

/-- The same container after `insert(1, 2)`. -/
def demo6 : iterator × Mem Nat Nat × unordered_bimap := after_insert demo5.2 1 2

/-! ## Walks along `prev`, the two halves of `erase`, a counted `clear`, assignments -/

namespace unordered_bimap

variable {Key Value : Type} [DecidableEq Key] [DecidableEq Value]
variable (KeyHash : Key → Nat) (ValueHash : Value → Nat)

/-- The loop `while (it != end()) { visit *it; --it; }`, collecting the pairs it visits; `tail` is
the content of `*tail_ptr`, which the loop leaves alone. -/
def traverse_back_loop : Nat → Mem Key Value → Option Nat → iterator →
    Run (List (Key × Value))
  | 0, _, _, _ => .error .fuel
  | fuel + 1, m, tail, it =>
    if it.ne ⟨none⟩ then do
      let elem ← it.deref m
      let it1 ← it.decr m tail
      let rest ← traverse_back_loop fuel m tail it1
      pure (elem :: rest)
    else .ok []

/-- The pairs met on the way back from `end()` along the `prev` links: `it = end(); --it;`, then
the loop above. -/
def traverse_back (fuel : Nat) (m : Mem Key Value) (b : unordered_bimap) :
    Run (List (Key × Value)) := do
  let it ← iterator.decr m b.tail b.end_
  traverse_back_loop fuel m b.tail it

/-- The first half of `erase`, up to the statements that relink the two neighbours of the node:
the store and the container as they are when `erase` goes on to call `find_key`. -/
def erase_unlink (m : Mem Key Value) (b : unordered_bimap) (elem : iterator) :
    Run (Mem Key Value × unordered_bimap) := do
  let n ← m.read elem.data
  let (m1, b1) ← (match n.prev with
    | some q => do
      let nq ← m.read (some q)
      pure (m.write q { nq with next := n.next }, b)
    | none => pure (m, { b with head := n.next }))
  let n1 ← m1.read elem.data
  match n1.next with
  | some q => do
    let nq ← m1.read (some q)
    pure (m1.write q { nq with prev := n1.prev }, b1)
  | none => pure (m1, { b1 with tail := n1.prev })

/-- The second half of `erase`: the node is looked up in both tables, its address is taken out
of both collision lists, the count goes down and the node is deleted; `result` is the cursor
that `erase` made from `elem.data->next` at its start. -/
def erase_unregister (m2 : Mem Key Value) (b2 : unordered_bimap) (elem result : iterator) :
    Run (iterator × Mem Key Value × unordered_bimap) := do
  let n2 ← m2.read elem.data
  let key_hash := KeyHash n2.key % PRIME_SIZE
  let value_hash := ValueHash n2.value % PRIME_SIZE
  let fk ← find_key KeyHash m2 b2 n2.key
  let key_list ← list_erase_find (b2.key_hashtable key_hash) fk
  let b3 := { b2 with key_hashtable := set_bucket b2.key_hashtable key_hash key_list }
  let fv ← find_value ValueHash m2 b3 n2.value
  let value_list ← list_erase_find (b3.value_hashtable value_hash) fv
  let b4 := { b3 with value_hashtable := set_bucket b3.value_hashtable value_hash value_list }
  let b5 := { b4 with elem_count := if b4.elem_count = 0 then SIZE_MAX else b4.elem_count - 1 }
  match elem.data with
  | none => .error .undefined
  | some a => pure (result, m2.free a, b5)

/-- The loop of `clear` with a counter of the calls of `erase` it makes; the source keeps no
such counter. -/
def clear_loop_counted : Nat → Mem Key Value → unordered_bimap → iterator →
    Run (Nat × Mem Key Value × unordered_bimap)
  | 0, _, _, _ => .error .fuel
  | fuel + 1, m, b, i =>
    if b.empty then .ok (0, m, b)
    else do
      let next ← i.incr m
      let (_, m1, b1) ← erase KeyHash ValueHash m b i
      let (n, m2, b2) ← clear_loop_counted fuel m1 b1 next
      pure (n + 1, m2, b2)

/-- The member `clear`, with the number of calls of `erase` it made. -/
def clear_counted (fuel : Nat) (m : Mem Key Value) (b : unordered_bimap) :
    Run (Nat × Mem Key Value × unordered_bimap) :=
  clear_loop_counted KeyHash ValueHash fuel m b b.begin

/-- The states of two containers living in one store that calls of any public mutating operation
reach from two empty containers: the six operations of `Step` on either container, copy
assignment and move assignment from one to the other, the assignment of a container to itself,
and the copy constructor, whose new container takes the place of the second one.  `swap` only
exchanges the roles of the two containers. -/
inductive ReachableAssign : Mem Key Value → unordered_bimap → unordered_bimap → Prop
  | init (m0 : Mem Key Value) : m0.Fresh → ReachableAssign m0 init init
  | swap {m a b} : ReachableAssign m a b → ReachableAssign m b a
  | step {m a b m1 a1} :
      ReachableAssign m a b → Step KeyHash ValueHash m a m1 a1 → ReachableAssign m1 a1 b
  | copy_assign {m a b} (fuel : Nat) {rs m1 a1} :
      ReachableAssign m a b → copy_assign KeyHash ValueHash fuel m a b = .ok (rs, m1, a1) →
      ReachableAssign m1 a1 b
  | move_assign {m a b} (fuel : Nat) {m1 a1 b1} :
      ReachableAssign m a b → move_assign KeyHash ValueHash fuel m a b = .ok (m1, a1, b1) →
      ReachableAssign m1 a1 b1
  | copy_assign_self {m a b} (fuel : Nat) {rs m1 a1} :
      ReachableAssign m a b → copy_assign_self KeyHash ValueHash fuel m a = .ok (rs, m1, a1) →
      ReachableAssign m1 a1 b
  | move_assign_self {m a b} (fuel : Nat) {m1 a1} :
      ReachableAssign m a b → move_assign_self KeyHash ValueHash fuel m a = .ok (m1, a1) →
      ReachableAssign m1 a1 b
  | copy_ctor {m a b} (fuel : Nat) {rs m1 c} :
      ReachableAssign m a b → copy_ctor KeyHash ValueHash fuel m a = .ok (rs, m1, c) →
      ReachableAssign m1 a c

end unordered_bimap

/-! ## Lemmas -/

open unordered_bimap

section ViewLemmas

variable {Key Value : Type}

theorem read_of_cell {m : Mem Key Value} {a : Nat} {n : node Key Value}
    (h : m.cell a = some n) : m.read (some a) = .ok n := by
  simp [Mem.read, h]

theorem first_or_append (q : Option Nat) (L1 L2 : List (Entry Key Value)) :
    first_or q (L1 ++ L2) = first_or (first_or q L2) L1 := by
  cases L1 <;> rfl

theorem last_or_append (p : Option Nat) (L1 L2 : List (Entry Key Value)) :
    last_or p (L1 ++ L2) = last_or (last_or p L1) L2 := by
  induction L1 generalizing p with
  | nil => rfl
  | cons e r ih => exact ih _

theorem chain_append (cell : Nat → Option (node Key Value)) (p q : Option Nat)
    (L1 L2 : List (Entry Key Value)) :
    Chain cell p (L1 ++ L2) q ↔
      Chain cell p L1 (first_or q L2) ∧ Chain cell (last_or p L1) L2 q := by
  induction L1 generalizing p with
  | nil => simp [Chain, last_or]
  | cons e r ih =>
    show (cell e.addr = some ⟨e.key, e.value, p, first_or q (r ++ L2)⟩ ∧
      Chain cell (some e.addr) (r ++ L2) q) ↔ _
    rw [ih, first_or_append]
    simp only [Chain, last_or, and_assoc]

theorem chain_congr {cell cell1 : Nat → Option (node Key Value)} {p q : Option Nat}
    {L : List (Entry Key Value)} (h : ∀ e ∈ L, cell1 e.addr = cell e.addr)
    (hc : Chain cell p L q) : Chain cell1 p L q := by
  induction L generalizing p with
  | nil => trivial
  | cons e r ih =>
    obtain ⟨h1, h2⟩ := hc
    refine ⟨?_, ih (fun x hx => h x (List.mem_cons_of_mem _ hx)) h2⟩
    rw [h e (List.mem_cons_self _ _)]; exact h1

theorem chain_cell {cell : Nat → Option (node Key Value)} {p q : Option Nat}
    {L1 L2 : List (Entry Key Value)} {e : Entry Key Value}
    (hc : Chain cell p (L1 ++ e :: L2) q) :
    cell e.addr = some ⟨e.key, e.value, last_or p L1, first_or q L2⟩ := by
  rw [chain_append] at hc
  exact hc.2.1

theorem chain_stored {cell : Nat → Option (node Key Value)} {p q : Option Nat}
    {L : List (Entry Key Value)} (hc : Chain cell p L q) : Stored cell L := by
  intro e he
  obtain ⟨L1, L2, rfl⟩ := List.append_of_mem he
  exact ⟨_, _, chain_cell hc⟩

/-- Redirecting the `next` pointer of the last node of a segment. -/
theorem chain_set_next {cell : Nat → Option (node Key Value)} {p q : Option Nat}
    {L : List (Entry Key Value)} {t : Entry Key Value}
    (hc : Chain cell p (L ++ [t]) q) (hn : t.addr ∉ L.map Entry.addr) (q1 : Option Nat) :
    Chain (fun x => if x = t.addr then some ⟨t.key, t.value, last_or p L, q1⟩ else cell x)
      p (L ++ [t]) q1 := by
  rw [chain_append] at hc ⊢
  refine ⟨chain_congr ?_ hc.1, ?_, trivial⟩
  · intro e he
    have : e.addr ≠ t.addr := fun h => hn (h ▸ List.mem_map_of_mem _ he)
    simp [this]
  · simp [first_or]

/-- Redirecting the `prev` pointer of the first node of a segment. -/
theorem chain_set_prev {cell : Nat → Option (node Key Value)} {p q : Option Nat}
    {L : List (Entry Key Value)} {t : Entry Key Value}
    (hc : Chain cell p (t :: L) q) (hn : t.addr ∉ L.map Entry.addr) (p1 : Option Nat) :
    Chain (fun x => if x = t.addr then some ⟨t.key, t.value, p1, first_or q L⟩ else cell x)
      p1 (t :: L) q := by
  refine ⟨by simp, ?_⟩
  refine chain_congr ?_ hc.2
  intro e he
  have : e.addr ≠ t.addr := fun h => hn (h ▸ List.mem_map_of_mem _ he)
  simp [this]

theorem stored_addr_nodup {cell : Nat → Option (node Key Value)} {L : List (Entry Key Value)}
    (hs : Stored cell L) (hk : (L.map Entry.key).Nodup) : (L.map Entry.addr).Nodup := by
  refine List.Nodup.map_on ?_ hk.of_map
  intro x hx y hy hxy
  obtain ⟨p1, n1, h1⟩ := hs x hx
  obtain ⟨p2, n2, h2⟩ := hs y hy
  rw [hxy, h2] at h1
  cases x; cases y
  simp_all

end ViewLemmas

section FindLemmas
variable {Key Value : Type}

theorem find_if_key_bucket [DecidableEq Key] (hk : Key → Nat) (m : Mem Key Value) (k : Key)
    (L : List (Entry Key Value)) (hs : Stored m.cell L) :
    find_if_key m k (bucket_of (fun e => hk e.key) L (hk k % PRIME_SIZE)) =
      .ok ((L.find? (fun e => decide (k = e.key))).map Entry.addr) := by
  induction L with
  | nil => rfl
  | cons e r ih =>
    have hr : Stored m.cell r := fun x hx => hs x (List.mem_cons_of_mem _ hx)
    obtain ⟨pr, nx, hc⟩ := hs e (List.mem_cons_self _ _)
    have := ih hr
    simp only [bucket_of] at this
    by_cases hke : k = e.key
    · subst hke
      simp [bucket_of, find_if_key, read_of_cell hc]
    · by_cases hb : hk e.key % PRIME_SIZE = hk k % PRIME_SIZE
      · simp [bucket_of, find_if_key, read_of_cell hc, hb, hke, this]
      · simp [bucket_of, hb, hke, this]

theorem find_if_value_bucket [DecidableEq Value] (hv : Value → Nat) (m : Mem Key Value)
    (v : Value) (L : List (Entry Key Value)) (hs : Stored m.cell L) :
    find_if_value m v (bucket_of (fun e => hv e.value) L (hv v % PRIME_SIZE)) =
      .ok ((L.find? (fun e => decide (v = e.value))).map Entry.addr) := by
  induction L with
  | nil => rfl
  | cons e r ih =>
    have hr : Stored m.cell r := fun x hx => hs x (List.mem_cons_of_mem _ hx)
    obtain ⟨pr, nx, hc⟩ := hs e (List.mem_cons_self _ _)
    have := ih hr
    simp only [bucket_of] at this
    by_cases hke : v = e.value
    · subst hke
      simp [bucket_of, find_if_value, read_of_cell hc]
    · by_cases hb : hv e.value % PRIME_SIZE = hv v % PRIME_SIZE
      · simp [bucket_of, find_if_value, read_of_cell hc, hb, hke, this]
      · simp [bucket_of, hb, hke, this]

/-- With distinct keys, the search for the key of an entry of the list finds that entry. -/
theorem find_entry_key [DecidableEq Key] {L1 L2 : List (Entry Key Value)} {e : Entry Key Value}
    (hn : ((L1 ++ e :: L2).map Entry.key).Nodup) :
    (L1 ++ e :: L2).find? (fun x => decide (e.key = x.key)) = some e := by
  induction L1 with
  | nil => simp
  | cons x r ih =>
    have hx : e.key ≠ x.key := by
      intro h
      simp only [List.cons_append, List.map_cons, List.nodup_cons] at hn
      exact hn.1 (h ▸ List.mem_map_of_mem _ (by simp))
    have hr : ((r ++ e :: L2).map Entry.key).Nodup := by
      simp only [List.cons_append, List.map_cons, List.nodup_cons] at hn
      exact hn.2
    simp [List.find?, hx, ih hr]

theorem find_entry_value [DecidableEq Value] {L1 L2 : List (Entry Key Value)}
    {e : Entry Key Value} (hn : ((L1 ++ e :: L2).map Entry.value).Nodup) :
    (L1 ++ e :: L2).find? (fun x => decide (e.value = x.value)) = some e := by
  induction L1 with
  | nil => simp
  | cons x r ih =>
    have hx : e.value ≠ x.value := by
      intro h
      simp only [List.cons_append, List.map_cons, List.nodup_cons] at hn
      exact hn.1 (h ▸ List.mem_map_of_mem _ (by simp))
    have hr : ((r ++ e :: L2).map Entry.value).Nodup := by
      simp only [List.cons_append, List.map_cons, List.nodup_cons] at hn
      exact hn.2
    simp [List.find?, hx, ih hr]

theorem find_key_none [DecidableEq Key] {L : List (Entry Key Value)} {k : Key}
    (h : k ∉ L.map Entry.key) : L.find? (fun x => decide (k = x.key)) = none := by
  rw [List.find?_eq_none]
  intro x hx
  simp only [decide_eq_true_eq]
  intro hk
  exact h (hk ▸ List.mem_map_of_mem _ hx)

theorem find_value_none [DecidableEq Value] {L : List (Entry Key Value)} {v : Value}
    (h : v ∉ L.map Entry.value) : L.find? (fun x => decide (v = x.value)) = none := by
  rw [List.find?_eq_none]
  intro x hx
  simp only [decide_eq_true_eq]
  intro hk
  exact h (hk ▸ List.mem_map_of_mem _ hx)

theorem find_key_some [DecidableEq Key] {L : List (Entry Key Value)} {k : Key}
    (h : k ∈ L.map Entry.key) :
    ∃ e, e ∈ L ∧ e.key = k ∧ L.find? (fun x => decide (k = x.key)) = some e := by
  cases hf : L.find? (fun x => decide (k = x.key)) with
  | none =>
    rw [List.find?_eq_none] at hf
    obtain ⟨x, hx, rfl⟩ := List.mem_map.1 h
    exact absurd (by simp) (hf x hx)
  | some e =>
    have h1 := List.find?_some hf
    exact ⟨e, List.mem_of_find?_eq_some hf, (of_decide_eq_true h1).symm, rfl⟩

theorem find_value_some [DecidableEq Value] {L : List (Entry Key Value)} {v : Value}
    (h : v ∈ L.map Entry.value) :
    ∃ e, e ∈ L ∧ e.value = v ∧ L.find? (fun x => decide (v = x.value)) = some e := by
  cases hf : L.find? (fun x => decide (v = x.value)) with
  | none =>
    rw [List.find?_eq_none] at hf
    obtain ⟨x, hx, rfl⟩ := List.mem_map.1 h
    exact absurd (by simp) (hf x hx)
  | some e =>
    have h1 := List.find?_some hf
    exact ⟨e, List.mem_of_find?_eq_some hf, (of_decide_eq_true h1).symm, rfl⟩

variable {hk : Key → Nat} {hv : Value → Nat}
  {m : Mem Key Value} {b : unordered_bimap} {L : List (Entry Key Value)}

theorem Inv.find_key [DecidableEq Key] (h : Inv hk hv m b L) (k : Key) :
    find_key hk m b k = .ok ((L.find? (fun e => decide (k = e.key))).map Entry.addr) := by
  unfold unordered_bimap.find_key
  rw [h.key_index]
  exact find_if_key_bucket hk m k L (chain_stored h.chain)

theorem Inv.find_value [DecidableEq Value] (h : Inv hk hv m b L) (v : Value) :
    find_value hv m b v = .ok ((L.find? (fun e => decide (v = e.value))).map Entry.addr) := by
  unfold unordered_bimap.find_value
  rw [h.value_index]
  exact find_if_value_bucket hv m v L (chain_stored h.chain)

theorem Inv.addr_nodup (h : Inv hk hv m b L) : (L.map Entry.addr).Nodup :=
  stored_addr_nodup (chain_stored h.chain) h.keys

end FindLemmas

section InsertLemmas
variable {Key Value : Type}

theorem bucket_of_append (f : Entry Key Value → Nat) (L1 L2 : List (Entry Key Value)) (i : Nat) :
    bucket_of f (L1 ++ L2) i = bucket_of f L1 i ++ bucket_of f L2 i := by
  simp [bucket_of]

theorem bucket_of_single (f : Entry Key Value → Nat) (e : Entry Key Value) (i : Nat) :
    bucket_of f [e] i = if f e % PRIME_SIZE = i then [e.addr] else [] := by
  by_cases h : f e % PRIME_SIZE = i <;> simp [bucket_of, h]

theorem read_write_ne {m : Mem Key Value} {a c : Nat} {n n1 : node Key Value}
    (h : m.cell c = some n1) (hne : c ≠ a) : (m.write a n).read (some c) = .ok n1 := by
  simp [Mem.read, Mem.write, hne, h]

variable [DecidableEq Key] [DecidableEq Value] {hk : Key → Nat} {hv : Value → Nat}
  {m : Mem Key Value} {b : unordered_bimap} {L : List (Entry Key Value)}

/-- The node handed to `insert(node *)` is rejected when its key or its value is live. -/
theorem insert_node_dup (h : Inv hk hv m b L) {a : Nat} {n : node Key Value}
    (ha : m.cell a = some n)
    (hd : n.key ∈ L.map Entry.key ∨ n.value ∈ L.map Entry.value) :
    insert_node hk hv m b a = .ok (⟨none⟩, m.free a, b) := by
  by_cases h1 : n.key ∈ L.map Entry.key
  · obtain ⟨e, -, -, hf⟩ := find_key_some h1
    simp [insert_node, read_of_cell ha, present_left, h.find_key, hf, bind, Except.bind,
      pure, Except.pure, end_]
  · have h2 : n.value ∈ L.map Entry.value := hd.resolve_left h1
    obtain ⟨e, -, -, hf⟩ := find_value_some h2
    simp [insert_node, read_of_cell ha, present_left, present_right, h.find_key, h.find_value,
      find_key_none h1, hf, bind, Except.bind, pure, Except.pure, end_]

theorem insert_node_new (h : Inv hk hv m b L) {a : Nat} {k : Key} {v : Value}
    (ha : m.cell a = some ⟨k, v, b.tail, none⟩) (hfree : a ∉ L.map Entry.addr)
    (hlt : a < m.brk) (h1 : k ∉ L.map Entry.key) (h2 : v ∉ L.map Entry.value) :
    ∃ m1 b1, insert_node hk hv m b a = .ok (⟨some a⟩, m1, b1) ∧
      Inv hk hv m1 b1 (L ++ [⟨a, k, v⟩]) ∧ m1.brk = m.brk ∧
      (∀ p, p ∉ L.map Entry.addr → m1.cell p = m.cell p) := by
  rcases List.eq_nil_or_concat L with rfl | ⟨L0, t, rfl⟩
  · have htail : b.tail = none := h.tail
    refine ⟨m, ⟨some a, some a,
      set_bucket b.key_hashtable (hk k % PRIME_SIZE) (b.key_hashtable (hk k % PRIME_SIZE) ++ [a]),
      set_bucket b.value_hashtable (hv v % PRIME_SIZE)
        (b.value_hashtable (hv v % PRIME_SIZE) ++ [a]),
      b.elem_count + 1⟩, ?_, ?_, rfl, fun _ _ => rfl⟩
    · simp only [insert_node, read_of_cell ha, present_left, present_right, h.find_key,
        h.find_value, find_key_none h1, find_value_none h2, bind, Except.bind, pure, Except.pure,
        Option.map_none', Option.isSome_none, Bool.false_eq_true, if_false]
      simp only [htail, read_of_cell ha]
    · rw [htail] at ha
      refine ⟨h.fresh, ?_, ?_, rfl, rfl, ?_, ?_, ?_, ?_, ?_⟩
      · simpa using hlt
      · exact ⟨ha, trivial⟩
      · simp [h.count]
      · simp
      · simp
      · intro i
        simp only [List.nil_append, bucket_of_single, set_bucket, h.key_index]
        by_cases hi : i = hk k % PRIME_SIZE
        · subst hi; simp [bucket_of]
        · simp [hi, bucket_of, Ne.symm hi]
      · intro i
        simp only [List.nil_append, bucket_of_single, set_bucket, h.value_index]
        by_cases hi : i = hv v % PRIME_SIZE
        · subst hi; simp [bucket_of]
        · simp [hi, bucket_of, Ne.symm hi]
  · simp only [List.concat_eq_append] at *
    have htail : b.tail = some t.addr := by
      rw [h.tail, last_or_append]; rfl
    have hct : m.cell t.addr = some ⟨t.key, t.value, last_or none L0, none⟩ :=
      chain_cell h.chain
    have hne : a ≠ t.addr := by
      intro hh; apply hfree; rw [hh]; simp
    rw [htail] at ha
    refine ⟨m.write t.addr ⟨t.key, t.value, last_or none L0, some a⟩, ⟨b.head, some a,
      set_bucket b.key_hashtable (hk k % PRIME_SIZE) (b.key_hashtable (hk k % PRIME_SIZE) ++ [a]),
      set_bucket b.value_hashtable (hv v % PRIME_SIZE)
        (b.value_hashtable (hv v % PRIME_SIZE) ++ [a]),
      b.elem_count + 1⟩, ?_, ?_, rfl, ?_⟩
    · simp only [insert_node, read_of_cell ha, present_left, present_right, h.find_key,
        h.find_value, find_key_none h1, find_value_none h2, bind, Except.bind, pure, Except.pure,
        Option.map_none', Option.isSome_none, Bool.false_eq_true, if_false]
      simp only [htail, read_of_cell hct, read_write_ne ha hne]
    · have hnd := h.addr_nodup
      have htn : t.addr ∉ L0.map Entry.addr := by
        rw [List.map_append, List.nodup_append] at hnd
        intro hh
        exact hnd.2.2 hh (by simp)
      have htlt : t.addr < m.brk := h.below t (by simp)
      refine ⟨?_, ?_, ?_, ?_, ?_, ?_, ?_, ?_, ?_, ?_⟩
      · intro p hp
        have hp1 : m.brk ≤ p := hp
        have : p ≠ t.addr := by omega
        simpa [Mem.write, this] using h.fresh p hp1
      · intro e he
        rcases List.mem_append.1 he with he | he
        · exact h.below e he
        · simp only [List.mem_singleton] at he
          subst he; exact hlt
      · rw [chain_append]
        refine ⟨chain_set_next h.chain htn (some a), ?_, trivial⟩
        simp [Mem.write, hne, ha, last_or_append, last_or, first_or]
      · show b.head = _
        rw [h.head, first_or_append, first_or_append, first_or_append]; rfl
      · show some a = _
        rw [last_or_append]; rfl
      · simp [h.count]
      · rw [List.map_append, List.nodup_append]
        refine ⟨h.keys, by simp, ?_⟩
        intro x hx1 hx2
        simp only [List.map_cons, List.map_nil, List.mem_singleton] at hx2
        subst hx2; exact h1 hx1
      · rw [List.map_append, List.nodup_append]
        refine ⟨h.values, by simp, ?_⟩
        intro x hx1 hx2
        simp only [List.map_cons, List.map_nil, List.mem_singleton] at hx2
        subst hx2; exact h2 hx1
      · intro i
        rw [bucket_of_append, bucket_of_single]
        simp only [set_bucket, h.key_index]
        by_cases hi : i = hk k % PRIME_SIZE
        · subst hi; simp
        · simp [hi, Ne.symm hi]
      · intro i
        rw [bucket_of_append, bucket_of_single]
        simp only [set_bucket, h.value_index]
        by_cases hi : i = hv v % PRIME_SIZE
        · subst hi; simp
        · simp [hi, Ne.symm hi]
    · intro p hp
      have : p ≠ t.addr := by
        intro hh; apply hp; rw [hh]; simp
      simp [Mem.write, this]

end InsertLemmas

section InsertSpec
variable {Key Value : Type} {hk : Key → Nat} {hv : Value → Nat}
  {m : Mem Key Value} {b : unordered_bimap} {L : List (Entry Key Value)}

/-- The invariant of a container only depends on the cells of its own entries. -/
theorem Inv.frame (h : Inv hk hv m b L) {m1 : Mem Key Value} (hf : m1.Fresh)
    (hb : m.brk ≤ m1.brk) (hc : ∀ e ∈ L, m1.cell e.addr = m.cell e.addr) :
    Inv hk hv m1 b L :=
  ⟨hf, fun e he => lt_of_lt_of_le (h.below e he) hb, chain_congr hc h.chain, h.head, h.tail,
    h.count, h.keys, h.values, h.key_index, h.value_index⟩

theorem Inv.not_mem_brk (h : Inv hk hv m b L) : m.brk ∉ L.map Entry.addr := by
  intro hh
  obtain ⟨e, he, hea⟩ := List.mem_map.1 hh
  have := h.below e he
  omega

theorem Inv.alloc (h : Inv hk hv m b L) (n : node Key Value) :
    Inv hk hv (m.alloc n).2 b L := by
  refine h.frame ?_ (Nat.le_succ _) ?_
  · intro p hp
    have hp1 : m.brk + 1 ≤ p := hp
    have : p ≠ m.brk := by omega
    simpa [Mem.alloc, this] using h.fresh p (by omega)
  · intro e he
    have := h.below e he
    have : e.addr ≠ m.brk := by omega
    simp [Mem.alloc, this]

variable [DecidableEq Key] [DecidableEq Value]

/-- Inserting a pair whose key or value is live: the cursor `end()` comes back, the container
is untouched and no cell of the store has changed. -/
theorem Inv.insert_dup (h : Inv hk hv m b L) {k : Key} {v : Value}
    (hd : k ∈ L.map Entry.key ∨ v ∈ L.map Entry.value) :
    ∃ m1, unordered_bimap.insert hk hv m b k v = .ok (⟨none⟩, m1, b) ∧ Inv hk hv m1 b L ∧
      m1.brk = m.brk + 1 ∧ m1.cell = m.cell := by
  have ha : (m.alloc ⟨k, v, b.tail, none⟩).2.cell m.brk = some ⟨k, v, b.tail, none⟩ := by
    simp [Mem.alloc]
  have hrun := insert_node_dup (h.alloc ⟨k, v, b.tail, none⟩) ha hd
  have hcell : ((m.alloc ⟨k, v, b.tail, none⟩).2.free m.brk).cell = m.cell := by
    funext p
    by_cases hp : p = m.brk
    · subst hp; simpa [Mem.free] using (h.fresh _ le_rfl).symm
    · simp [Mem.free, Mem.alloc, hp]
  refine ⟨_, hrun, ?_, rfl, hcell⟩
  refine h.frame ?_ (Nat.le_succ _) (fun e _ => by rw [hcell])
  intro p hp
  have hp1 : m.brk + 1 ≤ p := hp
  rw [hcell]
  exact h.fresh p (by omega)

/-- Inserting a pair whose key and value are both new: the entry is appended. -/
theorem Inv.insert_new (h : Inv hk hv m b L) {k : Key} {v : Value}
    (h1 : k ∉ L.map Entry.key) (h2 : v ∉ L.map Entry.value) :
    ∃ m1 b1, unordered_bimap.insert hk hv m b k v = .ok (⟨some m.brk⟩, m1, b1) ∧
      Inv hk hv m1 b1 (L ++ [⟨m.brk, k, v⟩]) ∧ m1.brk = m.brk + 1 ∧
      (∀ p, p ∉ L.map Entry.addr → p ≠ m.brk → m1.cell p = m.cell p) := by
  have ha : (m.alloc ⟨k, v, b.tail, none⟩).2.cell m.brk = some ⟨k, v, b.tail, none⟩ := by
    simp [Mem.alloc]
  obtain ⟨m1, b1, hrun, hinv, hbrk, hcell⟩ :=
    insert_node_new (h.alloc ⟨k, v, b.tail, none⟩) ha h.not_mem_brk
      (Nat.lt_succ_self _) h1 h2
  refine ⟨m1, b1, hrun, hinv, hbrk, ?_⟩
  intro p hp hne
  rw [hcell p hp]
  simp [Mem.alloc, hne]

end InsertSpec

section CursorLemmas
variable {Key Value : Type}

@[simp] theorem first_or_nil (q : Option Nat) :
    first_or q ([] : List (Entry Key Value)) = q := rfl

@[simp] theorem first_or_cons (q : Option Nat) (e : Entry Key Value)
    (r : List (Entry Key Value)) : first_or q (e :: r) = some e.addr := rfl

@[simp] theorem last_or_nil (p : Option Nat) :
    last_or p ([] : List (Entry Key Value)) = p := rfl

@[simp] theorem last_or_cons (p : Option Nat) (e : Entry Key Value)
    (r : List (Entry Key Value)) : last_or p (e :: r) = last_or (some e.addr) r := rfl

theorem incr_of_cell {m : Mem Key Value} {a : Nat} {n : node Key Value}
    (h : m.cell a = some n) : iterator.incr m ⟨some a⟩ = .ok ⟨n.next⟩ := by
  simp [iterator.incr, read_of_cell h, bind, Except.bind, pure, Except.pure]

theorem deref_of_cell {m : Mem Key Value} {a : Nat} {n : node Key Value}
    (h : m.cell a = some n) : iterator.deref m ⟨some a⟩ = .ok (n.key, n.value) := by
  simp [iterator.deref, read_of_cell h, bind, Except.bind, pure, Except.pure]

theorem advance_end (m : Mem Key Value) (n : Nat) :
    advance m (n + 1) ⟨none⟩ = .error .undefined := rfl

/-- Advancing along a segment that ends with `next = nullptr`. -/
theorem advance_chain {m : Mem Key Value} {p : Option Nat} {L : List (Entry Key Value)}
    (hc : Chain m.cell p L none) (n : Nat) :
    advance m n ⟨first_or none L⟩ =
      if n ≤ L.length then .ok ⟨first_or none (L.drop n)⟩ else .error .undefined := by
  induction n generalizing p L with
  | zero => simp [advance]
  | succ n ih =>
    cases L with
    | nil => simp [advance_end]
    | cons e r =>
      obtain ⟨h1, h2⟩ := hc
      simp only [advance, first_or_cons, incr_of_cell h1, bind, Except.bind, ih h2,
        List.drop_succ_cons, List.length_cons, Nat.add_le_add_iff_right]

theorem traverse_chain {m : Mem Key Value} {p : Option Nat} {L : List (Entry Key Value)}
    (hc : Chain m.cell p L none) (fuel : Nat) (hf : L.length < fuel) :
    traverse_loop fuel m ⟨first_or none L⟩ = .ok (L.map Entry.pair) := by
  induction L generalizing p fuel with
  | nil =>
    cases fuel with
    | zero => omega
    | succ f => simp [traverse_loop, iterator.ne]
  | cons e r ih =>
    cases fuel with
    | zero => omega
    | succ f =>
      obtain ⟨h1, h2⟩ := hc
      have := ih h2 f (by simpa using hf)
      simp [traverse_loop, iterator.ne, deref_of_cell h1, incr_of_cell h1, this,
        bind, Except.bind, pure, Except.pure, Entry.pair]

/-- Too little fuel: the loop does not reach `end()`. -/
theorem traverse_chain_fuel {m : Mem Key Value} {p : Option Nat} {L : List (Entry Key Value)}
    (hc : Chain m.cell p L none) (fuel : Nat) (hf : fuel ≤ L.length) :
    traverse_loop fuel m ⟨first_or none L⟩ = .error .fuel := by
  induction L generalizing p fuel with
  | nil =>
    cases fuel with
    | zero => rfl
    | succ f => simp at hf
  | cons e r ih =>
    cases fuel with
    | zero => rfl
    | succ f =>
      obtain ⟨h1, h2⟩ := hc
      have := ih h2 f (by simpa using hf)
      simp [traverse_loop, iterator.ne, deref_of_cell h1, incr_of_cell h1, this,
        bind, Except.bind, pure, Except.pure]

variable {hk : Key → Nat} {hv : Value → Nat}
  {m : Mem Key Value} {b : unordered_bimap} {L : List (Entry Key Value)}

theorem Inv.traverse (h : Inv hk hv m b L) {fuel : Nat} (hf : L.length < fuel) :
    traverse fuel m b = .ok (L.map Entry.pair) := by
  unfold unordered_bimap.traverse unordered_bimap.begin
  rw [h.head]
  exact traverse_chain h.chain fuel hf

theorem Inv.advance (h : Inv hk hv m b L) (n : Nat) :
    advance m n b.begin =
      if n ≤ L.length then .ok ⟨first_or none (L.drop n)⟩ else .error .undefined := by
  unfold unordered_bimap.begin
  rw [h.head]
  exact advance_chain h.chain n

/-- A valid cursor references an entry of the list. -/
theorem Inv.valid_cursor (h : Inv hk hv m b L) {it : iterator} (hv1 : ValidCursor m b it) :
    ∃ L1 e L2, L = L1 ++ e :: L2 ∧ it = ⟨some e.addr⟩ := by
  obtain ⟨hne, n, hn⟩ := hv1
  rw [h.advance] at hn
  split at hn
  · injection hn with hn
    subst hn
    cases hd : L.drop n with
    | nil => simp [hd] at hne
    | cons e L2 =>
      refine ⟨L.take n, e, L2, ?_, by simp⟩
      rw [← hd, List.take_append_drop]
  · cases hn

/-- Every entry of the list is referenced by a valid cursor. -/
theorem Inv.cursor_valid {L1 L2 : List (Entry Key Value)} {e : Entry Key Value}
    (h : Inv hk hv m b (L1 ++ e :: L2)) : ValidCursor m b ⟨some e.addr⟩ := by
  refine ⟨by simp, L1.length, ?_⟩
  rw [h.advance]
  simp

end CursorLemmas

section EraseLemmas
variable {Key Value : Type}

@[simp] theorem last_or_concat (p : Option Nat) (L : List (Entry Key Value))
    (t : Entry Key Value) : last_or p (L ++ [t]) = some t.addr := by
  rw [last_or_append]; rfl

theorem bucket_of_subset (f : Entry Key Value → Nat) (L : List (Entry Key Value)) (i : Nat) :
    ∀ a ∈ bucket_of f L i, a ∈ L.map Entry.addr := by
  intro a ha
  obtain ⟨e, he, rfl⟩ := List.mem_map.1 ha
  exact List.mem_map_of_mem _ (List.mem_filter.1 he).1

theorem bucket_of_mem (f : Entry Key Value → Nat) (L1 L2 : List (Entry Key Value))
    (e : Entry Key Value) : e.addr ∈ bucket_of f (L1 ++ e :: L2) (f e % PRIME_SIZE) := by
  apply List.mem_map_of_mem
  simp

/-- Removing the address of an entry from its bucket. -/
theorem bucket_of_erase (f : Entry Key Value → Nat) (L1 L2 : List (Entry Key Value))
    (e : Entry Key Value) (hn : e.addr ∉ L1.map Entry.addr) (t : Nat → List Nat)
    (ht : ∀ i, t i = bucket_of f (L1 ++ e :: L2) i) (j : Nat) :
    set_bucket t (f e % PRIME_SIZE) ((t (f e % PRIME_SIZE)).erase e.addr) j =
      bucket_of f (L1 ++ L2) j := by
  have hsplit : ∀ i, bucket_of f (L1 ++ e :: L2) i =
      bucket_of f L1 i ++ (bucket_of f [e] i ++ bucket_of f L2 i) := by
    intro i
    rw [← bucket_of_append, ← bucket_of_append]; rfl
  by_cases hj : j = f e % PRIME_SIZE
  · subst hj
    have h1 : e.addr ∉ bucket_of f L1 (f e % PRIME_SIZE) :=
      fun hh => hn (bucket_of_subset f L1 _ _ hh)
    simp only [set_bucket, if_true, ht, hsplit, bucket_of_single, bucket_of_append]
    rw [List.erase_append_right _ h1]
    simp
  · simp only [set_bucket, hj, if_false, ht, hsplit, bucket_of_single, bucket_of_append,
      Ne.symm hj, List.nil_append]

theorem stored_congr {cell cell1 : Nat → Option (node Key Value)} {L : List (Entry Key Value)}
    (hs : Stored cell L)
    (h : ∀ e ∈ L, ∀ n, cell e.addr = some n →
      ∃ n1, cell1 e.addr = some n1 ∧ n1.key = n.key ∧ n1.value = n.value) :
    Stored cell1 L := by
  intro e he
  obtain ⟨pr, nx, hc⟩ := hs e he
  obtain ⟨n1, h1, h2, h3⟩ := h e he _ hc
  refine ⟨n1.prev, n1.next, ?_⟩
  rw [h1]
  cases n1
  simp_all

theorem stored_write {m : Mem Key Value} {L : List (Entry Key Value)} (hs : Stored m.cell L)
    (a : Nat) (n : node Key Value)
    (hn : ∀ n0, m.cell a = some n0 → n.key = n0.key ∧ n.value = n0.value) :
    Stored (m.write a n).cell L := by
  refine stored_congr hs ?_
  intro e he n0 h0
  by_cases hea : e.addr = a
  · refine ⟨n, by simp [Mem.write, hea], ?_⟩
    exact hn n0 (hea ▸ h0)
  · exact ⟨n0, by simp [Mem.write, hea, h0], rfl, rfl⟩

end EraseLemmas

section EraseSpec
variable {Key Value : Type}
  {hk : Key → Nat} {hv : Value → Nat}
  {m : Mem Key Value} {b : unordered_bimap}

theorem Inv.not_mem_left {L1 L2 : List (Entry Key Value)} {e : Entry Key Value}
    (h : Inv hk hv m b (L1 ++ e :: L2)) : e.addr ∉ L1.map Entry.addr := by
  have hnd := h.addr_nodup
  rw [List.map_append, List.nodup_append] at hnd
  intro hh
  exact hnd.2.2 hh (by simp)

theorem Inv.not_mem_right {L1 L2 : List (Entry Key Value)} {e : Entry Key Value}
    (h : Inv hk hv m b (L1 ++ e :: L2)) : e.addr ∉ L2.map Entry.addr := by
  have hnd := h.addr_nodup
  rw [List.map_append, List.map_cons, List.nodup_append, List.nodup_cons] at hnd
  exact hnd.2.1.1

/-- The state left by `erase` once both neighbours have been relinked in the store `m2`. -/
theorem inv_erase_final {L1 L2 : List (Entry Key Value)} {e : Entry Key Value}
    (h : Inv hk hv m b (L1 ++ e :: L2)) (m2 : Mem Key Value) (hbrk : m2.brk = m.brk)
    (hfr : ∀ p, p ∉ (L1 ++ e :: L2).map Entry.addr → m2.cell p = m.cell p)
    (hc1 : Chain m2.cell none L1 (first_or none L2))
    (hc2 : Chain m2.cell (last_or none L1) L2 none) :
    Inv hk hv (m2.free e.addr)
      ⟨first_or none (L1 ++ L2), last_or none (L1 ++ L2),
        set_bucket b.key_hashtable (hk e.key % PRIME_SIZE)
          ((b.key_hashtable (hk e.key % PRIME_SIZE)).erase e.addr),
        set_bucket b.value_hashtable (hv e.value % PRIME_SIZE)
          ((b.value_hashtable (hv e.value % PRIME_SIZE)).erase e.addr),
        L1.length + L2.length⟩ (L1 ++ L2) := by
  have he1 := h.not_mem_left
  have he2 := h.not_mem_right
  have hsub : ∀ x ∈ L1 ++ L2, x ∈ L1 ++ e :: L2 := by
    intro x hx
    rcases List.mem_append.1 hx with hx | hx
    · exact List.mem_append_left _ hx
    · exact List.mem_append_right _ (List.mem_cons_of_mem _ hx)
  have hfree : ∀ x ∈ L1 ++ L2, (m2.free e.addr).cell x.addr = m2.cell x.addr := by
    intro x hx
    have : x.addr ≠ e.addr := by
      intro hh
      rcases List.mem_append.1 hx with hx | hx
      · exact he1 (hh ▸ List.mem_map_of_mem _ hx)
      · exact he2 (hh ▸ List.mem_map_of_mem _ hx)
    simp [Mem.free, this]
  refine ⟨?_, ?_, ?_, rfl, rfl, ?_, ?_, ?_, ?_, ?_⟩
  · intro p hp
    have hp1 : m.brk ≤ p := by
      have : m2.brk ≤ p := hp
      omega
    by_cases hpe : p = e.addr
    · simp [Mem.free, hpe]
    · have hnot : p ∉ (L1 ++ e :: L2).map Entry.addr := by
        intro hh
        obtain ⟨x, hx, hxa⟩ := List.mem_map.1 hh
        have := h.below x hx
        omega
      simpa [Mem.free, hpe, hfr p hnot] using h.fresh p hp1
  · intro x hx
    have := h.below x (hsub x hx)
    show x.addr < m2.brk
    omega
  · rw [chain_append]
    refine ⟨chain_congr (fun x hx => hfree x (List.mem_append_left _ hx)) hc1,
      chain_congr (fun x hx => hfree x (List.mem_append_right _ hx)) hc2⟩
  · simp
  · have := h.keys
    rw [List.map_append, List.map_cons] at this
    rw [List.map_append]
    exact (List.nodup_append.2 ⟨(List.nodup_append.1 this).1,
      (List.nodup_cons.1 (List.nodup_append.1 this).2.1).2,
      fun x hx1 hx2 => (List.nodup_append.1 this).2.2 hx1 (List.mem_cons_of_mem _ hx2)⟩)
  · have := h.values
    rw [List.map_append, List.map_cons] at this
    rw [List.map_append]
    exact (List.nodup_append.2 ⟨(List.nodup_append.1 this).1,
      (List.nodup_cons.1 (List.nodup_append.1 this).2.1).2,
      fun x hx1 hx2 => (List.nodup_append.1 this).2.2 hx1 (List.mem_cons_of_mem _ hx2)⟩)
  · exact bucket_of_erase (fun x => hk x.key) L1 L2 e he1 b.key_hashtable h.key_index
  · exact bucket_of_erase (fun x => hv x.value) L1 L2 e he1 b.value_hashtable h.value_index

end EraseSpec

section EraseSpec
variable {Key Value : Type} [DecidableEq Key] [DecidableEq Value]
  {hk : Key → Nat} {hv : Value → Nat}
  {m : Mem Key Value} {b : unordered_bimap}

theorem Inv.erase {L1 L2 : List (Entry Key Value)} {e : Entry Key Value}
    (h : Inv hk hv m b (L1 ++ e :: L2)) :
    ∃ m1 b1, erase hk hv m b ⟨some e.addr⟩ = .ok (⟨first_or none L2⟩, m1, b1) ∧
      Inv hk hv m1 b1 (L1 ++ L2) ∧ m1.brk = m.brk ∧
      (∀ p, p ∉ (L1 ++ e :: L2).map Entry.addr → m1.cell p = m.cell p) ∧
      m1.cell e.addr = none ∧ b1.elem_count + 1 = b.elem_count := by
  have hce := chain_cell h.chain
  have hst := chain_stored h.chain
  have hfk : ∀ m2 : Mem Key Value, Stored m2.cell (L1 ++ e :: L2) →
      find_if_key m2 e.key (b.key_hashtable (hk e.key % PRIME_SIZE)) = .ok (some e.addr) := by
    intro m2 h2
    rw [h.key_index, find_if_key_bucket hk m2 e.key _ h2, find_entry_key h.keys]; rfl
  have hfv : ∀ m2 : Mem Key Value, Stored m2.cell (L1 ++ e :: L2) →
      find_if_value m2 e.value (b.value_hashtable (hv e.value % PRIME_SIZE)) =
        .ok (some e.addr) := by
    intro m2 h2
    rw [h.value_index, find_if_value_bucket hv m2 e.value _ h2, find_entry_value h.values]; rfl
  have hmk : e.addr ∈ b.key_hashtable (hk e.key % PRIME_SIZE) := by
    rw [h.key_index]; exact bucket_of_mem (fun x => hk x.key) L1 L2 e
  have hmv : e.addr ∈ b.value_hashtable (hv e.value % PRIME_SIZE) := by
    rw [h.value_index]; exact bucket_of_mem (fun x => hv x.value) L1 L2 e
  have hcnt : b.elem_count = L1.length + L2.length + 1 := by
    rw [h.count]; simp; omega
  have he1 := h.not_mem_left
  have he2 := h.not_mem_right
  have hch := (chain_append _ _ _ _ _).1 h.chain
  obtain ⟨hch1, -, hch2⟩ := hch
  have hfin := inv_erase_final h
  have hhead := h.head
  have htail := h.tail
  rcases List.eq_nil_or_concat L1 with rfl | ⟨L0, t, rfl⟩
  · cases L2 with
    | nil =>
      simp only [List.nil_append, last_or_nil, first_or_nil] at hce
      refine ⟨m.free e.addr, _, ?_, hfin m rfl (fun _ _ => rfl) trivial trivial, rfl, ?_, ?_, ?_⟩
      · simp only [unordered_bimap.erase, read_of_cell hce, bind, Except.bind, pure, Except.pure,
          unordered_bimap.find_key, unordered_bimap.find_value, hfk m hst, hfv m hst,
          list_erase_find, hmk, hmv, if_true, hcnt]
        simp
      · intro p hp
        have : p ≠ e.addr := by intro hh; apply hp; simp [hh]
        simp [Mem.free, this]
      · simp [Mem.free]
      · simp [hcnt]
    | cons u L3 =>
      simp only [List.nil_append, last_or_nil, first_or_cons] at hce
      have hcu : m.cell u.addr = some ⟨u.key, u.value, some e.addr, first_or none L3⟩ := hch2.1
      have hue : u.addr ≠ e.addr := by intro hh; apply he2; simp [hh]
      have hun : u.addr ∉ L3.map Entry.addr := by
        have hnd := h.addr_nodup
        simp only [List.nil_append, List.map_cons, List.nodup_cons] at hnd
        exact hnd.2.1
      refine ⟨(m.write u.addr ⟨u.key, u.value, none, first_or none L3⟩).free e.addr, _, ?_,
        hfin (m.write u.addr ⟨u.key, u.value, none, first_or none L3⟩) rfl ?_ trivial
          (chain_set_prev hch2 hun none), rfl, ?_, ?_, ?_⟩
      · have hst2 := stored_write hst u.addr ⟨u.key, u.value, none, first_or none L3⟩
          (by intro n0 h0; rw [hcu] at h0; cases h0; exact ⟨rfl, rfl⟩)
        simp only [unordered_bimap.erase, read_of_cell hce, read_of_cell hcu,
          read_write_ne hce (Ne.symm hue), bind, Except.bind, pure, Except.pure,
          unordered_bimap.find_key, unordered_bimap.find_value, hfk _ hst2, hfv _ hst2,
          list_erase_find, hmk, hmv, if_true, hcnt]
        simp [hhead, htail]
      · intro p hp
        have : p ≠ u.addr := by intro hh; apply hp; simp [hh]
        simp [Mem.write, this]
      · intro p hp
        have h1 : p ≠ e.addr := by intro hh; apply hp; simp [hh]
        have h2 : p ≠ u.addr := by intro hh; apply hp; simp [hh]
        simp [Mem.free, Mem.write, h1, h2]
      · simp [Mem.free]
      · simp [hcnt]
  · simp only [List.concat_eq_append] at *
    have hct : m.cell t.addr = some ⟨t.key, t.value, last_or none L0, some e.addr⟩ := by
      have : m.cell t.addr =
          some ⟨t.key, t.value, last_or none L0, first_or (some e.addr) []⟩ := chain_cell hch1
      simpa using this
    have hte : t.addr ≠ e.addr := by intro hh; apply he1; simp [hh]
    have htn : t.addr ∉ L0.map Entry.addr := by
      have hnd := h.addr_nodup
      rw [List.map_append, List.nodup_append, List.map_append, List.nodup_append] at hnd
      intro hh
      exact hnd.1.2.2 hh (by simp)
    cases L2 with
    | nil =>
      simp only [last_or_concat, first_or_nil] at hce
      refine ⟨(m.write t.addr ⟨t.key, t.value, last_or none L0, none⟩).free e.addr, _, ?_,
        hfin (m.write t.addr ⟨t.key, t.value, last_or none L0, none⟩) rfl ?_
          (chain_set_next hch1 htn none) trivial, rfl, ?_, ?_, ?_⟩
      · have hst2 := stored_write hst t.addr ⟨t.key, t.value, last_or none L0, none⟩
          (by intro n0 h0; rw [hct] at h0; cases h0; exact ⟨rfl, rfl⟩)
        simp only [unordered_bimap.erase, read_of_cell hce, read_of_cell hct,
          read_write_ne hce (Ne.symm hte), bind, Except.bind, pure, Except.pure,
          unordered_bimap.find_key, unordered_bimap.find_value, hfk _ hst2, hfv _ hst2,
          list_erase_find, hmk, hmv, if_true, hcnt]
        simp [hhead, htail, first_or_append]
      · intro p hp
        have : p ≠ t.addr := by intro hh; apply hp; simp [hh]
        simp [Mem.write, this]
      · intro p hp
        have h1 : p ≠ e.addr := by intro hh; apply hp; simp [hh]
        have h2 : p ≠ t.addr := by intro hh; apply hp; simp [hh]
        simp [Mem.free, Mem.write, h1, h2]
      · simp [Mem.free]
      · simp [hcnt]
    | cons u L3 =>
      simp only [last_or_concat, first_or_cons] at hce
      have hcu : m.cell u.addr = some ⟨u.key, u.value, some e.addr, first_or none L3⟩ := hch2.1
      have hue : u.addr ≠ e.addr := by intro hh; apply he2; simp [hh]
      have hun : u.addr ∉ L3.map Entry.addr := by
        have hnd := h.addr_nodup
        rw [List.map_append, List.nodup_append] at hnd
        have := hnd.2.1
        simp only [List.map_cons, List.nodup_cons] at this
        exact this.2.1
      have hut : u.addr ≠ t.addr := by
        have hnd := h.addr_nodup
        rw [List.map_append, List.nodup_append] at hnd
        intro hh
        have hd : t.addr ∈ List.map Entry.addr (L0 ++ [t]) := by simp
        exact hnd.2.2 hd (by simp [← hh])
      have hu1 : ∀ x ∈ L0 ++ [t], x.addr ≠ u.addr := by
        have hnd := h.addr_nodup
        rw [List.map_append, List.nodup_append] at hnd
        intro x hx hh
        exact hnd.2.2 (List.mem_map_of_mem _ hx) (by simp [hh])
      have ht2 : ∀ x ∈ u :: L3, x.addr ≠ t.addr := by
        have hnd := h.addr_nodup
        rw [List.map_append, List.nodup_append] at hnd
        intro x hx hh
        have hd : t.addr ∈ List.map Entry.addr (L0 ++ [t]) := by simp
        exact hnd.2.2 hd
          (by rw [← hh]; exact List.mem_map_of_mem _ (List.mem_cons_of_mem _ hx))
      have hcu1 : (m.write t.addr ⟨t.key, t.value, last_or none L0, some u.addr⟩).cell u.addr
          = some ⟨u.key, u.value, some e.addr, first_or none L3⟩ := by
        simp [Mem.write, hut, hcu]
      have hce1 : (m.write t.addr ⟨t.key, t.value, last_or none L0, some u.addr⟩).cell e.addr
          = some ⟨e.key, e.value, some t.addr, some u.addr⟩ := by
        simp [Mem.write, Ne.symm hte, hce]
      refine ⟨((m.write t.addr ⟨t.key, t.value, last_or none L0, some u.addr⟩).write u.addr
          ⟨u.key, u.value, some t.addr, first_or none L3⟩).free e.addr, _, ?_,
        hfin ((m.write t.addr ⟨t.key, t.value, last_or none L0, some u.addr⟩).write u.addr
          ⟨u.key, u.value, some t.addr, first_or none L3⟩) rfl ?_ ?_ ?_, rfl, ?_, ?_, ?_⟩
      · have hst1 := stored_write hst t.addr ⟨t.key, t.value, last_or none L0, some u.addr⟩
          (by intro n0 h0; rw [hct] at h0; cases h0; exact ⟨rfl, rfl⟩)
        have hst2 := stored_write hst1 u.addr ⟨u.key, u.value, some t.addr, first_or none L3⟩
          (by intro n0 h0; rw [hcu1] at h0; cases h0; exact ⟨rfl, rfl⟩)
        simp only [unordered_bimap.erase, read_of_cell hce, read_of_cell hct,
          read_of_cell hce1, read_of_cell hcu1,
          read_write_ne hce1 (Ne.symm hue), bind, Except.bind, pure, Except.pure,
          unordered_bimap.find_key, unordered_bimap.find_value, hfk _ hst2, hfv _ hst2,
          list_erase_find, hmk, hmv, if_true, hcnt]
        simp [hhead, htail, first_or_append, last_or_append]
      · intro p hp
        have h1 : p ≠ t.addr := by intro hh; apply hp; simp [hh]
        have h2 : p ≠ u.addr := by intro hh; apply hp; simp [hh]
        simp [Mem.write, h1, h2]
      · refine chain_congr ?_ (chain_set_next hch1 htn (some u.addr))
        intro x hx
        simp [Mem.write, hu1 x hx]
      · have hc2 : Chain (m.write t.addr ⟨t.key, t.value, last_or none L0, some u.addr⟩).cell
            (some e.addr) (u :: L3) none := by
          refine chain_congr ?_ hch2
          intro x hx
          simp [Mem.write, ht2 x hx]
        have := chain_set_prev hc2 hun (some t.addr)
        simpa using this
      · intro p hp
        have h1 : p ≠ e.addr := by intro hh; apply hp; simp [hh]
        have h2 : p ≠ t.addr := by intro hh; apply hp; simp [hh]
        have h3 : p ≠ u.addr := by intro hh; apply hp; simp [hh]
        simp [Mem.free, Mem.write, h1, h2, h3]
      · simp [Mem.free]
      · simp [hcnt]

end EraseSpec

section LoopSpec
variable {Key Value : Type} [DecidableEq Key] [DecidableEq Value]
  {hk : Key → Nat} {hv : Value → Nat}

/-- The loop of `erase_range` removes the entries `R` between the two cursors, provided the
fuel allows one test of the loop condition more than there are entries in `R`. -/
theorem Inv.erase_range_loop {L1 L2 : List (Entry Key Value)} (R : List (Entry Key Value))
    {m : Mem Key Value} {b : unordered_bimap} (h : Inv hk hv m b (L1 ++ (R ++ L2))) :
    ∃ m1 b1, Inv hk hv m1 b1 (L1 ++ L2) ∧ m1.brk = m.brk ∧
      (∀ p, p ∉ (L1 ++ (R ++ L2)).map Entry.addr → m1.cell p = m.cell p) ∧
      b1.elem_count + R.length = b.elem_count ∧
      ∀ fuel, erase_range_loop hk hv fuel m b ⟨first_or none (R ++ L2)⟩ ⟨first_or none L2⟩ =
        if R.length < fuel then .ok (⟨first_or none L2⟩, m1, b1) else .error .fuel := by
  induction R generalizing m b with
  | nil =>
    refine ⟨m, b, h, rfl, fun _ _ => rfl, rfl, ?_⟩
    intro fuel
    cases fuel with
    | zero => rfl
    | succ f => simp [unordered_bimap.erase_range_loop, iterator.ne]
  | cons e R ih =>
    replace h : Inv hk hv m b (L1 ++ e :: (R ++ L2)) := h
    have hce := chain_cell h.chain
    obtain ⟨m1, b1, hrun, hinv, hbrk, hfr, -, hcnt⟩ := h.erase
    obtain ⟨m2, b2, hinv2, hbrk2, hfr2, hcnt2, hloop⟩ := ih hinv
    refine ⟨m2, b2, hinv2, by rw [hbrk2, hbrk], ?_, ?_, ?_⟩
    · intro p hp
      rw [hfr2 p, hfr p hp]
      intro hh
      apply hp
      simp only [List.map_append, List.mem_append, List.map_cons, List.mem_cons] at hh ⊢
      tauto
    · simp only [List.length_cons]; omega
    · intro fuel
      cases fuel with
      | zero => rfl
      | succ f =>
        have hne : (some e.addr : Option Nat) ≠ first_or none L2 := by
          cases L2 with
          | nil => simp
          | cons u L3 =>
            have : e.addr ∉ (R ++ u :: L3).map Entry.addr := h.not_mem_right
            simp only [first_or_cons, ne_eq, Option.some.injEq]
            intro hh
            apply this
            simp [hh]
        simp only [List.cons_append, first_or_cons, unordered_bimap.erase_range_loop,
          iterator.ne, bne_iff_ne, ne_eq, hne, not_false_eq_true, if_true, incr_of_cell hce,
          hrun, bind, Except.bind, hloop f, List.length_cons, Nat.add_lt_add_iff_right]

end LoopSpec

section LoopSpec
variable {Key Value : Type} [DecidableEq Key] [DecidableEq Value]
  {hk : Key → Nat} {hv : Value → Nat}

/-- The loop of `clear` erases every entry, provided the fuel allows one test of the loop
condition more than there are entries. -/
theorem Inv.clear_loop (L : List (Entry Key Value))
    {m : Mem Key Value} {b : unordered_bimap} (h : Inv hk hv m b L) :
    ∃ m1 b1, Inv hk hv m1 b1 [] ∧ m1.brk = m.brk ∧
      (∀ p, p ∉ L.map Entry.addr → m1.cell p = m.cell p) ∧
      ∀ fuel, clear_loop hk hv fuel m b ⟨first_or none L⟩ =
        if L.length < fuel then .ok (m1, b1) else .error .fuel := by
  induction L generalizing m b with
  | nil =>
    refine ⟨m, b, h, rfl, fun _ _ => rfl, ?_⟩
    intro fuel
    cases fuel with
    | zero => rfl
    | succ f => simp [unordered_bimap.clear_loop, unordered_bimap.empty, h.count]
  | cons e R ih =>
    replace h : Inv hk hv m b ([] ++ e :: R) := h
    have hce := chain_cell h.chain
    obtain ⟨m1, b1, hrun, hinv, hbrk, hfr, -, hcnt⟩ := h.erase
    obtain ⟨m2, b2, hinv2, hbrk2, hfr2, hloop⟩ := ih hinv
    refine ⟨m2, b2, hinv2, by rw [hbrk2, hbrk], ?_, ?_⟩
    · intro p hp
      rw [hfr2 p, hfr p hp]
      intro hh
      apply hp
      simp only [List.nil_append, List.map_cons, List.mem_cons] at hh ⊢
      exact Or.inr hh
    · intro fuel
      cases fuel with
      | zero => rfl
      | succ f =>
        have hemp : b.empty = false := by
          simp [unordered_bimap.empty, h.count]
        simp only [first_or_cons, unordered_bimap.clear_loop, hemp, Bool.false_eq_true,
          if_false, incr_of_cell hce, hrun, bind, Except.bind, List.length_cons,
          Nat.add_lt_add_iff_right]
        exact hloop f

theorem Inv.clear {L : List (Entry Key Value)}
    {m : Mem Key Value} {b : unordered_bimap} (h : Inv hk hv m b L) :
    ∃ m1 b1, Inv hk hv m1 b1 [] ∧ m1.brk = m.brk ∧
      (∀ p, p ∉ L.map Entry.addr → m1.cell p = m.cell p) ∧
      ∀ fuel, clear hk hv fuel m b =
        if L.length < fuel then .ok (m1, b1) else .error .fuel := by
  obtain ⟨m1, b1, h1, h2, h3, h4⟩ := h.clear_loop L
  refine ⟨m1, b1, h1, h2, h3, ?_⟩
  intro fuel
  unfold unordered_bimap.clear unordered_bimap.begin
  rw [h.head]
  exact h4 fuel

theorem Inv.erase_left_found {L1 L2 : List (Entry Key Value)} {e : Entry Key Value}
    {m : Mem Key Value} {b : unordered_bimap} (h : Inv hk hv m b (L1 ++ e :: L2)) :
    ∃ m1 b1, erase_left hk hv m b e.key = .ok (true, m1, b1) ∧
      Inv hk hv m1 b1 (L1 ++ L2) ∧ m1.brk = m.brk ∧
      (∀ p, p ∉ (L1 ++ e :: L2).map Entry.addr → m1.cell p = m.cell p) ∧
      m1.cell e.addr = none ∧ b1.elem_count + 1 = b.elem_count := by
  obtain ⟨m1, b1, hrun, hrest⟩ := h.erase
  refine ⟨m1, b1, ?_, hrest⟩
  simp [unordered_bimap.erase_left, present_left, h.find_key, find_entry_key h.keys, hrun,
    bind, Except.bind, pure, Except.pure]

theorem Inv.erase_left_absent {L : List (Entry Key Value)} {k : Key}
    {m : Mem Key Value} {b : unordered_bimap} (h : Inv hk hv m b L)
    (hn : k ∉ L.map Entry.key) : erase_left hk hv m b k = .ok (false, m, b) := by
  simp [unordered_bimap.erase_left, present_left, h.find_key, find_key_none hn,
    bind, Except.bind, pure, Except.pure]

theorem Inv.erase_right_found {L1 L2 : List (Entry Key Value)} {e : Entry Key Value}
    {m : Mem Key Value} {b : unordered_bimap} (h : Inv hk hv m b (L1 ++ e :: L2)) :
    ∃ m1 b1, erase_right hk hv m b e.value = .ok (true, m1, b1) ∧
      Inv hk hv m1 b1 (L1 ++ L2) ∧ m1.brk = m.brk ∧
      (∀ p, p ∉ (L1 ++ e :: L2).map Entry.addr → m1.cell p = m.cell p) ∧
      m1.cell e.addr = none ∧ b1.elem_count + 1 = b.elem_count := by
  obtain ⟨m1, b1, hrun, hrest⟩ := h.erase
  refine ⟨m1, b1, ?_, hrest⟩
  simp [unordered_bimap.erase_right, present_right, h.find_value, find_entry_value h.values,
    hrun, bind, Except.bind, pure, Except.pure]

theorem Inv.erase_right_absent {L : List (Entry Key Value)} {v : Value}
    {m : Mem Key Value} {b : unordered_bimap} (h : Inv hk hv m b L)
    (hn : v ∉ L.map Entry.value) : erase_right hk hv m b v = .ok (false, m, b) := by
  simp [unordered_bimap.erase_right, present_right, h.find_value, find_value_none hn,
    bind, Except.bind, pure, Except.pure]

end LoopSpec

section StepSpec
variable {Key Value : Type}
  {hk : Key → Nat} {hv : Value → Nat}

/-- A valid range splits the entries into those before it, those in it and those after it. -/
theorem Inv.valid_range {L : List (Entry Key Value)} {m : Mem Key Value} {b : unordered_bimap}
    (h : Inv hk hv m b L) {first last : iterator} {i j : Nat}
    (hr : ValidRange m b first last i j) :
    ∃ L1 R L2, L = L1 ++ (R ++ L2) ∧ first = ⟨first_or none (R ++ L2)⟩ ∧
      last = ⟨first_or none L2⟩ ∧ L1.length = i ∧ R.length = j := by
  obtain ⟨h1, h2⟩ := hr
  rw [h.advance] at h1
  split at h1
  next hi =>
    injection h1 with h1
    subst h1
    have hc := h.chain
    rw [← List.take_append_drop i L, chain_append] at hc
    rw [advance_chain hc.2] at h2
    split at h2
    next hj =>
      injection h2 with h2
      subst h2
      refine ⟨L.take i, (L.drop i).take j, (L.drop i).drop j, ?_, ?_, rfl, ?_, ?_⟩
      · rw [List.take_append_drop, List.take_append_drop]
      · rw [List.take_append_drop]
      · simp [hi]
      · simp only [List.length_take, List.length_drop] at hj ⊢
        omega
    next => cases h2
  next => cases h1

/-- Conversely, the cursors at the two ends of a segment of the entries form a valid range. -/
theorem Inv.range_valid {L1 R L2 : List (Entry Key Value)} {m : Mem Key Value}
    {b : unordered_bimap} (h : Inv hk hv m b (L1 ++ (R ++ L2))) :
    ValidRange m b ⟨first_or none (R ++ L2)⟩ ⟨first_or none L2⟩ L1.length R.length := by
  refine ⟨?_, ?_⟩
  · rw [h.advance]; simp
  · have hc := h.chain
    rw [chain_append] at hc
    rw [advance_chain hc.2]; simp

end StepSpec

section StepSpec
variable {Key Value : Type}

theorem mem_of_mem_remove {L1 L2 : List (Entry Key Value)} (R : List (Entry Key Value))
    {x : Entry Key Value} (hx : x ∈ L1 ++ L2) : x ∈ L1 ++ (R ++ L2) := by
  simp only [List.mem_append] at hx ⊢
  tauto

/-- The empty container satisfies the invariant in every store without dangling allocations. -/
theorem Inv.init {hk : Key → Nat} {hv : Value → Nat} {m0 : Mem Key Value} (h : m0.Fresh) :
    Inv hk hv m0 unordered_bimap.init [] :=
  ⟨h, fun _ he => absurd he (List.not_mem_nil _), trivial, rfl, rfl, rfl, List.nodup_nil, List.nodup_nil,
    fun _ => rfl, fun _ => rfl⟩

variable [DecidableEq Key] [DecidableEq Value] {hk : Key → Nat} {hv : Value → Nat}

/-- Every call of a public mutating operation keeps the invariant, moves the allocation frontier
up at most, touches no cell of the old store outside the container, and adds entries only at
addresses that were not allocated before. -/
theorem step_inv {m m1 : Mem Key Value} {b b1 : unordered_bimap} {L : List (Entry Key Value)}
    (hs : Step hk hv m b m1 b1) (h : Inv hk hv m b L) :
    ∃ L1, Inv hk hv m1 b1 L1 ∧ m.brk ≤ m1.brk ∧
      (∀ p, p ∉ L.map Entry.addr → p < m.brk → m1.cell p = m.cell p) ∧
      (∀ e ∈ L1, e ∈ L ∨ m.brk ≤ e.addr) := by
  cases hs with
  | insert k v hrun =>
    by_cases hd : k ∈ L.map Entry.key ∨ v ∈ L.map Entry.value
    · obtain ⟨m2, hrun2, hinv, hbrk, hcell⟩ := h.insert_dup hd
      rw [hrun2] at hrun
      injection hrun with hrun
      injection hrun with _ hrun
      injection hrun with hm hb
      subst hm; subst hb
      exact ⟨L, hinv, by omega, fun p _ _ => by rw [hcell], fun e he => Or.inl he⟩
    · rw [not_or] at hd
      obtain ⟨m2, b2, hrun2, hinv, hbrk, hcell⟩ := h.insert_new hd.1 hd.2
      rw [hrun2] at hrun
      injection hrun with hrun
      injection hrun with _ hrun
      injection hrun with hm hb
      subst hm; subst hb
      refine ⟨_, hinv, by omega, fun p hp hlt => hcell p hp (by omega), ?_⟩
      intro e he
      rcases List.mem_append.1 he with he | he
      · exact Or.inl he
      · simp only [List.mem_singleton] at he
        subst he; exact Or.inr le_rfl
  | erase it hvalid hrun =>
    obtain ⟨L1, e, L2, rfl, rfl⟩ := h.valid_cursor hvalid
    obtain ⟨m2, b2, hrun2, hinv, hbrk, hcell, -⟩ := h.erase
    rw [hrun2] at hrun
    injection hrun with hrun
    injection hrun with _ hrun
    injection hrun with hm hb
    subst hm; subst hb
    exact ⟨_, hinv, by omega, fun p hp _ => hcell p hp,
      fun x hx => Or.inl (mem_of_mem_remove [e] hx)⟩
  | erase_range fuel first last i j hvalid hrun =>
    obtain ⟨L1, R, L2, rfl, rfl, rfl, -, -⟩ := h.valid_range hvalid
    obtain ⟨m2, b2, hinv, hbrk, hcell, -, hloop⟩ := h.erase_range_loop R
    unfold unordered_bimap.erase_range at hrun
    rw [hloop] at hrun
    split at hrun
    · injection hrun with hrun
      injection hrun with _ hrun
      injection hrun with hm hb
      subst hm; subst hb
      exact ⟨_, hinv, by omega, fun p hp _ => hcell p hp,
        fun x hx => Or.inl (mem_of_mem_remove R hx)⟩
    · cases hrun
  | erase_left k hrun =>
    by_cases hd : k ∈ L.map Entry.key
    · obtain ⟨e, he, rfl, -⟩ := find_key_some hd
      obtain ⟨L1, L2, rfl⟩ := List.append_of_mem he
      obtain ⟨m2, b2, hrun2, hinv, hbrk, hcell, -⟩ := h.erase_left_found
      rw [hrun2] at hrun
      injection hrun with hrun
      injection hrun with _ hrun
      injection hrun with hm hb
      subst hm; subst hb
      exact ⟨_, hinv, by omega, fun p hp _ => hcell p hp,
        fun x hx => Or.inl (mem_of_mem_remove [e] hx)⟩
    · rw [h.erase_left_absent hd] at hrun
      injection hrun with hrun
      injection hrun with _ hrun
      injection hrun with hm hb
      subst hm; subst hb
      exact ⟨L, h, le_rfl, fun _ _ _ => rfl, fun e he => Or.inl he⟩
  | erase_right v hrun =>
    by_cases hd : v ∈ L.map Entry.value
    · obtain ⟨e, he, rfl, -⟩ := find_value_some hd
      obtain ⟨L1, L2, rfl⟩ := List.append_of_mem he
      obtain ⟨m2, b2, hrun2, hinv, hbrk, hcell, -⟩ := h.erase_right_found
      rw [hrun2] at hrun
      injection hrun with hrun
      injection hrun with _ hrun
      injection hrun with hm hb
      subst hm; subst hb
      exact ⟨_, hinv, by omega, fun p hp _ => hcell p hp,
        fun x hx => Or.inl (mem_of_mem_remove [e] hx)⟩
    · rw [h.erase_right_absent hd] at hrun
      injection hrun with hrun
      injection hrun with _ hrun
      injection hrun with hm hb
      subst hm; subst hb
      exact ⟨L, h, le_rfl, fun _ _ _ => rfl, fun e he => Or.inl he⟩
  | clear fuel hrun =>
    obtain ⟨m2, b2, hinv, hbrk, hcell, hloop⟩ := h.clear
    rw [hloop] at hrun
    split at hrun
    · injection hrun with hrun
      injection hrun with hm hb
      subst hm; subst hb
      exact ⟨[], hinv, by omega, fun p hp _ => hcell p hp, fun x hx => by cases hx⟩
    · cases hrun

/-- Every reachable state satisfies the invariant for some list of entries. -/
theorem reachable_inv {m : Mem Key Value} {b : unordered_bimap} (h : Reachable hk hv m b) :
    ∃ L, Inv hk hv m b L := by
  induction h with
  | init m0 h0 => exact ⟨[], Inv.init h0⟩
  | step _ hs ih =>
    obtain ⟨L, hL⟩ := ih
    obtain ⟨L1, h1, -⟩ := step_inv hs hL
    exact ⟨L1, h1⟩

/-- Two containers reached in one store satisfy the invariant on disjoint sets of addresses. -/
theorem reachable2_inv {m : Mem Key Value} {a b : unordered_bimap}
    (h : Reachable2 hk hv m a b) :
    ∃ La Lb, Inv hk hv m a La ∧ Inv hk hv m b Lb ∧
      ∀ x ∈ La, ∀ y ∈ Lb, x.addr ≠ y.addr := by
  induction h with
  | init m0 h0 => exact ⟨[], [], Inv.init h0, Inv.init h0, fun _ hx => by cases hx⟩
  | @left m a b m1 a1 _ hs ih =>
    obtain ⟨La, Lb, ha, hb, hd⟩ := ih
    obtain ⟨La1, ha1, hbrk, hcell, hnew⟩ := step_inv hs ha
    refine ⟨La1, Lb, ha1, hb.frame ha1.fresh hbrk ?_, ?_⟩
    · intro y hy
      refine hcell y.addr ?_ (hb.below y hy)
      intro hh
      obtain ⟨x, hx, hxa⟩ := List.mem_map.1 hh
      exact hd x hx y hy hxa
    · intro x hx y hy
      rcases hnew x hx with hx | hx
      · exact hd x hx y hy
      · have := hb.below y hy
        omega
  | @right m a b m1 b1 _ hs ih =>
    obtain ⟨La, Lb, ha, hb, hd⟩ := ih
    obtain ⟨Lb1, hb1, hbrk, hcell, hnew⟩ := step_inv hs hb
    refine ⟨La, Lb1, ha.frame hb1.fresh hbrk ?_, hb1, ?_⟩
    · intro x hx
      refine hcell x.addr ?_ (ha.below x hx)
      intro hh
      obtain ⟨y, hy, hya⟩ := List.mem_map.1 hh
      exact hd x hx y hy hya.symm
    · intro x hx y hy
      rcases hnew y hy with hy | hy
      · exact hd x hx y hy
      · have := ha.below x hx
        omega

end StepSpec

section Lookup
variable {Key Value : Type}

theorem map_fst_pair (L : List (Entry Key Value)) :
    (L.map Entry.pair).map Prod.fst = L.map Entry.key := by
  simp [List.map_map, Function.comp_def, Entry.pair]

theorem map_snd_pair (L : List (Entry Key Value)) :
    (L.map Entry.pair).map Prod.snd = L.map Entry.value := by
  simp [List.map_map, Function.comp_def, Entry.pair]

theorem mem_pairs {L : List (Entry Key Value)} {k : Key} {v : Value}
    (h : (k, v) ∈ L.map Entry.pair) : ∃ L1 e L2, L = L1 ++ e :: L2 ∧ e.key = k ∧ e.value = v := by
  obtain ⟨e, he, hp⟩ := List.mem_map.1 h
  obtain ⟨L1, L2, rfl⟩ := List.append_of_mem he
  simp only [Entry.pair, Prod.mk.injEq] at hp
  exact ⟨L1, e, L2, rfl, hp.1, hp.2⟩

variable {hk : Key → Nat} {hv : Value → Nat}
  {m : Mem Key Value} {b : unordered_bimap} {L : List (Entry Key Value)}

/-- The traversal of a container that satisfies the invariant lists the pairs of its entries. -/
theorem Inv.pairs (h : Inv hk hv m b L) {ps : List (Key × Value)}
    (hps : unordered_bimap.traverse (b.size + 1) m b = .ok ps) : ps = L.map Entry.pair := by
  rw [h.traverse (by simp [unordered_bimap.size, h.count])] at hps
  injection hps with hps
  exact hps.symm

theorem Inv.traverse_size (h : Inv hk hv m b L) :
    unordered_bimap.traverse (b.size + 1) m b = .ok (L.map Entry.pair) :=
  h.traverse (by simp [unordered_bimap.size, h.count])

theorem Inv.find_left_absent [DecidableEq Key] (h : Inv hk hv m b L) {k : Key}
    (hn : k ∉ L.map Entry.key) :
    find_left hk m b k = .ok b.end_ ∧ at_left hk m b k = .error .out_of_range ∧
      present_left hk m b k = .ok false := by
  simp [unordered_bimap.find_left, unordered_bimap.at_left, present_left, h.find_key,
    find_key_none hn, bind, Except.bind, pure, Except.pure, end_]

theorem Inv.find_left_present [DecidableEq Key] {L1 L2 : List (Entry Key Value)}
    {e : Entry Key Value} (h : Inv hk hv m b (L1 ++ e :: L2)) :
    find_left hk m b e.key = .ok ⟨some e.addr⟩ ∧ at_left hk m b e.key = .ok e.value ∧
      present_left hk m b e.key = .ok true := by
  have hc := chain_cell h.chain
  simp [unordered_bimap.find_left, unordered_bimap.at_left, present_left, h.find_key,
    find_entry_key h.keys, bind, Except.bind, pure, Except.pure, read_of_cell hc]

theorem Inv.find_right_absent [DecidableEq Value] (h : Inv hk hv m b L) {v : Value}
    (hn : v ∉ L.map Entry.value) :
    find_right hv m b v = .ok b.end_ ∧ at_right hv m b v = .error .out_of_range ∧
      present_right hv m b v = .ok false := by
  simp [unordered_bimap.find_right, unordered_bimap.at_right, present_right, h.find_value,
    find_value_none hn, bind, Except.bind, pure, Except.pure, end_]

theorem Inv.find_right_present [DecidableEq Value] {L1 L2 : List (Entry Key Value)}
    {e : Entry Key Value} (h : Inv hk hv m b (L1 ++ e :: L2)) :
    find_right hv m b e.value = .ok ⟨some e.addr⟩ ∧ at_right hv m b e.value = .ok e.key ∧
      present_right hv m b e.value = .ok true := by
  have hc := chain_cell h.chain
  simp [unordered_bimap.find_right, unordered_bimap.at_right, present_right, h.find_value,
    find_entry_value h.values, bind, Except.bind, pure, Except.pure, read_of_cell hc]

theorem Inv.deref (h : Inv hk hv m b L) {L1 L2 : List (Entry Key Value)}
    {e : Entry Key Value} (hL : L = L1 ++ e :: L2) :
    iterator.deref m ⟨some e.addr⟩ = .ok (e.key, e.value) := by
  subst hL
  exact deref_of_cell (chain_cell h.chain)

end Lookup

section Demo

theorem demo_reachable : Reachable demo_hash demo_hash demo3.2.1 demo3.2.2 :=
  .step (.step (.step (.init Mem.init (fun _ _ => rfl))
    (.insert 1 2
      (rfl : unordered_bimap.insert demo_hash demo_hash Mem.init init 1 2 = .ok demo1)))
    (.insert 5 10
      (rfl : unordered_bimap.insert demo_hash demo_hash demo1.2.1 demo1.2.2 5 10 = .ok demo2)))
    (.insert 100 200
      (rfl : unordered_bimap.insert demo_hash demo_hash demo2.2.1 demo2.2.2 100 200 = .ok demo3))

theorem demo_traverse :
    traverse (demo3.2.2.size + 1) demo3.2.1 demo3.2.2 = .ok [(1, 2), (5, 10), (100, 200)] := rfl

end Demo

section Claims
variable {Key Value : Type} [DecidableEq Key] [DecidableEq Value]
  {KeyHash : Key → Nat} {ValueHash : Value → Nat}

/-- C1, the uniqueness invariant.  In every state reached from the empty container by calls of
`insert`, `erase`, `erase_range`, `erase_left`, `erase_right` and `clear` with valid cursors, the
walk from `begin()` to `end()` returns, no key and no value occurs at two positions of it, and
two cursors that reference live entries with equal keys, or with equal values, reference the
same entry. -/
theorem uniqueness_invariant {m : Mem Key Value} {b : unordered_bimap}
    (h : Reachable KeyHash ValueHash m b) :
    (∃ ps, traverse (b.size + 1) m b = .ok ps ∧
      (ps.map Prod.fst).Nodup ∧ (ps.map Prod.snd).Nodup) ∧
    ∀ it1 it2 kv1 kv2, ValidCursor m b it1 → ValidCursor m b it2 →
      it1.deref m = .ok kv1 → it2.deref m = .ok kv2 →
      kv1.1 = kv2.1 ∨ kv1.2 = kv2.2 → it1 = it2 := by
  obtain ⟨L, hL⟩ := reachable_inv h
  refine ⟨⟨L.map Entry.pair, hL.traverse_size, ?_, ?_⟩, ?_⟩
  · rw [map_fst_pair]; exact hL.keys
  · rw [map_snd_pair]; exact hL.values
  · intro it1 it2 kv1 kv2 h1 h2 d1 d2 heq
    obtain ⟨A1, e1, A2, hA, rfl⟩ := hL.valid_cursor h1
    obtain ⟨B1, e2, B2, hB, rfl⟩ := hL.valid_cursor h2
    rw [hL.deref hA] at d1
    rw [hL.deref hB] at d2
    injection d1 with d1
    injection d2 with d2
    subst d1; subst d2
    have m1 : e1 ∈ L := by rw [hA]; simp
    have m2 : e2 ∈ L := by rw [hB]; simp
    have : e1 = e2 := by
      rcases heq with heq | heq
      · exact List.inj_on_of_nodup_map hL.keys m1 m2 heq
      · exact List.inj_on_of_nodup_map hL.values m1 m2 heq
    rw [this]

theorem uniqueness_invariant_witness :
    ∃ ps, traverse (demo3.2.2.size + 1) demo3.2.1 demo3.2.2 = .ok ps ∧
      (ps.map Prod.fst).Nodup ∧ (ps.map Prod.snd).Nodup :=
  (uniqueness_invariant demo_reachable).1

end Claims

section Claims
variable {Key Value : Type} [DecidableEq Key] [DecidableEq Value]
  {KeyHash : Key → Nat} {ValueHash : Value → Nat}

/-- The lookups of two states that satisfy the invariant for the same entries agree. -/
theorem lookups_agree {m m1 : Mem Key Value} {b b1 : unordered_bimap}
    {L : List (Entry Key Value)} (h : Inv KeyHash ValueHash m b L)
    (h1 : Inv KeyHash ValueHash m1 b1 L) :
    (∀ k, find_left KeyHash m1 b1 k = find_left KeyHash m b k ∧
      at_left KeyHash m1 b1 k = at_left KeyHash m b k ∧
      present_left KeyHash m1 b1 k = present_left KeyHash m b k) ∧
    (∀ v, find_right ValueHash m1 b1 v = find_right ValueHash m b v ∧
      at_right ValueHash m1 b1 v = at_right ValueHash m b v ∧
      present_right ValueHash m1 b1 v = present_right ValueHash m b v) := by
  refine ⟨fun k => ?_, fun v => ?_⟩
  · by_cases hk : k ∈ L.map Entry.key
    · obtain ⟨e, he, rfl, -⟩ := find_key_some hk
      obtain ⟨L1, L2, rfl⟩ := List.append_of_mem he
      obtain ⟨a1, a2, a3⟩ := h.find_left_present
      obtain ⟨c1, c2, c3⟩ := h1.find_left_present
      exact ⟨c1.trans a1.symm, c2.trans a2.symm, c3.trans a3.symm⟩
    · obtain ⟨a1, a2, a3⟩ := h.find_left_absent hk
      obtain ⟨c1, c2, c3⟩ := h1.find_left_absent hk
      exact ⟨c1.trans a1.symm, c2.trans a2.symm, c3.trans a3.symm⟩
  · by_cases hk : v ∈ L.map Entry.value
    · obtain ⟨e, he, rfl, -⟩ := find_value_some hk
      obtain ⟨L1, L2, rfl⟩ := List.append_of_mem he
      obtain ⟨a1, a2, a3⟩ := h.find_right_present
      obtain ⟨c1, c2, c3⟩ := h1.find_right_present
      exact ⟨c1.trans a1.symm, c2.trans a2.symm, c3.trans a3.symm⟩
    · obtain ⟨a1, a2, a3⟩ := h.find_right_absent hk
      obtain ⟨c1, c2, c3⟩ := h1.find_right_absent hk
      exact ⟨c1.trans a1.symm, c2.trans a2.symm, c3.trans a3.symm⟩

/-- C2, duplicate rejection.  In a reachable state whose walk from `begin()` to `end()` yields
`ps`, inserting a pair whose key is among the keys of `ps`, or whose value is among the values
of `ps`, returns `end()`, leaves every data member of the container as it was (so `size()` too),
leaves the walk equal to `ps`, and leaves every lookup result as it was. -/
theorem duplicate_rejection {m : Mem Key Value} {b : unordered_bimap}
    (h : Reachable KeyHash ValueHash m b) {ps : List (Key × Value)}
    (hps : traverse (b.size + 1) m b = .ok ps) (k : Key) (v : Value)
    (hd : k ∈ ps.map Prod.fst ∨ v ∈ ps.map Prod.snd) :
    ∃ m1, unordered_bimap.insert KeyHash ValueHash m b k v = .ok (b.end_, m1, b) ∧
      traverse (b.size + 1) m1 b = .ok ps ∧
      (∀ x, find_left KeyHash m1 b x = find_left KeyHash m b x ∧
        at_left KeyHash m1 b x = at_left KeyHash m b x ∧
        present_left KeyHash m1 b x = present_left KeyHash m b x) ∧
      (∀ y, find_right ValueHash m1 b y = find_right ValueHash m b y ∧
        at_right ValueHash m1 b y = at_right ValueHash m b y ∧
        present_right ValueHash m1 b y = present_right ValueHash m b y) := by
  obtain ⟨L, hL⟩ := reachable_inv h
  have hp := hL.pairs hps
  subst hp
  rw [map_fst_pair, map_snd_pair] at hd
  obtain ⟨m1, hrun, hinv, -, -⟩ := hL.insert_dup hd
  obtain ⟨l1, l2⟩ := lookups_agree hL hinv
  exact ⟨m1, hrun, hinv.traverse_size, l1, l2⟩

theorem duplicate_rejection_witness :
    ∃ m1, unordered_bimap.insert demo_hash demo_hash demo3.2.1 demo3.2.2 5 77 =
        .ok (demo3.2.2.end_, m1, demo3.2.2) ∧
      traverse (demo3.2.2.size + 1) m1 demo3.2.2 = .ok [(1, 2), (5, 10), (100, 200)] ∧
      at_left demo_hash m1 demo3.2.2 5 = at_left demo_hash demo3.2.1 demo3.2.2 5 :=
  match duplicate_rejection demo_reachable demo_traverse 5 77 (Or.inl (by decide)) with
  | ⟨m1, h1, h2, h3, _⟩ => ⟨m1, h1, h2, (h3 5).2.1⟩

/-- C3, insert success.  In a reachable state whose walk yields `ps`, inserting a pair whose key
is not among the keys of `ps` and whose value is not among the values of `ps` (nothing is asked
about the key occurring as a value, or the value as a key) returns a cursor other than `end()`
that dereferences to the pair, makes `size()` one larger, and makes the walk `ps` followed by
the pair. -/
theorem insert_success {m : Mem Key Value} {b : unordered_bimap}
    (h : Reachable KeyHash ValueHash m b) {ps : List (Key × Value)}
    (hps : traverse (b.size + 1) m b = .ok ps) (k : Key) (v : Value)
    (hk : k ∉ ps.map Prod.fst) (hv : v ∉ ps.map Prod.snd) :
    ∃ it m1 b1, unordered_bimap.insert KeyHash ValueHash m b k v = .ok (it, m1, b1) ∧
      it ≠ b1.end_ ∧ it.deref m1 = .ok (k, v) ∧ b1.size = b.size + 1 ∧
      traverse (b1.size + 1) m1 b1 = .ok (ps ++ [(k, v)]) := by
  obtain ⟨L, hL⟩ := reachable_inv h
  have hp := hL.pairs hps
  subst hp
  rw [map_fst_pair] at hk
  rw [map_snd_pair] at hv
  obtain ⟨m1, b1, hrun, hinv, -, -⟩ := hL.insert_new hk hv
  refine ⟨_, m1, b1, hrun, ?_, hinv.deref rfl, ?_, ?_⟩
  · simp [end_]
  · simp [unordered_bimap.size, hinv.count, hL.count]
  · rw [hinv.traverse_size]; simp [Entry.pair]

/-- The state of the test `insert` after `insert(4, 10)`. -/
theorem insert_success_witness :
    ∃ it m1 b1, unordered_bimap.insert demo_hash demo_hash
        (after_insert (Mem.init, init) 4 10).2.1 (after_insert (Mem.init, init) 4 10).2.2 10 4 =
        .ok (it, m1, b1) ∧
      it ≠ b1.end_ ∧ it.deref m1 = .ok (10, 4) ∧
      b1.size = (after_insert (Mem.init, init) 4 10).2.2.size + 1 ∧
      traverse (b1.size + 1) m1 b1 = .ok ([(4, 10)] ++ [(10, 4)]) :=
  insert_success (.step (.init Mem.init (fun _ _ => rfl)) (.insert 4 10 rfl)) rfl 10 4
    (by decide) (by decide)

end Claims

section Claims
variable {Key Value : Type} [DecidableEq Key] [DecidableEq Value]
  {KeyHash : Key → Nat} {ValueHash : Value → Nat}

/-- C4, lookup round trip.  When `insert(k, v)` on a reachable state returns a cursor other than
`end()`, then in the state it leaves `find_left(k)` and `find_right(v)` both return that very
cursor, the cursor dereferences to `(k, v)`, `at_left(k)` returns `v` and `at_right(v)` returns
`k`. -/
theorem lookup_round_trip {m m1 : Mem Key Value} {b b1 : unordered_bimap}
    (h : Reachable KeyHash ValueHash m b) {k : Key} {v : Value} {it : iterator}
    (hrun : unordered_bimap.insert KeyHash ValueHash m b k v = .ok (it, m1, b1))
    (hne : it ≠ b1.end_) :
    find_left KeyHash m1 b1 k = .ok it ∧ find_right ValueHash m1 b1 v = .ok it ∧
      it.deref m1 = .ok (k, v) ∧
      at_left KeyHash m1 b1 k = .ok v ∧ at_right ValueHash m1 b1 v = .ok k := by
  obtain ⟨L, hL⟩ := reachable_inv h
  by_cases hd : k ∈ L.map Entry.key ∨ v ∈ L.map Entry.value
  · obtain ⟨m2, hrun2, -⟩ := hL.insert_dup hd
    rw [hrun2] at hrun
    injection hrun with hrun
    injection hrun with hit _
    exact absurd hit.symm hne
  · rw [not_or] at hd
    obtain ⟨m2, b2, hrun2, hinv, -, -⟩ := hL.insert_new hd.1 hd.2
    rw [hrun2] at hrun
    injection hrun with hrun
    injection hrun with hit hrun
    injection hrun with hm hb
    subst hit; subst hm; subst hb
    obtain ⟨a1, a2, -⟩ := hinv.find_left_present
    obtain ⟨c1, c2, -⟩ := hinv.find_right_present
    exact ⟨a1, c1, hinv.deref rfl, a2, c2⟩

theorem lookup_round_trip_witness :
    find_left demo_hash demo3.2.1 demo3.2.2 100 = .ok demo3.1 ∧
      find_right demo_hash demo3.2.1 demo3.2.2 200 = .ok demo3.1 ∧
      demo3.1.deref demo3.2.1 = .ok (100, 200) ∧
      at_left demo_hash demo3.2.1 demo3.2.2 100 = .ok 200 ∧
      at_right demo_hash demo3.2.1 demo3.2.2 200 = .ok 100 :=
  lookup_round_trip
    (.step (.step (.init Mem.init (fun _ _ => rfl))
      (.insert 1 2
        (rfl : unordered_bimap.insert demo_hash demo_hash Mem.init init 1 2 = .ok demo1)))
      (.insert 5 10
        (rfl : unordered_bimap.insert demo_hash demo_hash demo1.2.1 demo1.2.2 5 10 =
          .ok demo2)))
    (rfl : unordered_bimap.insert demo_hash demo_hash demo2.2.1 demo2.2.2 100 200 = .ok demo3)
    (by decide)

/-- C5, lookup correctness and the not-found failure, for arbitrary hash functions.  In a
reachable state whose walk yields `ps`: `at_left(k)` throws `std::out_of_range` exactly when `k`
is not a key of `ps`, `find_left(k)` returns `end()` exactly then, and `present_left(k)` is false
exactly then; when `(k, v)` is in `ps`, `at_left(k)` returns `v` and `find_left(k)` returns a
cursor that dereferences to `(k, v)`.  The same holds for `at_right`, `find_right` and
`present_right` on values. -/
theorem lookup_correct {m : Mem Key Value} {b : unordered_bimap}
    (h : Reachable KeyHash ValueHash m b) {ps : List (Key × Value)}
    (hps : traverse (b.size + 1) m b = .ok ps) :
    (∀ k, (at_left KeyHash m b k = .error .out_of_range ↔ k ∉ ps.map Prod.fst) ∧
      (find_left KeyHash m b k = .ok b.end_ ↔ k ∉ ps.map Prod.fst) ∧
      (present_left KeyHash m b k = .ok false ↔ k ∉ ps.map Prod.fst) ∧
      (present_left KeyHash m b k = .ok true ↔ k ∈ ps.map Prod.fst) ∧
      ∀ v, (k, v) ∈ ps → at_left KeyHash m b k = .ok v ∧
        ∃ it, find_left KeyHash m b k = .ok it ∧ it.deref m = .ok (k, v)) ∧
    (∀ v, (at_right ValueHash m b v = .error .out_of_range ↔ v ∉ ps.map Prod.snd) ∧
      (find_right ValueHash m b v = .ok b.end_ ↔ v ∉ ps.map Prod.snd) ∧
      (present_right ValueHash m b v = .ok false ↔ v ∉ ps.map Prod.snd) ∧
      (present_right ValueHash m b v = .ok true ↔ v ∈ ps.map Prod.snd) ∧
      ∀ k, (k, v) ∈ ps → at_right ValueHash m b v = .ok k ∧
        ∃ it, find_right ValueHash m b v = .ok it ∧ it.deref m = .ok (k, v)) := by
  obtain ⟨L, hL⟩ := reachable_inv h
  have hp := hL.pairs hps
  subst hp
  rw [map_fst_pair, map_snd_pair]
  refine ⟨fun k => ?_, fun v => ?_⟩
  · by_cases hk : k ∈ L.map Entry.key
    · obtain ⟨e, he, rfl, -⟩ := find_key_some hk
      obtain ⟨L1, L2, rfl⟩ := List.append_of_mem he
      obtain ⟨a1, a2, a3⟩ := hL.find_left_present
      refine ⟨?_, ?_, ?_, ?_, ?_⟩
      · rw [a2]; simp [hk]
      · rw [a1]; simp [hk, end_]
      · rw [a3]; simp [hk]
      · rw [a3]; simp [hk]
      · intro v hv
        obtain ⟨A1, e1, A2, hA, hk1, hv1⟩ := mem_pairs hv
        have : e1 = e :=
          List.inj_on_of_nodup_map hL.keys (by rw [hA]; simp) he hk1
        subst this; subst hv1
        exact ⟨a2, _, a1, hL.deref rfl⟩
    · obtain ⟨a1, a2, a3⟩ := hL.find_left_absent hk
      refine ⟨?_, ?_, ?_, ?_, ?_⟩
      · rw [a2]; simp [hk]
      · rw [a1]; simp [hk]
      · rw [a3]; simp [hk]
      · rw [a3]; simp [hk]
      · intro v hv
        obtain ⟨A1, e1, A2, hA, hk1, hv1⟩ := mem_pairs hv
        exact absurd (by rw [hA, ← hk1]; simp) hk
  · by_cases hk : v ∈ L.map Entry.value
    · obtain ⟨e, he, rfl, -⟩ := find_value_some hk
      obtain ⟨L1, L2, rfl⟩ := List.append_of_mem he
      obtain ⟨a1, a2, a3⟩ := hL.find_right_present
      refine ⟨?_, ?_, ?_, ?_, ?_⟩
      · rw [a2]; simp [hk]
      · rw [a1]; simp [hk, end_]
      · rw [a3]; simp [hk]
      · rw [a3]; simp [hk]
      · intro k hv
        obtain ⟨A1, e1, A2, hA, hk1, hv1⟩ := mem_pairs hv
        have : e1 = e :=
          List.inj_on_of_nodup_map hL.values (by rw [hA]; simp) he hv1
        subst this; subst hk1
        exact ⟨a2, _, a1, hL.deref rfl⟩
    · obtain ⟨a1, a2, a3⟩ := hL.find_right_absent hk
      refine ⟨?_, ?_, ?_, ?_, ?_⟩
      · rw [a2]; simp [hk]
      · rw [a1]; simp [hk]
      · rw [a3]; simp [hk]
      · rw [a3]; simp [hk]
      · intro k hv
        obtain ⟨A1, e1, A2, hA, hk1, hv1⟩ := mem_pairs hv
        exact absurd (by rw [hA, ← hv1]; simp) hk

theorem lookup_correct_witness :
    at_left demo_hash demo3.2.1 demo3.2.2 111 = .error .out_of_range ∧
      find_right demo_hash demo3.2.1 demo3.2.2 300 = .ok demo3.2.2.end_ ∧
      at_left demo_hash demo3.2.1 demo3.2.2 5 = .ok 10 ∧
      at_right demo_hash demo3.2.1 demo3.2.2 10 = .ok 5 :=
  ⟨((lookup_correct demo_reachable demo_traverse).1 111).1.2 (by decide),
    ((lookup_correct demo_reachable demo_traverse).2 300).2.1.2 (by decide),
    (((lookup_correct demo_reachable demo_traverse).1 5).2.2.2.2 10 (by decide)).1,
    (((lookup_correct demo_reachable demo_traverse).2 10).2.2.2.2 5 (by decide)).1⟩

end Claims

section Order
variable {Key Value : Type}

theorem pair_not_mem_left {L1 L2 : List (Entry Key Value)} {e : Entry Key Value}
    (hn : ((L1 ++ e :: L2).map Entry.key).Nodup) : e.pair ∉ L1.map Entry.pair := by
  intro hh
  obtain ⟨x, hx, hxe⟩ := List.mem_map.1 hh
  rw [List.map_append, List.nodup_append] at hn
  have hxk : x.key = e.key := by
    simp only [Entry.pair, Prod.mk.injEq] at hxe
    exact hxe.1
  exact hn.2.2 (List.mem_map_of_mem _ hx) (by rw [hxk]; simp)

theorem erase_pair [DecidableEq Key] [DecidableEq Value] {L1 L2 : List (Entry Key Value)} {e : Entry Key Value}
    (hn : ((L1 ++ e :: L2).map Entry.key).Nodup) :
    ((L1 ++ e :: L2).map Entry.pair).erase e.pair = (L1 ++ L2).map Entry.pair := by
  rw [List.map_append, List.map_cons, List.erase_append_right _ (pair_not_mem_left hn),
    List.erase_cons_head, List.map_append]

variable [DecidableEq Key] [DecidableEq Value]
  {KeyHash : Key → Nat} {ValueHash : Value → Nat}

/-- The bookkeeping of `Tracks` is the list of pairs of the entries. -/
theorem tracks_inv {m : Mem Key Value} {b : unordered_bimap} {ps : List (Key × Value)}
    (h : Tracks KeyHash ValueHash m b ps) :
    ∃ L, Inv KeyHash ValueHash m b L ∧ ps = L.map Entry.pair := by
  induction h with
  | init m0 h0 => exact ⟨[], Inv.init h0, rfl⟩
  | @insert_ok m b ps k v r m1 b1 _ hrun hne ih =>
    obtain ⟨L, hL, rfl⟩ := ih
    by_cases hd : k ∈ L.map Entry.key ∨ v ∈ L.map Entry.value
    · obtain ⟨m2, hrun2, -⟩ := hL.insert_dup hd
      rw [hrun2] at hrun
      injection hrun with hrun
      injection hrun with hit _
      subst hit
      exact absurd rfl hne
    · rw [not_or] at hd
      obtain ⟨m2, b2, hrun2, hinv, -, -⟩ := hL.insert_new hd.1 hd.2
      rw [hrun2] at hrun
      injection hrun with hrun
      injection hrun with hit hrun
      injection hrun with hm hb
      subst hm; subst hb
      exact ⟨_, hinv, by simp [Entry.pair]⟩
  | @insert_rejected m b ps k v r m1 b1 _ hrun hne ih =>
    obtain ⟨L, hL, rfl⟩ := ih
    by_cases hd : k ∈ L.map Entry.key ∨ v ∈ L.map Entry.value
    · obtain ⟨m2, hrun2, hinv, -, -⟩ := hL.insert_dup hd
      rw [hrun2] at hrun
      injection hrun with hrun
      injection hrun with hit hrun
      injection hrun with hm hb
      subst hm; subst hb
      exact ⟨L, hinv, rfl⟩
    · rw [not_or] at hd
      obtain ⟨m2, b2, hrun2, hinv, -, -⟩ := hL.insert_new hd.1 hd.2
      rw [hrun2] at hrun
      injection hrun with hrun
      injection hrun with hit hrun
      subst hit
      simp at hne
  | @erase m b ps it kv r m1 b1 _ hvalid hkv hrun ih =>
    obtain ⟨L, hL, rfl⟩ := ih
    obtain ⟨L1, e, L2, rfl, rfl⟩ := hL.valid_cursor hvalid
    rw [hL.deref rfl] at hkv
    injection hkv with hkv
    subst hkv
    obtain ⟨m2, b2, hrun2, hinv, -⟩ := hL.erase
    rw [hrun2] at hrun
    injection hrun with hrun
    injection hrun with hit hrun
    injection hrun with hm hb
    subst hm; subst hb
    exact ⟨L1 ++ L2, hinv, erase_pair hL.keys⟩

/-- Inserting pairs whose keys and values are new and pairwise distinct appends them. -/
theorem insert_all_spec (qs : List (Key × Value)) {m : Mem Key Value} {b : unordered_bimap}
    {L : List (Entry Key Value)} (h : Inv KeyHash ValueHash m b L)
    (hk : ((L.map Entry.pair ++ qs).map Prod.fst).Nodup)
    (hv : ((L.map Entry.pair ++ qs).map Prod.snd).Nodup) :
    ∃ m1 b1 L1, insert_all KeyHash ValueHash m b qs = .ok (m1, b1) ∧
      Inv KeyHash ValueHash m1 b1 L1 ∧ L1.map Entry.pair = L.map Entry.pair ++ qs := by
  induction qs generalizing m b L with
  | nil => exact ⟨m, b, L, rfl, h, by simp⟩
  | cons q qs ih =>
    have h1 : q.1 ∉ L.map Entry.key := by
      rw [List.map_append, map_fst_pair, List.nodup_append] at hk
      intro hh
      exact hk.2.2 hh (by simp)
    have h2 : q.2 ∉ L.map Entry.value := by
      rw [List.map_append, map_snd_pair, List.nodup_append] at hv
      intro hh
      exact hv.2.2 hh (by simp)
    obtain ⟨m1, b1, hrun, hinv, -, -⟩ := h.insert_new h1 h2
    have hp : (L ++ [(⟨m.brk, q.1, q.2⟩ : Entry Key Value)]).map Entry.pair ++ qs =
        L.map Entry.pair ++ q :: qs := by
      simp [Entry.pair]
    obtain ⟨m2, b2, L2, hrun2, hinv2, hL2⟩ := ih hinv (by rw [hp]; exact hk) (by rw [hp]; exact hv)
    refine ⟨m2, b2, L2, ?_, hinv2, by rw [hL2, hp]⟩
    simp [unordered_bimap.insert_all, hrun, hrun2, bind, Except.bind]

/-- C6, order preservation.  Let `ps` list, in the order of their successful insertion, the pairs
whose insert succeeded and that have not been erased since, along a sequence of `insert` and
`erase` calls that starts from the empty container.  Then the walk from `begin()` to `end()`
yields exactly `ps`; every further `insert` returns, and so does every `erase` through a valid
cursor; and inserting further pairs `qs`, with keys and values new and pairwise distinct, one
after the other makes the walk `ps` followed by `qs`.  For `ps = []` this is the test
`ordering`. -/
theorem order_preservation {m : Mem Key Value} {b : unordered_bimap} {ps : List (Key × Value)}
    (h : Tracks KeyHash ValueHash m b ps) :
    traverse (b.size + 1) m b = .ok ps ∧
    (∀ k v, ∃ r m1 b1, unordered_bimap.insert KeyHash ValueHash m b k v = .ok (r, m1, b1)) ∧
    (∀ it, ValidCursor m b it → ∃ kv r m1 b1, it.deref m = .ok kv ∧
      erase KeyHash ValueHash m b it = .ok (r, m1, b1)) ∧
    ∀ qs : List (Key × Value), ((ps ++ qs).map Prod.fst).Nodup →
      ((ps ++ qs).map Prod.snd).Nodup →
      ∃ m1 b1, insert_all KeyHash ValueHash m b qs = .ok (m1, b1) ∧
        b1.size = b.size + qs.length ∧ traverse (b1.size + 1) m1 b1 = .ok (ps ++ qs) := by
  obtain ⟨L, hL, rfl⟩ := tracks_inv h
  refine ⟨hL.traverse_size, ?_, ?_, ?_⟩
  · intro k v
    by_cases hd : k ∈ L.map Entry.key ∨ v ∈ L.map Entry.value
    · obtain ⟨m2, hrun2, -⟩ := hL.insert_dup hd
      exact ⟨_, _, _, hrun2⟩
    · rw [not_or] at hd
      obtain ⟨m2, b2, hrun2, -⟩ := hL.insert_new hd.1 hd.2
      exact ⟨_, _, _, hrun2⟩
  · intro it hvalid
    obtain ⟨L1, e, L2, rfl, rfl⟩ := hL.valid_cursor hvalid
    obtain ⟨m2, b2, hrun2, -⟩ := hL.erase
    exact ⟨_, _, _, _, hL.deref rfl, hrun2⟩
  · intro qs hk hv
    obtain ⟨m1, b1, L1, hrun, hinv, hL1⟩ := insert_all_spec qs hL hk hv
    refine ⟨m1, b1, hrun, ?_, ?_⟩
    · have := congrArg List.length hL1
      simp only [List.length_map, List.length_append] at this
      simp [unordered_bimap.size, hinv.count, hL.count, this]
    · rw [hinv.traverse_size, hL1]

theorem order_preservation_witness :
    traverse (demo3.2.2.size + 1) demo3.2.1 demo3.2.2 = .ok [(1, 2), (5, 10), (100, 200)] ∧
    ∃ m1 b1, insert_all demo_hash demo_hash demo3.2.1 demo3.2.2 [(7, 8), (2, 1)] = .ok (m1, b1) ∧
      b1.size = demo3.2.2.size + 2 ∧
      traverse (b1.size + 1) m1 b1 = .ok ([(1, 2), (5, 10), (100, 200)] ++ [(7, 8), (2, 1)]) :=
  have h : Tracks demo_hash demo_hash demo3.2.1 demo3.2.2 ([] ++ [(1, 2)] ++ [(5, 10)] ++ [(100, 200)]) :=
    .insert_ok 100 200 (.insert_ok 5 10 (.insert_ok 1 2 (.init Mem.init (fun _ _ => rfl))
      (rfl : unordered_bimap.insert demo_hash demo_hash Mem.init init 1 2 = .ok demo1)
      (by decide))
      (rfl : unordered_bimap.insert demo_hash demo_hash demo1.2.1 demo1.2.2 5 10 = .ok demo2)
      (by decide))
      (rfl : unordered_bimap.insert demo_hash demo_hash demo2.2.1 demo2.2.2 100 200 = .ok demo3)
      (by decide)
  ⟨(order_preservation h).1, (order_preservation h).2.2.2 [(7, 8), (2, 1)] (by decide) (by decide)⟩

end Order

section Erase
variable {Key Value : Type}

theorem key_not_mem_rest {L1 L2 : List (Entry Key Value)} {e : Entry Key Value}
    (hn : ((L1 ++ e :: L2).map Entry.key).Nodup) : e.key ∉ (L1 ++ L2).map Entry.key := by
  rw [List.map_append, List.map_cons, List.nodup_append, List.nodup_cons] at hn
  rw [List.map_append, List.mem_append]
  rintro (hh | hh)
  · exact hn.2.2 hh (by simp)
  · exact hn.2.1.1 hh

theorem value_not_mem_rest {L1 L2 : List (Entry Key Value)} {e : Entry Key Value}
    (hn : ((L1 ++ e :: L2).map Entry.value).Nodup) : e.value ∉ (L1 ++ L2).map Entry.value := by
  rw [List.map_append, List.map_cons, List.nodup_append, List.nodup_cons] at hn
  rw [List.map_append, List.mem_append]
  rintro (hh | hh)
  · exact hn.2.2 hh (by simp)
  · exact hn.2.1.1 hh

theorem first_or_eq_none {L : List (Entry Key Value)} :
    (⟨first_or none L⟩ : iterator) = ⟨none⟩ ↔ L.map Entry.pair = [] := by
  cases L <;> simp

variable [DecidableEq Key] [DecidableEq Value]
  {KeyHash : Key → Nat} {ValueHash : Value → Nat}

/-- C7, erase-and-continue.  In a reachable state whose walk yields `ps`, let `it` be a valid
cursor that dereferences to `(k, v)`.  Then `erase(it)` returns; `ps` splits as `ps1`, `(k, v)`,
`ps2` with `it` at position `|ps1|`; the cursor returned is the one `++it` would have given, it
stands at position `|ps1|` of the container afterwards, it equals `end()` exactly when `ps2` is
empty and otherwise dereferences to the first pair of `ps2`; `size()` drops by one;
`find_left(k)` and `find_right(v)` return `end()`; and the walk afterwards yields `ps1`
followed by `ps2`. -/
theorem erase_and_continue {m : Mem Key Value} {b : unordered_bimap}
    (h : Reachable KeyHash ValueHash m b) {ps : List (Key × Value)}
    (hps : traverse (b.size + 1) m b = .ok ps) {it : iterator} (hvalid : ValidCursor m b it)
    {k : Key} {v : Value} (hkv : it.deref m = .ok (k, v)) :
    ∃ r m1 b1 ps1 ps2, erase KeyHash ValueHash m b it = .ok (r, m1, b1) ∧
      ps = ps1 ++ (k, v) :: ps2 ∧
      advance m ps1.length b.begin = .ok it ∧
      it.incr m = .ok r ∧
      advance m1 ps1.length b1.begin = .ok r ∧
      (r = b1.end_ ↔ ps2 = []) ∧
      (∀ kv ps3, ps2 = kv :: ps3 → r.deref m1 = .ok kv) ∧
      b1.size + 1 = b.size ∧
      find_left KeyHash m1 b1 k = .ok b1.end_ ∧
      find_right ValueHash m1 b1 v = .ok b1.end_ ∧
      traverse (b1.size + 1) m1 b1 = .ok (ps1 ++ ps2) := by
  obtain ⟨L, hL⟩ := reachable_inv h
  have hp := hL.pairs hps
  subst hp
  obtain ⟨L1, e, L2, rfl, rfl⟩ := hL.valid_cursor hvalid
  rw [hL.deref rfl] at hkv
  injection hkv with hkv
  injection hkv with hk1 hv1
  subst hk1; subst hv1
  obtain ⟨m1, b1, hrun, hinv, -, -, -, hcnt⟩ := hL.erase
  refine ⟨_, m1, b1, L1.map Entry.pair, L2.map Entry.pair, hrun, by simp [Entry.pair], ?_,
    incr_of_cell (chain_cell hL.chain), ?_, ?_, ?_, hcnt,
    (hinv.find_left_absent (key_not_mem_rest hL.keys)).1,
    (hinv.find_right_absent (value_not_mem_rest hL.values)).1, ?_⟩
  · rw [hL.advance]; simp
  · rw [hinv.advance]; simp
  · exact first_or_eq_none
  · intro kv ps3 hps3
    cases L2 with
    | nil => simp at hps3
    | cons u L3 =>
      simp only [List.map_cons, List.cons.injEq] at hps3
      rw [← hps3.1]
      exact hinv.deref (rfl : L1 ++ u :: L3 = L1 ++ u :: L3)
  · rw [hinv.traverse_size, List.map_append]

/-- The first call of `erase` in the test `erase_iterator`. -/
theorem erase_and_continue_witness :
    ∃ r m1 b1 ps1 ps2, erase demo_hash demo_hash demo3.2.1 demo3.2.2 demo1.1 = .ok (r, m1, b1) ∧
      [(1, 2), (5, 10), (100, 200)] = ps1 ++ (1, 2) :: ps2 ∧
      advance demo3.2.1 ps1.length demo3.2.2.begin = .ok demo1.1 ∧
      demo1.1.incr demo3.2.1 = .ok r ∧
      advance m1 ps1.length b1.begin = .ok r ∧
      (r = b1.end_ ↔ ps2 = []) ∧
      (∀ kv ps3, ps2 = kv :: ps3 → r.deref m1 = .ok kv) ∧
      b1.size + 1 = demo3.2.2.size ∧
      find_left demo_hash m1 b1 1 = .ok b1.end_ ∧
      find_right demo_hash m1 b1 2 = .ok b1.end_ ∧
      traverse (b1.size + 1) m1 b1 = .ok (ps1 ++ ps2) :=
  erase_and_continue demo_reachable demo_traverse ⟨by decide, 0, rfl⟩ rfl

end Erase

section Range
variable {Key Value : Type}

theorem take_drop_pairs (L1 R L2 : List (Entry Key Value)) :
    (L1 ++ L2).map Entry.pair =
      ((L1 ++ (R ++ L2)).map Entry.pair).take L1.length ++
        ((L1 ++ (R ++ L2)).map Entry.pair).drop (L1.length + R.length) := by
  have h1 : ((L1 ++ (R ++ L2)).map Entry.pair).take L1.length = L1.map Entry.pair := by
    rw [List.map_append]
    exact List.take_left' (by simp)
  have h2 : ((L1 ++ (R ++ L2)).map Entry.pair).drop (L1.length + R.length) =
      L2.map Entry.pair := by
    rw [← List.append_assoc, List.map_append]
    exact List.drop_left' (by simp)
  rw [h1, h2, List.map_append]

variable [DecidableEq Key] [DecidableEq Value]
  {KeyHash : Key → Nat} {ValueHash : Value → Nat}

/-- C8, `erase_range`.  In a reachable state whose walk yields `ps`, let `first` be `i` advances
from `begin()` and `last` be `j` advances from `first`.  Then `erase_range(first, last)` returns
`last` as soon as the fuel allows `j + 1` tests of its loop condition; `size()` drops by `j`; the
walk afterwards yields the first `i` pairs of `ps` followed by those from position `i + j` on;
`last` stands at position `i` of the container afterwards and dereferences as before, so the
entry at `last` is not erased; and `erase_range(begin(), end())` leaves the container empty. -/
theorem erase_range_correct {m : Mem Key Value} {b : unordered_bimap}
    (h : Reachable KeyHash ValueHash m b) {ps : List (Key × Value)}
    (hps : traverse (b.size + 1) m b = .ok ps) {first last : iterator} {i j : Nat}
    (hr : ValidRange m b first last i j) :
    ∃ m1 b1,
      (∀ fuel, j < fuel →
        erase_range KeyHash ValueHash fuel m b first last = .ok (last, m1, b1)) ∧
      b1.size + j = b.size ∧
      traverse (b1.size + 1) m1 b1 = .ok (ps.take i ++ ps.drop (i + j)) ∧
      advance m1 i b1.begin = .ok last ∧
      last.deref m1 = last.deref m ∧
      (first = b.begin → last = b.end_ →
        b1.size = 0 ∧ b1.empty = true ∧ b1.begin = b1.end_ ∧
          traverse (b1.size + 1) m1 b1 = .ok []) := by
  obtain ⟨L, hL⟩ := reachable_inv h
  have hp := hL.pairs hps
  subst hp
  obtain ⟨L1, R, L2, rfl, rfl, rfl, rfl, rfl⟩ := hL.valid_range hr
  obtain ⟨m1, b1, hinv, -, -, hcnt, hloop⟩ := hL.erase_range_loop R
  refine ⟨m1, b1, ?_, hcnt, ?_, ?_, ?_, ?_⟩
  · intro fuel hf
    unfold unordered_bimap.erase_range
    rw [hloop, if_pos hf]
  · rw [hinv.traverse_size, take_drop_pairs L1 R L2]
  · rw [hinv.advance]; simp
  · cases L2 with
    | nil => rfl
    | cons u L3 =>
      rw [first_or_cons, hinv.deref (rfl : L1 ++ u :: L3 = L1 ++ u :: L3),
        hL.deref (by simp : L1 ++ (R ++ u :: L3) = (L1 ++ R) ++ u :: L3)]
  · intro hfirst hlast
    have hL2 : L2 = [] := by
      cases L2 with
      | nil => rfl
      | cons u L3 => simp [end_] at hlast
    subst hL2
    have hL1 : L1 = [] := by
      cases L1 with
      | nil => rfl
      | cons x L1 =>
        exfalso
        have hb : b.begin = ⟨some x.addr⟩ := by
          unfold unordered_bimap.begin; rw [hL.head]; rfl
        rw [hb] at hfirst
        cases R with
        | nil => simp at hfirst
        | cons y R =>
          simp only [List.cons_append, first_or_cons, iterator.mk.injEq,
            Option.some.injEq] at hfirst
          have hnd := hL.addr_nodup
          simp only [List.cons_append, List.map_cons, List.nodup_cons, List.map_append,
            List.mem_append, List.mem_cons] at hnd
          exact hnd.1 (Or.inr (Or.inl hfirst.symm))
    subst hL1
    have hc := hinv.count
    have hh := hinv.head
    simp only [List.append_nil, List.length_nil, first_or_nil] at hc hh
    refine ⟨hc, by simp [unordered_bimap.empty, hc], by simp [unordered_bimap.begin, end_, hh], ?_⟩
    rw [hinv.traverse_size]; rfl

/-- The range from the second to the third entry of the concrete run. -/
theorem erase_range_correct_witness :
    ∃ m1 b1,
      erase_range demo_hash demo_hash 2 demo3.2.1 demo3.2.2 demo2.1 demo3.1 =
        .ok (demo3.1, m1, b1) ∧
      b1.size + 1 = demo3.2.2.size ∧
      traverse (b1.size + 1) m1 b1 = .ok [(1, 2), (100, 200)] ∧
      demo3.1.deref m1 = .ok (100, 200) :=
  match erase_range_correct demo_reachable demo_traverse
    (⟨rfl, rfl⟩ : ValidRange demo3.2.1 demo3.2.2 demo2.1 demo3.1 1 1) with
  | ⟨m1, b1, h1, h2, h3, _, h5, _⟩ => ⟨m1, b1, h1 2 (by decide), h2, h3, h5.trans rfl⟩

end Range

section EraseBy
variable {Key Value : Type} [DecidableEq Key] [DecidableEq Value]
  {KeyHash : Key → Nat} {ValueHash : Value → Nat}

/-- C9, `erase_left` and `erase_right`.  In a reachable state whose walk yields `ps`:
`erase_left(k)` returns true exactly when `k` is a key of `ps`; when `k` is not, it returns
false and leaves store and container as they were; when `(k, v)` is in `ps`, it returns true,
the walk afterwards is `ps` without that one pair, `size()` has dropped by one, and `find_left(k)`
and `find_right(v)` return `end()`.  The same holds for `erase_right(v)`. -/
theorem erase_left_right_correct {m : Mem Key Value} {b : unordered_bimap}
    (h : Reachable KeyHash ValueHash m b) {ps : List (Key × Value)}
    (hps : traverse (b.size + 1) m b = .ok ps) :
    (∀ k, ((∃ m1 b1, erase_left KeyHash ValueHash m b k = .ok (true, m1, b1)) ↔
        k ∈ ps.map Prod.fst) ∧
      (k ∉ ps.map Prod.fst → erase_left KeyHash ValueHash m b k = .ok (false, m, b)) ∧
      ∀ v, (k, v) ∈ ps → ∃ m1 b1 ps1 ps2,
        erase_left KeyHash ValueHash m b k = .ok (true, m1, b1) ∧
        ps = ps1 ++ (k, v) :: ps2 ∧ traverse (b1.size + 1) m1 b1 = .ok (ps1 ++ ps2) ∧
        b1.size + 1 = b.size ∧ find_left KeyHash m1 b1 k = .ok b1.end_ ∧
        find_right ValueHash m1 b1 v = .ok b1.end_) ∧
    (∀ v, ((∃ m1 b1, erase_right KeyHash ValueHash m b v = .ok (true, m1, b1)) ↔
        v ∈ ps.map Prod.snd) ∧
      (v ∉ ps.map Prod.snd → erase_right KeyHash ValueHash m b v = .ok (false, m, b)) ∧
      ∀ k, (k, v) ∈ ps → ∃ m1 b1 ps1 ps2,
        erase_right KeyHash ValueHash m b v = .ok (true, m1, b1) ∧
        ps = ps1 ++ (k, v) :: ps2 ∧ traverse (b1.size + 1) m1 b1 = .ok (ps1 ++ ps2) ∧
        b1.size + 1 = b.size ∧ find_left KeyHash m1 b1 k = .ok b1.end_ ∧
        find_right ValueHash m1 b1 v = .ok b1.end_) := by
  obtain ⟨L, hL⟩ := reachable_inv h
  have hp := hL.pairs hps
  subst hp
  rw [map_fst_pair, map_snd_pair]
  have hfound : ∀ k v, (k, v) ∈ L.map Entry.pair → ∃ m1 b1 ps1 ps2,
      erase_left KeyHash ValueHash m b k = .ok (true, m1, b1) ∧
      erase_right KeyHash ValueHash m b v = .ok (true, m1, b1) ∧
      L.map Entry.pair = ps1 ++ (k, v) :: ps2 ∧
      traverse (b1.size + 1) m1 b1 = .ok (ps1 ++ ps2) ∧
      b1.size + 1 = b.size ∧ find_left KeyHash m1 b1 k = .ok b1.end_ ∧
      find_right ValueHash m1 b1 v = .ok b1.end_ := by
    intro k v hkv
    obtain ⟨L1, e, L2, rfl, rfl, rfl⟩ := mem_pairs hkv
    obtain ⟨m1, b1, hrun, hinv, -, -, -, hcnt⟩ := hL.erase_left_found
    obtain ⟨m2, b2, hrun2, -⟩ := hL.erase_right_found
    obtain ⟨m3, b3, hrun3, -⟩ := hL.erase
    have e1 : m2 = m1 ∧ b2 = b1 := by
      have ha : erase_left KeyHash ValueHash m b e.key = .ok (true, m3, b3) := by
        simp [unordered_bimap.erase_left, present_left, hL.find_key, find_entry_key hL.keys,
          hrun3, bind, Except.bind, pure, Except.pure]
      have hb : erase_right KeyHash ValueHash m b e.value = .ok (true, m3, b3) := by
        simp [unordered_bimap.erase_right, present_right, hL.find_value,
          find_entry_value hL.values, hrun3, bind, Except.bind, pure, Except.pure]
      rw [ha] at hrun
      rw [hb] at hrun2
      injection hrun with hrun
      injection hrun with _ hrun
      injection hrun with x1 x2
      injection hrun2 with hrun2
      injection hrun2 with _ hrun2
      injection hrun2 with y1 y2
      exact ⟨y1.symm.trans x1, y2.symm.trans x2⟩
    rw [e1.1, e1.2] at hrun2
    refine ⟨m1, b1, L1.map Entry.pair, L2.map Entry.pair, hrun, hrun2, by simp [Entry.pair],
      ?_, hcnt, (hinv.find_left_absent (key_not_mem_rest hL.keys)).1,
      (hinv.find_right_absent (value_not_mem_rest hL.values)).1⟩
    rw [hinv.traverse_size, List.map_append]
  refine ⟨fun k => ⟨?_, hL.erase_left_absent, ?_⟩, fun v => ⟨?_, hL.erase_right_absent, ?_⟩⟩
  · constructor
    · rintro ⟨m1, b1, hrun⟩
      by_contra hk
      rw [hL.erase_left_absent hk] at hrun
      injection hrun with hrun
      injection hrun with hrun _
      cases hrun
    · intro hk
      obtain ⟨e, he, rfl, -⟩ := find_key_some hk
      obtain ⟨m1, b1, _, _, hrun, -⟩ := hfound e.key e.value (List.mem_map_of_mem _ he)
      exact ⟨m1, b1, hrun⟩
  · intro v hkv
    obtain ⟨m1, b1, ps1, ps2, h1, -, h3⟩ := hfound k v hkv
    exact ⟨m1, b1, ps1, ps2, h1, h3⟩
  · constructor
    · rintro ⟨m1, b1, hrun⟩
      by_contra hk
      rw [hL.erase_right_absent hk] at hrun
      injection hrun with hrun
      injection hrun with hrun _
      cases hrun
    · intro hk
      obtain ⟨e, he, rfl, -⟩ := find_value_some hk
      obtain ⟨m1, b1, _, _, -, hrun, -⟩ := hfound e.key e.value (List.mem_map_of_mem _ he)
      exact ⟨m1, b1, hrun⟩
  · intro k hkv
    obtain ⟨m1, b1, ps1, ps2, -, h2, h3⟩ := hfound k v hkv
    exact ⟨m1, b1, ps1, ps2, h2, h3⟩

/-- The calls `erase_left(5)` and `erase_right(333333)` on the concrete run. -/
theorem erase_left_right_correct_witness :
    (∃ m1 b1 ps1 ps2,
      erase_left demo_hash demo_hash demo3.2.1 demo3.2.2 5 = .ok (true, m1, b1) ∧
      [(1, 2), (5, 10), (100, 200)] = ps1 ++ (5, 10) :: ps2 ∧
      traverse (b1.size + 1) m1 b1 = .ok (ps1 ++ ps2) ∧
      b1.size + 1 = demo3.2.2.size ∧ find_left demo_hash m1 b1 5 = .ok b1.end_ ∧
      find_right demo_hash m1 b1 10 = .ok b1.end_) ∧
    erase_right demo_hash demo_hash demo3.2.1 demo3.2.2 333333 =
      .ok (false, demo3.2.1, demo3.2.2) :=
  ⟨((erase_left_right_correct demo_reachable demo_traverse).1 5).2.2 10 (by decide),
    ((erase_left_right_correct demo_reachable demo_traverse).2 333333).2.1 (by decide)⟩

end EraseBy

section Copy
variable {Key Value : Type}

theorem pair_eq_iff (x y : Entry Key Value) :
    x.pair = y.pair ↔ x.key = y.key ∧ x.value = y.value := by
  simp [Entry.pair]

variable [DecidableEq Key] [DecidableEq Value]

/-- The loop of `operator==` on two segments of equal length compares them pair by pair. -/
theorem eq_loop_chain {m : Mem Key Value} (Ll : List (Entry Key Value)) {p q : Option Nat}
    {Lr : List (Entry Key Value)} (hl : Chain m.cell p Ll none) (hr : Chain m.cell q Lr none)
    (hlen : Ll.length = Lr.length) (fuel : Nat) (hf : Ll.length < fuel) :
    eq_loop fuel m ⟨first_or none Ll⟩ ⟨first_or none Lr⟩ =
      .ok (decide (Ll.map Entry.pair = Lr.map Entry.pair)) := by
  induction Ll generalizing p q Lr fuel with
  | nil =>
    cases Lr with
    | nil =>
      cases fuel with
      | zero => omega
      | succ f => simp [unordered_bimap.eq_loop, iterator.ne]
    | cons y Lr => simp at hlen
  | cons x Ll ih =>
    cases Lr with
    | nil => simp at hlen
    | cons y Lr =>
      cases fuel with
      | zero => omega
      | succ f =>
        obtain ⟨hl1, hl2⟩ := hl
        obtain ⟨hr1, hr2⟩ := hr
        have hrec := ih hl2 hr2 (by simpa using hlen) f (by simpa using hf)
        by_cases hxy : x.key ≠ y.key ∨ x.value ≠ y.value
        · have hne : ¬ (x.pair = y.pair) := by
            rw [pair_eq_iff]; tauto
          simp [unordered_bimap.eq_loop, iterator.ne, deref_of_cell hl1, deref_of_cell hr1,
            bind, Except.bind, pure, Except.pure, hxy, hne]
        · have heq : x.pair = y.pair := by
            rw [pair_eq_iff]; tauto
          simp only [unordered_bimap.eq_loop, iterator.ne, first_or_cons, deref_of_cell hl1,
            deref_of_cell hr1, incr_of_cell hl1, incr_of_cell hr1, bind, Except.bind, hxy,
            if_false, hrec, List.map_cons, heq]
          simp

variable {KeyHash : Key → Nat} {ValueHash : Value → Nat}

/-- With enough fuel, `operator==` on two containers that satisfy the invariant in one store
decides whether their entries carry the same pairs in the same order. -/
theorem Inv.eq {m : Mem Key Value} {lhs rhs : unordered_bimap} {Ll Lr : List (Entry Key Value)}
    (hl : Inv KeyHash ValueHash m lhs Ll) (hr : Inv KeyHash ValueHash m rhs Lr) (fuel : Nat)
    (hf : Ll.length < fuel) :
    unordered_bimap.eq fuel m lhs rhs = .ok (decide (Ll.map Entry.pair = Lr.map Entry.pair)) := by
  unfold unordered_bimap.eq
  by_cases hlen : Ll.length = Lr.length
  · have hs : ¬ (lhs.size ≠ rhs.size) := by
      simp [unordered_bimap.size, hl.count, hr.count, hlen]
    rw [if_neg hs]
    unfold unordered_bimap.begin
    rw [hl.head, hr.head]
    exact eq_loop_chain Ll hl.chain hr.chain hlen fuel hf
  · have hs : lhs.size ≠ rhs.size := by
      simp [unordered_bimap.size, hl.count, hr.count, hlen]
    rw [if_pos hs]
    have : ¬ (Ll.map Entry.pair = Lr.map Entry.pair) := by
      intro hh
      apply hlen
      have := congrArg List.length hh
      simpa using this
    simp [this]

end Copy

section Copy
variable {Key Value : Type} [DecidableEq Key] [DecidableEq Value]
  {KeyHash : Key → Nat} {ValueHash : Value → Nat}

/-- The copy loop, started at the entry of `a` where `A2` begins, appends the pairs of `A2` to
the container `c`; no insert is rejected and no node of `a` is touched. -/
theorem copy_loop_spec (A2 : List (Entry Key Value)) {A1 : List (Entry Key Value)}
    {m : Mem Key Value} {a c : unordered_bimap} {Lc : List (Entry Key Value)}
    (ha : Inv KeyHash ValueHash m a (A1 ++ A2)) (hc : Inv KeyHash ValueHash m c Lc)
    (hd : ∀ x ∈ A1 ++ A2, ∀ y ∈ Lc, x.addr ≠ y.addr)
    (hk : (Lc.map Entry.key ++ A2.map Entry.key).Nodup)
    (hv : (Lc.map Entry.value ++ A2.map Entry.value).Nodup) :
    ∃ rs m1 c1 Lc1, Inv KeyHash ValueHash m1 a (A1 ++ A2) ∧ Inv KeyHash ValueHash m1 c1 Lc1 ∧
      Lc1.map Entry.pair = Lc.map Entry.pair ++ A2.map Entry.pair ∧
      (∀ x ∈ A1 ++ A2, m1.cell x.addr = m.cell x.addr) ∧
      rs.length = A2.length ∧ (∀ r ∈ rs, r.data ≠ none) ∧
      ∀ fuel, copy_loop KeyHash ValueHash fuel m c ⟨first_or none A2⟩ =
        if A2.length < fuel then .ok (rs, m1, c1) else .error .fuel := by
  induction A2 generalizing A1 m c Lc with
  | nil =>
    refine ⟨[], m, c, Lc, ha, hc, by simp, fun _ _ => rfl, rfl,
      fun _ hr => absurd hr (List.not_mem_nil _), ?_⟩
    intro fuel
    cases fuel with
    | zero => rfl
    | succ f => simp [unordered_bimap.copy_loop, iterator.ne]
  | cons e A2 ih =>
    have hce := chain_cell ha.chain
    have h1 : e.key ∉ Lc.map Entry.key := by
      rw [List.nodup_append] at hk
      intro hh
      exact hk.2.2 hh (by simp)
    have h2 : e.value ∉ Lc.map Entry.value := by
      rw [List.nodup_append] at hv
      intro hh
      exact hv.2.2 hh (by simp)
    obtain ⟨m1, c1, hrun, hinv, hbrk, hcell⟩ := hc.insert_new h1 h2
    have hsame : ∀ x ∈ A1 ++ e :: A2, m1.cell x.addr = m.cell x.addr := by
      intro x hx
      refine hcell x.addr ?_ ?_
      · intro hh
        obtain ⟨y, hy, hya⟩ := List.mem_map.1 hh
        exact hd x hx y hy hya.symm
      · have := ha.below x hx
        omega
    have ha1 : Inv KeyHash ValueHash m1 a (A1 ++ e :: A2) :=
      ha.frame hinv.fresh (by omega) hsame
    have ha2 : Inv KeyHash ValueHash m1 a ((A1 ++ [e]) ++ A2) := by
      rw [List.append_assoc]; exact ha1
    have hd2 : ∀ x ∈ (A1 ++ [e]) ++ A2,
        ∀ y ∈ Lc ++ [(⟨m.brk, e.key, e.value⟩ : Entry Key Value)], x.addr ≠ y.addr := by
      intro x hx y hy
      have hx1 : x ∈ A1 ++ e :: A2 := by
        rw [List.append_assoc] at hx; exact hx
      rcases List.mem_append.1 hy with hy | hy
      · exact hd x hx1 y hy
      · simp only [List.mem_singleton] at hy
        subst hy
        have := ha.below x hx1
        simp only [ne_eq]
        omega
    obtain ⟨rs, m2, c2, Lc2, ha3, hc3, hp3, hsame3, hlen3, hrs3, hloop⟩ :=
      ih ha2 hinv hd2 (by simpa using hk) (by simpa using hv)
    have hce1 : m1.cell e.addr =
        some ⟨e.key, e.value, last_or none A1, first_or none A2⟩ := by
      rw [hsame e (by simp)]; exact hce
    refine ⟨(⟨some m.brk⟩ : iterator) :: rs, m2, c2, Lc2, ?_, hc3, ?_, ?_, by simp [hlen3], ?_, ?_⟩
    · rw [List.append_assoc] at ha3; exact ha3
    · rw [hp3]; simp [Entry.pair]
    · intro x hx
      rw [hsame3 x (by rw [List.append_assoc]; exact hx), hsame x hx]
    · intro r hr
      rcases List.mem_cons.1 hr with hr | hr
      · subst hr; simp
      · exact hrs3 r hr
    · intro fuel
      cases fuel with
      | zero => rfl
      | succ f =>
        simp only [unordered_bimap.copy_loop, iterator.ne, first_or_cons, deref_of_cell hce,
          hrun, incr_of_cell hce1, hloop f, bind, Except.bind, pure, Except.pure,
          List.length_cons, Nat.add_lt_add_iff_right]
        by_cases hf : A2.length < f <;> simp [hf]

end Copy

section Copy
variable {Key Value : Type}

theorem read_of_cell_eq {m m1 : Mem Key Value} {a : Nat} (h : m1.cell a = m.cell a) :
    m1.read (some a) = m.read (some a) := by
  simp [Mem.read, h]

variable [DecidableEq Key] [DecidableEq Value]
  {KeyHash : Key → Nat} {ValueHash : Value → Nat}

/-- Copying `a` into an empty container `c` of the same store. -/
theorem copy_into_empty {m : Mem Key Value} {a c : unordered_bimap}
    {La : List (Entry Key Value)} (ha : Inv KeyHash ValueHash m a La)
    (hc : Inv KeyHash ValueHash m c []) :
    ∃ rs m1 c1,
      (∀ fuel, La.length < fuel →
        copy_loop KeyHash ValueHash fuel m c a.begin = .ok (rs, m1, c1)) ∧
      c1.size = a.size ∧
      (∀ fuel, a.size < fuel → unordered_bimap.eq fuel m1 a c1 = .ok true ∧
        unordered_bimap.eq fuel m1 c1 a = .ok true) ∧
      traverse (c1.size + 1) m1 c1 = .ok (La.map Entry.pair) ∧
      rs.length = La.length ∧ (∀ r ∈ rs, r ≠ c1.end_) ∧
      Inv KeyHash ValueHash m1 a La ∧ (∀ x ∈ La, m1.cell x.addr = m.cell x.addr) := by
  have ha0 : Inv KeyHash ValueHash m a ([] ++ La) := ha
  obtain ⟨rs, m1, c1, Lc1, ha1, hc1, hp, hsame, hlen, hrs, hloop⟩ :=
    copy_loop_spec La ha0 hc (fun _ _ y hy => absurd hy (List.not_mem_nil _))
      (by simpa using ha.keys) (by simpa using ha.values)
  simp only [List.map_nil, List.nil_append] at hp ha1 hsame
  have hlen1 : Lc1.length = La.length := by
    have := congrArg List.length hp
    simpa using this
  have hsz : c1.size = a.size := by
    simp [unordered_bimap.size, hc1.count, ha.count, hlen1]
  refine ⟨rs, m1, c1, ?_, hsz, ?_, ?_, hlen, ?_, ha1, hsame⟩
  · intro fuel hf
    unfold unordered_bimap.begin
    rw [ha.head, hloop, if_pos hf]
  · intro fuel hf
    have hf1 : La.length < fuel := by
      simpa [unordered_bimap.size, ha.count] using hf
    rw [ha1.eq hc1 fuel hf1, hc1.eq ha1 fuel (by omega), hp]
    simp
  · rw [hc1.traverse_size, hp]
  · intro r hr hh
    exact hrs r hr (by rw [hh]; rfl)

theorem demo_reachable2 : Reachable2 demo_hash demo_hash demo4.2.1 demo3.2.2 demo4.2.2 :=
  .right (.left (.left (.left (.init Mem.init (fun _ _ => rfl))
    (.insert 1 2
      (rfl : unordered_bimap.insert demo_hash demo_hash Mem.init init 1 2 = .ok demo1)))
    (.insert 5 10
      (rfl : unordered_bimap.insert demo_hash demo_hash demo1.2.1 demo1.2.2 5 10 = .ok demo2)))
    (.insert 100 200
      (rfl : unordered_bimap.insert demo_hash demo_hash demo2.2.1 demo2.2.2 100 200 =
        .ok demo3)))
    (.insert 9 9
      (rfl : unordered_bimap.insert demo_hash demo_hash demo3.2.1 init 9 9 = .ok demo4))

end Copy

section Halves
variable {Key Value : Type} [DecidableEq Key] [DecidableEq Value]
  {KeyHash : Key → Nat} {ValueHash : Value → Nat}

/-- The member `erase` is its first half followed by its second half. -/
theorem erase_halves (m : Mem Key Value) (b : unordered_bimap) (elem : iterator) :
    erase KeyHash ValueHash m b elem = (do
      let n ← m.read elem.data
      let s ← erase_unlink m b elem
      erase_unregister KeyHash ValueHash s.1 s.2 elem ⟨n.next⟩) := by
  simp only [unordered_bimap.erase, erase_unlink, erase_unregister, bind, Except.bind, pure,
    Except.pure]
  cases h0 : m.read elem.data with
  | error f => rfl
  | ok n =>
    simp only []
    cases hp : n.prev with
    | none =>
      simp only [h0]
    | some q0 =>
      simp only []
      cases h3 : m.read (some q0) with
      | error f => rfl
      | ok nq =>
        simp only []
        cases h1 : (m.write q0 { nq with next := n.next }).read elem.data with
        | error f => rfl
        | ok n1 => simp only []

end Halves

section Halves
variable {Key Value : Type}

theorem read_some {m : Mem Key Value} {p : Option Nat} {n : node Key Value}
    (h : m.read p = .ok n) : ∃ a, p = some a ∧ m.cell a = some n := by
  cases p with
  | none => cases h
  | some a =>
    refine ⟨a, rfl, ?_⟩
    simp only [Mem.read] at h
    split at h
    · cases h
    · next n1 hn =>
      injection h with h
      rw [hn, h]

/-- A write that keeps the pair of the node keeps the pair of every node. -/
theorem write_keeps_pairs {m : Mem Key Value} {q : Nat} {nq n1 : node Key Value}
    (hq : m.cell q = some nq) (hk : n1.key = nq.key) (hv : n1.value = nq.value)
    (p : Nat) (n : node Key Value) (hp : m.cell p = some n) :
    ∃ n2, (m.write q n1).cell p = some n2 ∧ n2.key = n.key ∧ n2.value = n.value := by
  by_cases hpq : p = q
  · subst hpq
    rw [hq] at hp
    injection hp with hp
    subst hp
    exact ⟨n1, by simp [Mem.write], hk, hv⟩
  · exact ⟨n, by simp [Mem.write, hpq, hp], rfl, rfl⟩

/-- The first half of `erase` touches neither table nor the count, and keeps the pair of every
node of the store. -/
theorem erase_unlink_keeps {m m2 : Mem Key Value} {b b2 : unordered_bimap} {elem : iterator}
    (h : erase_unlink m b elem = .ok (m2, b2)) :
    b2.key_hashtable = b.key_hashtable ∧ b2.value_hashtable = b.value_hashtable ∧
      b2.elem_count = b.elem_count ∧
      ∀ p n, m.cell p = some n →
        ∃ n1, m2.cell p = some n1 ∧ n1.key = n.key ∧ n1.value = n.value := by
  simp only [erase_unlink, bind, Except.bind, pure, Except.pure] at h
  split at h
  · cases h
  · next n h0 =>
    split at h
    · cases h
    · next s1 hs1 =>
      obtain ⟨m1, b1⟩ := s1
      simp only [] at h
      have A : b1.key_hashtable = b.key_hashtable ∧ b1.value_hashtable = b.value_hashtable ∧
          b1.elem_count = b.elem_count ∧
          ∀ p n, m.cell p = some n →
            ∃ n1, m1.cell p = some n1 ∧ n1.key = n.key ∧ n1.value = n.value := by
        split at hs1
        · next q hq =>
          split at hs1
          · cases hs1
          · next nq hnq =>
            injection hs1 with hs1
            injection hs1 with e1 e2
            subst e1; subst e2
            obtain ⟨a, ha, hca⟩ := read_some hnq
            injection ha with ha
            subst ha
            exact ⟨rfl, rfl, rfl, write_keeps_pairs hca rfl rfl⟩
        · injection hs1 with hs1
          injection hs1 with e1 e2
          subst e1; subst e2
          exact ⟨rfl, rfl, rfl, fun p n hpn => ⟨n, hpn, rfl, rfl⟩⟩
      have B : b2.key_hashtable = b1.key_hashtable ∧ b2.value_hashtable = b1.value_hashtable ∧
          b2.elem_count = b1.elem_count ∧
          ∀ p n, m1.cell p = some n →
            ∃ n1, m2.cell p = some n1 ∧ n1.key = n.key ∧ n1.value = n.value := by
        split at h
        · cases h
        · next n1 hn1 =>
          split at h
          · next q hq =>
            split at h
            · cases h
            · next nq hnq =>
              injection h with h
              injection h with e1 e2
              subst e1; subst e2
              obtain ⟨a, ha, hca⟩ := read_some hnq
              injection ha with ha
              subst ha
              exact ⟨rfl, rfl, rfl, write_keeps_pairs hca rfl rfl⟩
          · injection h with h
            injection h with e1 e2
            subst e1; subst e2
            exact ⟨rfl, rfl, rfl, fun p n hpn => ⟨n, hpn, rfl, rfl⟩⟩
      refine ⟨B.1.trans A.1, B.2.1.trans A.2.1, B.2.2.1.trans A.2.2.1, ?_⟩
      intro p n hpn
      obtain ⟨n1, h1, k1, v1⟩ := A.2.2.2 p n hpn
      obtain ⟨n2, h2, k2, v2⟩ := B.2.2.2 p n1 h1
      exact ⟨n2, h2, k2.trans k1, v2.trans v1⟩

end Halves

section OwnReferences
variable {Key Value : Type}

theorem bucket_of_nodup (f : Entry Key Value → Nat) {L : List (Entry Key Value)}
    (h : (L.map Entry.addr).Nodup) (i : Nat) : (bucket_of f L i).Nodup :=
  h.sublist ((List.filter_sublist L).map Entry.addr)

theorem bucket_of_filter_self (f : Entry Key Value → Nat) (L : List (Entry Key Value)) (a : Nat)
    (h : a ∉ L.map Entry.addr) (i : Nat) :
    (bucket_of f L i).filter (fun q => decide (q ≠ a)) = bucket_of f L i := by
  rw [List.filter_eq_self]
  intro q hq
  have := bucket_of_subset f L i q hq
  simp only [decide_eq_true_eq]
  intro hh
  exact h (hh ▸ this)

/-- Without the address of one entry, a bucket is the bucket of the other entries. -/
theorem bucket_of_filter_ne (f : Entry Key Value → Nat) (L1 L2 : List (Entry Key Value))
    (e : Entry Key Value) (h1 : e.addr ∉ L1.map Entry.addr) (h2 : e.addr ∉ L2.map Entry.addr)
    (i : Nat) :
    (bucket_of f (L1 ++ e :: L2) i).filter (fun q => decide (q ≠ e.addr)) =
      bucket_of f (L1 ++ L2) i := by
  have hsplit : bucket_of f (L1 ++ e :: L2) i =
      bucket_of f L1 i ++ (bucket_of f [e] i ++ bucket_of f L2 i) := by
    rw [← bucket_of_append, ← bucket_of_append]; rfl
  rw [hsplit, List.filter_append, List.filter_append, bucket_of_filter_self f L1 _ h1,
    bucket_of_filter_self f L2 _ h2, bucket_of_append, bucket_of_single]
  by_cases hi : f e % PRIME_SIZE = i <;> simp [hi]

end OwnReferences

section OwnReferences
variable {Key Value : Type} [DecidableEq Key] [DecidableEq Value]
  {KeyHash : Key → Nat} {ValueHash : Value → Nat}

/-- C19, `erase` removes the entry's own index references.  In a reachable state, for any hash
functions, let `it` be a valid cursor on the node at address `p`, which holds `(k, v)`.  Then the
first half of `erase` returns a store and a container in which `find_key(k)` returns `p`, and so
does `find_value(v)` whatever has been done to the key table meanwhile; `p` is in the bucket of
`k` and in the bucket of `v`, so neither `std::find` ends at the bucket's end; the second half
returns, and with it `erase`; before the call `p` occurred exactly once in either bucket; and
afterwards every bucket of either table is what it was, without `p`. -/
theorem erase_removes_own_references {m : Mem Key Value} {b : unordered_bimap}
    (h : Reachable KeyHash ValueHash m b) {it : iterator} (hvalid : ValidCursor m b it)
    {k : Key} {v : Value} (hkv : it.deref m = .ok (k, v)) :
    ∃ p m2 b2 r m1 b1, it = ⟨some p⟩ ∧
      erase_unlink m b it = .ok (m2, b2) ∧
      find_key KeyHash m2 b2 k = .ok (some p) ∧
      (∀ b3 : unordered_bimap, b3.value_hashtable = b2.value_hashtable →
        find_value ValueHash m2 b3 v = .ok (some p)) ∧
      p ∈ b2.key_hashtable (KeyHash k % PRIME_SIZE) ∧
      p ∈ b2.value_hashtable (ValueHash v % PRIME_SIZE) ∧
      erase_unregister KeyHash ValueHash m2 b2 it r = .ok (r, m1, b1) ∧
      erase KeyHash ValueHash m b it = .ok (r, m1, b1) ∧
      (b.key_hashtable (KeyHash k % PRIME_SIZE)).count p = 1 ∧
      (b.value_hashtable (ValueHash v % PRIME_SIZE)).count p = 1 ∧
      (∀ i, b1.key_hashtable i = (b.key_hashtable i).filter (fun q => decide (q ≠ p))) ∧
      (∀ i, b1.value_hashtable i = (b.value_hashtable i).filter (fun q => decide (q ≠ p))) := by
  obtain ⟨L, hL⟩ := reachable_inv h
  obtain ⟨L1, e, L2, rfl, rfl⟩ := hL.valid_cursor hvalid
  rw [hL.deref rfl] at hkv
  injection hkv with hkv
  injection hkv with hk1 hv1
  subst hk1; subst hv1
  obtain ⟨m1, b1, hrun, hinv, -⟩ := hL.erase
  have hce := chain_cell hL.chain
  have hrun2 := hrun
  rw [erase_halves] at hrun2
  simp only [read_of_cell hce, bind, Except.bind] at hrun2
  cases hu : erase_unlink m b ⟨some e.addr⟩ with
  | error f => rw [hu] at hrun2; cases hrun2
  | ok s =>
    obtain ⟨m2, b2⟩ := s
    rw [hu] at hrun2
    simp only [] at hrun2
    obtain ⟨hkt, hvt, -, hkeep⟩ := erase_unlink_keeps hu
    have hst2 : Stored m2.cell (L1 ++ e :: L2) :=
      stored_congr (chain_stored hL.chain) (fun x _ n hn => hkeep x.addr n hn)
    have hmk : e.addr ∈ b.key_hashtable (KeyHash e.key % PRIME_SIZE) := by
      rw [hL.key_index]; exact bucket_of_mem (fun x => KeyHash x.key) L1 L2 e
    have hmv : e.addr ∈ b.value_hashtable (ValueHash e.value % PRIME_SIZE) := by
      rw [hL.value_index]; exact bucket_of_mem (fun x => ValueHash x.value) L1 L2 e
    refine ⟨e.addr, m2, b2, ⟨first_or none L2⟩, m1, b1, rfl, rfl, ?_, ?_, ?_, ?_, hrun2, hrun,
      ?_, ?_, ?_, ?_⟩
    · unfold unordered_bimap.find_key
      rw [hkt, hL.key_index, find_if_key_bucket KeyHash m2 e.key _ hst2,
        find_entry_key hL.keys]
      rfl
    · intro b3 hb3
      unfold unordered_bimap.find_value
      rw [hb3, hvt, hL.value_index, find_if_value_bucket ValueHash m2 e.value _ hst2,
        find_entry_value hL.values]
      rfl
    · rw [hkt]; exact hmk
    · rw [hvt]; exact hmv
    · refine List.count_eq_one_of_mem ?_ hmk
      rw [hL.key_index]
      exact bucket_of_nodup _ hL.addr_nodup _
    · refine List.count_eq_one_of_mem ?_ hmv
      rw [hL.value_index]
      exact bucket_of_nodup _ hL.addr_nodup _
    · intro i
      rw [hinv.key_index, hL.key_index,
        bucket_of_filter_ne _ L1 L2 e hL.not_mem_left hL.not_mem_right]
    · intro i
      rw [hinv.value_index, hL.value_index,
        bucket_of_filter_ne _ L1 L2 e hL.not_mem_left hL.not_mem_right]

/-- The erase of the middle entry of the concrete run, where all three entries share both
buckets. -/
theorem erase_removes_own_references_witness :
    ∃ p m2 b2 r m1 b1, demo2.1 = ⟨some p⟩ ∧
      erase_unlink demo3.2.1 demo3.2.2 demo2.1 = .ok (m2, b2) ∧
      find_key demo_hash m2 b2 5 = .ok (some p) ∧
      (∀ b3 : unordered_bimap, b3.value_hashtable = b2.value_hashtable →
        find_value demo_hash m2 b3 10 = .ok (some p)) ∧
      p ∈ b2.key_hashtable (demo_hash 5 % PRIME_SIZE) ∧
      p ∈ b2.value_hashtable (demo_hash 10 % PRIME_SIZE) ∧
      erase_unregister demo_hash demo_hash m2 b2 demo2.1 r = .ok (r, m1, b1) ∧
      erase demo_hash demo_hash demo3.2.1 demo3.2.2 demo2.1 = .ok (r, m1, b1) ∧
      (demo3.2.2.key_hashtable (demo_hash 5 % PRIME_SIZE)).count p = 1 ∧
      (demo3.2.2.value_hashtable (demo_hash 10 % PRIME_SIZE)).count p = 1 ∧
      (∀ i, b1.key_hashtable i =
        (demo3.2.2.key_hashtable i).filter (fun q => decide (q ≠ p))) ∧
      (∀ i, b1.value_hashtable i =
        (demo3.2.2.value_hashtable i).filter (fun q => decide (q ≠ p))) :=
  erase_removes_own_references demo_reachable ⟨by decide, 1, rfl⟩ rfl

end OwnReferences

section Copy
variable {Key Value : Type} [DecidableEq Key] [DecidableEq Value]
  {KeyHash : Key → Nat} {ValueHash : Value → Nat}

/-- The copy loop once more, with what separation needs: the entries it adds to `c` sit at
addresses that were not allocated before, and the allocation frontier does not move down. -/
theorem copy_loop_sep (A2 : List (Entry Key Value)) {A1 : List (Entry Key Value)}
    {m : Mem Key Value} {a c : unordered_bimap} {Lc : List (Entry Key Value)}
    (ha : Inv KeyHash ValueHash m a (A1 ++ A2)) (hc : Inv KeyHash ValueHash m c Lc)
    (hd : ∀ x ∈ A1 ++ A2, ∀ y ∈ Lc, x.addr ≠ y.addr)
    (hk : (Lc.map Entry.key ++ A2.map Entry.key).Nodup)
    (hv : (Lc.map Entry.value ++ A2.map Entry.value).Nodup) :
    ∃ rs m1 c1 Lc1, Inv KeyHash ValueHash m1 a (A1 ++ A2) ∧ Inv KeyHash ValueHash m1 c1 Lc1 ∧
      Lc1.map Entry.pair = Lc.map Entry.pair ++ A2.map Entry.pair ∧
      (∀ x ∈ A1 ++ A2, m1.cell x.addr = m.cell x.addr) ∧
      rs.length = A2.length ∧ (∀ r ∈ rs, r.data ≠ none) ∧
      (∀ y ∈ Lc1, y ∈ Lc ∨ m.brk ≤ y.addr) ∧ m.brk ≤ m1.brk ∧
      ∀ fuel, copy_loop KeyHash ValueHash fuel m c ⟨first_or none A2⟩ =
        if A2.length < fuel then .ok (rs, m1, c1) else .error .fuel := by
  induction A2 generalizing A1 m c Lc with
  | nil =>
    refine ⟨[], m, c, Lc, ha, hc, by simp, fun _ _ => rfl, rfl,
      fun _ hr => absurd hr (List.not_mem_nil _), fun _ hy => Or.inl hy, le_rfl, ?_⟩
    intro fuel
    cases fuel with
    | zero => rfl
    | succ f => simp [unordered_bimap.copy_loop, iterator.ne]
  | cons e A2 ih =>
    have hce := chain_cell ha.chain
    have h1 : e.key ∉ Lc.map Entry.key := by
      rw [List.nodup_append] at hk
      intro hh
      exact hk.2.2 hh (by simp)
    have h2 : e.value ∉ Lc.map Entry.value := by
      rw [List.nodup_append] at hv
      intro hh
      exact hv.2.2 hh (by simp)
    obtain ⟨m1, c1, hrun, hinv, hbrk, hcell⟩ := hc.insert_new h1 h2
    have hsame : ∀ x ∈ A1 ++ e :: A2, m1.cell x.addr = m.cell x.addr := by
      intro x hx
      refine hcell x.addr ?_ ?_
      · intro hh
        obtain ⟨y, hy, hya⟩ := List.mem_map.1 hh
        exact hd x hx y hy hya.symm
      · have := ha.below x hx
        omega
    have ha1 : Inv KeyHash ValueHash m1 a (A1 ++ e :: A2) :=
      ha.frame hinv.fresh (by omega) hsame
    have ha2 : Inv KeyHash ValueHash m1 a ((A1 ++ [e]) ++ A2) := by
      rw [List.append_assoc]; exact ha1
    have hd2 : ∀ x ∈ (A1 ++ [e]) ++ A2,
        ∀ y ∈ Lc ++ [(⟨m.brk, e.key, e.value⟩ : Entry Key Value)], x.addr ≠ y.addr := by
      intro x hx y hy
      have hx1 : x ∈ A1 ++ e :: A2 := by
        rw [List.append_assoc] at hx; exact hx
      rcases List.mem_append.1 hy with hy | hy
      · exact hd x hx1 y hy
      · simp only [List.mem_singleton] at hy
        subst hy
        have := ha.below x hx1
        simp only [ne_eq]
        omega
    obtain ⟨rs, m2, c2, Lc2, ha3, hc3, hp3, hsame3, hlen3, hrs3, hnew3, hbrk3, hloop⟩ :=
      ih ha2 hinv hd2 (by simpa using hk) (by simpa using hv)
    have hce1 : m1.cell e.addr =
        some ⟨e.key, e.value, last_or none A1, first_or none A2⟩ := by
      rw [hsame e (by simp)]; exact hce
    refine ⟨(⟨some m.brk⟩ : iterator) :: rs, m2, c2, Lc2, ?_, hc3, ?_, ?_, by simp [hlen3], ?_,
      ?_, by omega, ?_⟩
    · rw [List.append_assoc] at ha3; exact ha3
    · rw [hp3]; simp [Entry.pair]
    · intro x hx
      rw [hsame3 x (by rw [List.append_assoc]; exact hx), hsame x hx]
    · intro r hr
      rcases List.mem_cons.1 hr with hr | hr
      · subst hr; simp
      · exact hrs3 r hr
    · intro y hy
      rcases hnew3 y hy with hy1 | hy1
      · rcases List.mem_append.1 hy1 with hy2 | hy2
        · exact Or.inl hy2
        · simp only [List.mem_singleton] at hy2
          subst hy2
          exact Or.inr le_rfl
      · exact Or.inr (by omega)
    · intro fuel
      cases fuel with
      | zero => rfl
      | succ f =>
        simp only [unordered_bimap.copy_loop, iterator.ne, first_or_cons, deref_of_cell hce,
          hrun, incr_of_cell hce1, hloop f, bind, Except.bind, pure, Except.pure,
          List.length_cons, Nat.add_lt_add_iff_right]
        by_cases hf : A2.length < f <;> simp [hf]

end Copy

section ClearFull
variable {Key Value : Type} [DecidableEq Key] [DecidableEq Value]
  {KeyHash : Key → Nat} {ValueHash : Value → Nat}

/-- The loop of `clear` once more: it also frees the node of every entry, and it calls `erase`
once for each entry. -/
theorem clear_loop_full (L : List (Entry Key Value))
    {m : Mem Key Value} {b : unordered_bimap} (h : Inv KeyHash ValueHash m b L) :
    ∃ m1 b1, Inv KeyHash ValueHash m1 b1 [] ∧ m1.brk = m.brk ∧
      (∀ p, p ∉ L.map Entry.addr → m1.cell p = m.cell p) ∧
      (∀ e ∈ L, m1.cell e.addr = none) ∧
      (∀ fuel, clear_loop KeyHash ValueHash fuel m b ⟨first_or none L⟩ =
        if L.length < fuel then .ok (m1, b1) else .error .fuel) ∧
      ∀ fuel, clear_loop_counted KeyHash ValueHash fuel m b ⟨first_or none L⟩ =
        if L.length < fuel then .ok (L.length, m1, b1) else .error .fuel := by
  induction L generalizing m b with
  | nil =>
    refine ⟨m, b, h, rfl, fun _ _ => rfl, fun _ he => absurd he (List.not_mem_nil _), ?_, ?_⟩
    · intro fuel
      cases fuel with
      | zero => rfl
      | succ f => simp [unordered_bimap.clear_loop, unordered_bimap.empty, h.count]
    · intro fuel
      cases fuel with
      | zero => rfl
      | succ f => simp [unordered_bimap.clear_loop_counted, unordered_bimap.empty, h.count]
  | cons e R ih =>
    replace h : Inv KeyHash ValueHash m b ([] ++ e :: R) := h
    have hce := chain_cell h.chain
    have hnr := h.not_mem_right
    obtain ⟨m1, b1, hrun, hinv, hbrk, hfr, hnone, hcnt⟩ := h.erase
    obtain ⟨m2, b2, hinv2, hbrk2, hfr2, hfreed2, hloop, hcounted⟩ := ih hinv
    have hemp : b.empty = false := by
      simp [unordered_bimap.empty, h.count]
    refine ⟨m2, b2, hinv2, by rw [hbrk2, hbrk], ?_, ?_, ?_, ?_⟩
    · intro p hp
      rw [hfr2 p, hfr p hp]
      intro hh
      apply hp
      simp only [List.nil_append, List.map_cons, List.mem_cons] at hh ⊢
      exact Or.inr hh
    · intro x hx
      rcases List.mem_cons.1 hx with hx | hx
      · subst hx
        rw [hfr2 x.addr hnr]
        exact hnone
      · exact hfreed2 x hx
    · intro fuel
      cases fuel with
      | zero => rfl
      | succ f =>
        simp only [first_or_cons, unordered_bimap.clear_loop, hemp, Bool.false_eq_true,
          if_false, incr_of_cell hce, hrun, bind, Except.bind, List.length_cons,
          Nat.add_lt_add_iff_right]
        exact hloop f
    · intro fuel
      cases fuel with
      | zero => rfl
      | succ f =>
        simp only [first_or_cons, unordered_bimap.clear_loop_counted, hemp, Bool.false_eq_true,
          if_false, incr_of_cell hce, hrun, bind, Except.bind, List.length_cons,
          Nat.add_lt_add_iff_right, hcounted f, pure, Except.pure]
        by_cases hf : R.length < f <;> simp [hf]

end ClearFull

section AssignInv
variable {Key Value : Type} [DecidableEq Key] [DecidableEq Value]
  {KeyHash : Key → Nat} {ValueHash : Value → Nat}

/-- What a call of `clear` that returns leaves behind. -/
theorem Inv.clear_ok {L : List (Entry Key Value)} {m m0 : Mem Key Value}
    {b b0 : unordered_bimap} (h : Inv KeyHash ValueHash m b L) {fuel : Nat}
    (hrun : unordered_bimap.clear KeyHash ValueHash fuel m b = .ok (m0, b0)) :
    Inv KeyHash ValueHash m0 b0 [] ∧ m0.brk = m.brk ∧
      (∀ p, p ∉ L.map Entry.addr → m0.cell p = m.cell p) ∧
      (∀ e ∈ L, m0.cell e.addr = none) ∧ L.length < fuel := by
  obtain ⟨m1, b1, h1, h2, h3, h4, h5, -⟩ := clear_loop_full L h
  unfold unordered_bimap.clear unordered_bimap.begin at hrun
  rw [h.head, h5] at hrun
  split at hrun
  · next hf =>
    injection hrun with hrun
    injection hrun with e1 e2
    subst e1; subst e2
    exact ⟨h1, h2, h3, h4, hf⟩
  · cases hrun

/-- Clearing one container keeps the invariant of another one whose nodes are elsewhere. -/
theorem Inv.clear_other {La Lb : List (Entry Key Value)} {m m0 : Mem Key Value}
    {a a0 b : unordered_bimap} (ha : Inv KeyHash ValueHash m a La)
    (hb : Inv KeyHash ValueHash m b Lb) (hd : ∀ x ∈ La, ∀ y ∈ Lb, x.addr ≠ y.addr)
    {fuel : Nat} (hrun : unordered_bimap.clear KeyHash ValueHash fuel m a = .ok (m0, a0)) :
    Inv KeyHash ValueHash m0 b Lb ∧ ∀ y ∈ Lb, m0.cell y.addr = m.cell y.addr := by
  obtain ⟨h1, h2, h3, -, -⟩ := ha.clear_ok hrun
  have hsame : ∀ y ∈ Lb, m0.cell y.addr = m.cell y.addr := by
    intro y hy
    refine h3 y.addr ?_
    intro hh
    obtain ⟨x, hx, hxa⟩ := List.mem_map.1 hh
    exact hd x hx y hy hxa
  exact ⟨hb.frame h1.fresh (by omega) hsame, hsame⟩

/-- The copy loop does nothing when it starts at the end cursor. -/
theorem copy_loop_end {m m1 : Mem Key Value} {c c1 : unordered_bimap} {rs : List iterator}
    {fuel : Nat}
    (hrun : copy_loop KeyHash ValueHash fuel m c ⟨none⟩ = .ok (rs, m1, c1)) :
    rs = [] ∧ m1 = m ∧ c1 = c := by
  cases fuel with
  | zero => cases hrun
  | succ f =>
    simp only [unordered_bimap.copy_loop, iterator.ne, bne_self_eq_false, Bool.false_eq_true,
      if_false] at hrun
    injection hrun with hrun
    injection hrun with e1 hrun
    injection hrun with e2 e3
    exact ⟨e1.symm, e2.symm, e3.symm⟩

/-- What a run of the copy loop over all of `a` into an empty container leaves behind. -/
theorem copy_loop_ok {La : List (Entry Key Value)} {m m1 : Mem Key Value}
    {a c c1 : unordered_bimap} {rs : List iterator} {fuel : Nat}
    (ha : Inv KeyHash ValueHash m a La) (hc : Inv KeyHash ValueHash m c [])
    (hrun : copy_loop KeyHash ValueHash fuel m c a.begin = .ok (rs, m1, c1)) :
    ∃ Lc, Inv KeyHash ValueHash m1 a La ∧ Inv KeyHash ValueHash m1 c1 Lc ∧
      Lc.map Entry.pair = La.map Entry.pair ∧ (∀ x ∈ La, ∀ y ∈ Lc, x.addr ≠ y.addr) ∧
      (∀ x ∈ La, m1.cell x.addr = m.cell x.addr) ∧ m.brk ≤ m1.brk ∧
      (∀ y ∈ Lc, m.brk ≤ y.addr) := by
  have ha0 : Inv KeyHash ValueHash m a ([] ++ La) := ha
  obtain ⟨rs1, m2, c2, Lc, ha1, hc1, hp, hsame, -, -, hnew, hbrk, hloop⟩ :=
    copy_loop_sep La ha0 hc (fun _ _ y hy => absurd hy (List.not_mem_nil _))
      (by simpa using ha.keys) (by simpa using ha.values)
  simp only [List.map_nil, List.nil_append] at hp ha1 hsame
  unfold unordered_bimap.begin at hrun
  rw [ha.head, hloop] at hrun
  split at hrun
  · injection hrun with hrun
    injection hrun with e1 hrun
    injection hrun with e2 e3
    subst e2; subst e3
    have hnew1 : ∀ y ∈ Lc, m.brk ≤ y.addr := by
      intro y hy
      rcases hnew y hy with hy1 | hy1
      · exact absurd hy1 (List.not_mem_nil _)
      · exact hy1
    refine ⟨Lc, ha1, hc1, hp, ?_, hsame, hbrk, hnew1⟩
    intro x hx y hy
    have h1 := ha.below x hx
    have h2 := hnew1 y hy
    omega
  · cases hrun

end AssignInv

section AssignInv
variable {Key Value : Type} [DecidableEq Key] [DecidableEq Value]
  {KeyHash : Key → Nat} {ValueHash : Value → Nat}

/-- Two containers reached by any public mutating operations satisfy the invariant on disjoint
sets of addresses. -/
theorem reachable_assign_inv {m : Mem Key Value} {a b : unordered_bimap}
    (h : ReachableAssign KeyHash ValueHash m a b) :
    ∃ La Lb, Inv KeyHash ValueHash m a La ∧ Inv KeyHash ValueHash m b Lb ∧
      ∀ x ∈ La, ∀ y ∈ Lb, x.addr ≠ y.addr := by
  induction h with
  | init m0 h0 => exact ⟨[], [], Inv.init h0, Inv.init h0, fun _ hx => absurd hx (List.not_mem_nil _)⟩
  | swap _ ih =>
    obtain ⟨La, Lb, ha, hb, hd⟩ := ih
    exact ⟨Lb, La, hb, ha, fun y hy x hx => (hd x hx y hy).symm⟩
  | step _ hs ih =>
    obtain ⟨La, Lb, ha, hb, hd⟩ := ih
    obtain ⟨La1, ha1, hbrk, hcell, hnew⟩ := step_inv hs ha
    refine ⟨La1, Lb, ha1, hb.frame ha1.fresh hbrk ?_, ?_⟩
    · intro y hy
      refine hcell y.addr ?_ (hb.below y hy)
      intro hh
      obtain ⟨x, hx, hxa⟩ := List.mem_map.1 hh
      exact hd x hx y hy hxa
    · intro x hx y hy
      rcases hnew x hx with hx | hx
      · exact hd x hx y hy
      · have := hb.below y hy
        omega
  | copy_assign fuel _ hrun ih =>
    obtain ⟨La, Lb, ha, hb, hd⟩ := ih
    simp only [unordered_bimap.copy_assign, bind, Except.bind] at hrun
    split at hrun
    · cases hrun
    · next s hs =>
      obtain ⟨m0, a0⟩ := s
      obtain ⟨ha0, -⟩ := ha.clear_ok hs
      obtain ⟨hb0, -⟩ := ha.clear_other hb hd hs
      obtain ⟨Lc, hb1, hc1, -, hsep, -⟩ := copy_loop_ok hb0 ha0 hrun
      exact ⟨Lc, Lb, hc1, hb1, fun x hx y hy => (hsep y hy x hx).symm⟩
  | move_assign fuel _ hrun ih =>
    obtain ⟨La, Lb, ha, hb, hd⟩ := ih
    simp only [unordered_bimap.move_assign, bind, Except.bind, pure, Except.pure] at hrun
    split at hrun
    · cases hrun
    · next s hs =>
      obtain ⟨m0, a0⟩ := s
      obtain ⟨ha0, -⟩ := ha.clear_ok hs
      obtain ⟨hb0, -⟩ := ha.clear_other hb hd hs
      injection hrun with hrun
      injection hrun with e1 hrun
      injection hrun with e2 e3
      subst e1; subst e2; subst e3
      exact ⟨Lb, [], hb0, ha0, fun _ _ y hy => absurd hy (List.not_mem_nil _)⟩
  | copy_assign_self fuel _ hrun ih =>
    obtain ⟨La, Lb, ha, hb, hd⟩ := ih
    simp only [unordered_bimap.copy_assign_self, bind, Except.bind] at hrun
    split at hrun
    · cases hrun
    · next s hs =>
      obtain ⟨m0, a0⟩ := s
      obtain ⟨ha0, -⟩ := ha.clear_ok hs
      obtain ⟨hb0, -⟩ := ha.clear_other hb hd hs
      have hbegin : a0.begin = ⟨none⟩ := by
        unfold unordered_bimap.begin; rw [ha0.head]; rfl
      simp only [hbegin] at hrun
      obtain ⟨-, e2, e3⟩ := copy_loop_end hrun
      subst e2; subst e3
      exact ⟨[], Lb, ha0, hb0, fun _ hx => absurd hx (List.not_mem_nil _)⟩
  | move_assign_self fuel _ hrun ih =>
    obtain ⟨La, Lb, ha, hb, hd⟩ := ih
    obtain ⟨ha0, -⟩ := ha.clear_ok hrun
    obtain ⟨hb0, -⟩ := ha.clear_other hb hd hrun
    exact ⟨[], Lb, ha0, hb0, fun _ hx => absurd hx (List.not_mem_nil _)⟩
  | copy_ctor fuel _ hrun ih =>
    obtain ⟨La, Lb, ha, hb, hd⟩ := ih
    obtain ⟨Lc, ha1, hc1, -, hsep, -⟩ := copy_loop_ok ha (Inv.init ha.fresh) hrun
    exact ⟨La, Lc, ha1, hc1, hsep⟩

/-- The states of `Reachable` are among those of `ReachableAssign`. -/
theorem reachable_assign_of_reachable {m : Mem Key Value} {b : unordered_bimap}
    (h : Reachable KeyHash ValueHash m b) :
    ReachableAssign KeyHash ValueHash m b unordered_bimap.init := by
  induction h with
  | init m0 h0 => exact .init m0 h0
  | step _ hs ih => exact .step ih hs

/-- The states of `Reachable2` are among those of `ReachableAssign`. -/
theorem reachable_assign_of_reachable2 {m : Mem Key Value} {a b : unordered_bimap}
    (h : Reachable2 KeyHash ValueHash m a b) : ReachableAssign KeyHash ValueHash m a b := by
  induction h with
  | init m0 h0 => exact .init m0 h0
  | left _ hs ih => exact .step ih hs
  | right _ hs ih => exact .swap (.step (.swap ih) hs)

end AssignInv

section Count
variable {Key Value : Type}

theorem decr_of_cell {m : Mem Key Value} {a : Nat} {n : node Key Value} (tail : Option Nat)
    (h : m.cell a = some n) : iterator.decr m tail ⟨some a⟩ = .ok ⟨n.prev⟩ := by
  simp [iterator.decr, read_of_cell h, bind, Except.bind, pure, Except.pure]

theorem decr_end (m : Mem Key Value) (tail : Option Nat) :
    iterator.decr m tail ⟨none⟩ = .ok ⟨tail⟩ := rfl

/-- Walking back from the last node of a segment whose first node has `prev = nullptr`. -/
theorem traverse_back_chain {m : Mem Key Value} (tail : Option Nat)
    (L : List (Entry Key Value)) :
    ∀ (q : Option Nat), Chain m.cell none L q → ∀ fuel, L.length < fuel →
      traverse_back_loop fuel m tail ⟨last_or none L⟩ = .ok (L.map Entry.pair).reverse := by
  induction L using List.reverseRecOn with
  | nil =>
    intro q _ fuel hf
    cases fuel with
    | zero => omega
    | succ f => simp [unordered_bimap.traverse_back_loop, iterator.ne]
  | append_singleton L0 t ih =>
    intro q hc fuel hf
    cases fuel with
    | zero => omega
    | succ f =>
      have hct := chain_cell hc
      rw [chain_append] at hc
      have hrec := ih _ hc.1 f (by simp at hf; omega)
      simp only [last_or_concat, unordered_bimap.traverse_back_loop, iterator.ne,
        deref_of_cell hct, decr_of_cell tail hct, hrec, bind, Except.bind, pure, Except.pure]
      simp [Entry.pair]

/-- Too little fuel: the walk back does not reach the first node. -/
theorem traverse_back_chain_fuel {m : Mem Key Value} (tail : Option Nat)
    (L : List (Entry Key Value)) :
    ∀ (q : Option Nat), Chain m.cell none L q → ∀ fuel, fuel ≤ L.length →
      traverse_back_loop fuel m tail ⟨last_or none L⟩ = .error .fuel := by
  induction L using List.reverseRecOn with
  | nil =>
    intro q _ fuel hf
    cases fuel with
    | zero => rfl
    | succ f => simp at hf
  | append_singleton L0 t ih =>
    intro q hc fuel hf
    cases fuel with
    | zero => rfl
    | succ f =>
      have hct := chain_cell hc
      rw [chain_append] at hc
      have hrec := ih _ hc.1 f (by simp at hf; omega)
      simp only [last_or_concat, unordered_bimap.traverse_back_loop, iterator.ne,
        deref_of_cell hct, decr_of_cell tail hct, hrec, bind, Except.bind, pure, Except.pure]
      simp

variable {hk : Key → Nat} {hv : Value → Nat}
  {m : Mem Key Value} {b : unordered_bimap} {L : List (Entry Key Value)}

theorem Inv.traverse_back (h : Inv hk hv m b L) (fuel : Nat) :
    unordered_bimap.traverse_back fuel m b =
      if L.length < fuel then .ok (L.map Entry.pair).reverse else .error .fuel := by
  simp only [unordered_bimap.traverse_back, end_, decr_end, bind, Except.bind, h.tail]
  split
  · next hf => exact traverse_back_chain _ L none h.chain fuel hf
  · next hf => exact traverse_back_chain_fuel _ L none h.chain fuel (by omega)

theorem Inv.traverse_exact (h : Inv hk hv m b L) (fuel : Nat) :
    unordered_bimap.traverse fuel m b =
      if L.length < fuel then .ok (L.map Entry.pair) else .error .fuel := by
  unfold unordered_bimap.traverse unordered_bimap.begin
  rw [h.head]
  split
  · next hf => exact traverse_chain h.chain fuel hf
  · next hf => exact traverse_chain_fuel h.chain fuel (by omega)

end Count

section Demo

theorem demo_moved_run :
    unordered_bimap.move_assign demo_hash demo_hash 2 demo4.2.1 demo4.2.2 demo3.2.2 =
      .ok demo_moved := rfl

theorem demo_reachable_assign :
    ReachableAssign demo_hash demo_hash demo_moved.1 demo_moved.2.1 demo_moved.2.2 :=
  .move_assign 2 (.swap (reachable_assign_of_reachable2 demo_reachable2)) demo_moved_run

end Demo

section Invariants
variable {Key Value : Type}

theorem mem_bucket_of {f : Entry Key Value → Nat} {L : List (Entry Key Value)} {i p : Nat}
    (h : p ∈ bucket_of f L i) : ∃ e, e ∈ L ∧ e.addr = p ∧ f e % PRIME_SIZE = i := by
  obtain ⟨e, he, hp⟩ := List.mem_map.1 h
  obtain ⟨h1, h2⟩ := List.mem_filter.1 he
  exact ⟨e, h1, hp, of_decide_eq_true h2⟩

variable [DecidableEq Key] [DecidableEq Value]
  {KeyHash : Key → Nat} {ValueHash : Value → Nat}

/-- C15, the count invariant.  In every state that the public mutating operations reach from
empty containers (assignments and the copy constructor included), the walk along `next` from
`begin()` to `end()` returns after visiting exactly `size()` entries, the walk along `prev` from
the tail back to the head returns after visiting exactly `size()` entries, the same ones in
reverse, and `empty()` is true exactly when `begin()` equals `end()`. -/
theorem count_invariant {m : Mem Key Value} {b o : unordered_bimap}
    (h : ReachableAssign KeyHash ValueHash m b o) :
    ∃ fw bw, traverse (b.size + 1) m b = .ok fw ∧ fw.length = b.size ∧
      traverse_back (b.size + 1) m b = .ok bw ∧ bw.length = b.size ∧ bw = fw.reverse ∧
      traverse b.size m b = .error .fuel ∧ traverse_back b.size m b = .error .fuel ∧
      (b.empty = true ↔ b.begin = b.end_) := by
  obtain ⟨L, -, hL, -, -⟩ := reachable_assign_inv h
  have hsz : b.size = L.length := hL.count
  refine ⟨L.map Entry.pair, (L.map Entry.pair).reverse, ?_, by simp [hsz], ?_, by simp [hsz],
    rfl, ?_, ?_, ?_⟩
  · rw [hL.traverse_exact, if_pos (by omega)]
  · rw [hL.traverse_back, if_pos (by omega)]
  · rw [hL.traverse_exact, if_neg (by omega)]
  · rw [hL.traverse_back, if_neg (by omega)]
  · unfold unordered_bimap.empty unordered_bimap.begin end_
    rw [hL.count, hL.head]
    cases L <;> simp

/-- The target of the move assignment of the concrete run. -/
theorem count_invariant_witness :
    ∃ fw bw, traverse (demo_moved.2.1.size + 1) demo_moved.1 demo_moved.2.1 = .ok fw ∧
      fw.length = demo_moved.2.1.size ∧
      traverse_back (demo_moved.2.1.size + 1) demo_moved.1 demo_moved.2.1 = .ok bw ∧
      bw.length = demo_moved.2.1.size ∧ bw = fw.reverse ∧
      traverse demo_moved.2.1.size demo_moved.1 demo_moved.2.1 = .error .fuel ∧
      traverse_back demo_moved.2.1.size demo_moved.1 demo_moved.2.1 = .error .fuel ∧
      (demo_moved.2.1.empty = true ↔ demo_moved.2.1.begin = demo_moved.2.1.end_) :=
  count_invariant demo_reachable_assign

/-- C17, agreement of the indexes with the sequence.  In every state that the public mutating
operations reach, for any hash functions: an address found in bucket `i` of the key table is
that of a live entry (a valid cursor references it) whose key hashes to `i` modulo `PRIME_SIZE`;
and the address of a live entry occurs exactly once in the bucket its key hashes to and in no
other bucket of the key table.  The same holds for the value table and the hash of the value. -/
theorem index_sequence_agreement {m : Mem Key Value} {b o : unordered_bimap}
    (h : ReachableAssign KeyHash ValueHash m b o) :
    (∀ i p, p ∈ b.key_hashtable i →
      ValidCursor m b ⟨some p⟩ ∧ ∃ n, m.read (some p) = .ok n ∧ KeyHash n.key % PRIME_SIZE = i) ∧
    (∀ p, ValidCursor m b ⟨some p⟩ → ∃ n, m.read (some p) = .ok n ∧
      (b.key_hashtable (KeyHash n.key % PRIME_SIZE)).count p = 1 ∧
      ∀ i, i ≠ KeyHash n.key % PRIME_SIZE → p ∉ b.key_hashtable i) ∧
    (∀ i p, p ∈ b.value_hashtable i →
      ValidCursor m b ⟨some p⟩ ∧
        ∃ n, m.read (some p) = .ok n ∧ ValueHash n.value % PRIME_SIZE = i) ∧
    (∀ p, ValidCursor m b ⟨some p⟩ → ∃ n, m.read (some p) = .ok n ∧
      (b.value_hashtable (ValueHash n.value % PRIME_SIZE)).count p = 1 ∧
      ∀ i, i ≠ ValueHash n.value % PRIME_SIZE → p ∉ b.value_hashtable i) := by
  obtain ⟨L, -, hL, -, -⟩ := reachable_assign_inv h
  have hnd := hL.addr_nodup
  have hin : ∀ (f : Entry Key Value → Nat) (t : Nat → List Nat),
      (∀ i, t i = bucket_of f L i) → ∀ i p, p ∈ t i →
      ∃ L1 e L2, L = L1 ++ e :: L2 ∧ e.addr = p ∧ f e % PRIME_SIZE = i := by
    intro f t ht i p hp
    rw [ht] at hp
    obtain ⟨e, he, hpa, hi⟩ := mem_bucket_of hp
    obtain ⟨L1, L2, hL12⟩ := List.append_of_mem he
    exact ⟨L1, e, L2, hL12, hpa, hi⟩
  have hout : ∀ (f : Entry Key Value → Nat) (t : Nat → List Nat),
      (∀ i, t i = bucket_of f L i) → ∀ L1 e L2, L = L1 ++ e :: L2 →
      (t (f e % PRIME_SIZE)).count e.addr = 1 ∧
        ∀ i, i ≠ f e % PRIME_SIZE → e.addr ∉ t i := by
    intro f t ht L1 e L2 hL12
    constructor
    · refine List.count_eq_one_of_mem ?_ ?_
      · rw [ht]; exact bucket_of_nodup f hnd _
      · rw [ht, hL12]; exact bucket_of_mem f L1 L2 e
    · intro i hi hmem
      obtain ⟨A1, e1, A2, hA, hpa, hi1⟩ := hin f t ht i e.addr hmem
      have : e1 = e :=
        List.inj_on_of_nodup_map hnd (by rw [hA]; simp) (by rw [hL12]; simp) hpa
      subst this
      exact hi hi1.symm
  refine ⟨?_, ?_, ?_, ?_⟩
  · intro i p hp
    obtain ⟨L1, e, L2, hL12, rfl, hi⟩ := hin _ _ hL.key_index i p hp
    subst hL12
    exact ⟨hL.cursor_valid, _, read_of_cell (chain_cell hL.chain), hi⟩
  · intro p hvalid
    obtain ⟨L1, e, L2, hL12, hp⟩ := hL.valid_cursor hvalid
    injection hp with hp
    injection hp with hp
    subst hp
    have := hout (fun x => KeyHash x.key) _ hL.key_index L1 e L2 hL12
    subst hL12
    exact ⟨_, read_of_cell (chain_cell hL.chain), this⟩
  · intro i p hp
    obtain ⟨L1, e, L2, hL12, rfl, hi⟩ := hin _ _ hL.value_index i p hp
    subst hL12
    exact ⟨hL.cursor_valid, _, read_of_cell (chain_cell hL.chain), hi⟩
  · intro p hvalid
    obtain ⟨L1, e, L2, hL12, hp⟩ := hL.valid_cursor hvalid
    injection hp with hp
    injection hp with hp
    subst hp
    have := hout (fun x => ValueHash x.value) _ hL.value_index L1 e L2 hL12
    subst hL12
    exact ⟨_, read_of_cell (chain_cell hL.chain), this⟩

/-- The second entry of the target of the move assignment of the concrete run, at address 1. -/
theorem index_sequence_agreement_witness :
    (ValidCursor demo_moved.1 demo_moved.2.1 ⟨some 1⟩ ∧
      ∃ n, demo_moved.1.read (some 1) = .ok n ∧ demo_hash n.key % PRIME_SIZE = 7) ∧
    ∃ n, demo_moved.1.read (some 1) = .ok n ∧
      (demo_moved.2.1.value_hashtable (demo_hash n.value % PRIME_SIZE)).count 1 = 1 ∧
      ∀ i, i ≠ demo_hash n.value % PRIME_SIZE → 1 ∉ demo_moved.2.1.value_hashtable i :=
  ⟨(index_sequence_agreement demo_reachable_assign).1 7 1 (by decide),
    (index_sequence_agreement demo_reachable_assign).2.2.2 1 ⟨by decide, 1, rfl⟩⟩

end Invariants

section ClearClaims
variable {Key Value : Type} [DecidableEq Key] [DecidableEq Value]
  {KeyHash : Key → Nat} {ValueHash : Value → Nat}

/-- What the empty list of entries means for the observers of a container. -/
theorem Inv.nil_observers {m : Mem Key Value} {b : unordered_bimap}
    (h : Inv KeyHash ValueHash m b []) :
    b.size = 0 ∧ b.empty = true ∧ b.begin = b.end_ ∧ b.head = none ∧ b.tail = none ∧
      (∀ i, b.key_hashtable i = [] ∧ b.value_hashtable i = []) ∧
      (∀ k, find_left KeyHash m b k = .ok b.end_) ∧
      (∀ v, find_right ValueHash m b v = .ok b.end_) := by
  have hh : b.head = none := h.head
  have ht : b.tail = none := h.tail
  have hc : b.elem_count = 0 := h.count
  refine ⟨hc, by simp [unordered_bimap.empty, hc], ?_, hh, ht, ?_, ?_, ?_⟩
  · simp [unordered_bimap.begin, end_, hh]
  · intro i
    exact ⟨by rw [h.key_index]; rfl, by rw [h.value_index]; rfl⟩
  · intro k
    exact (h.find_left_absent (List.not_mem_nil _)).1
  · intro v
    exact (h.find_right_absent (List.not_mem_nil _)).1

/-- C16, `clear`.  For every reachable container, `clear()` returns exactly when it is given
more than `size()` evaluations of its loop condition (so it returns, after `size() + 1` of
them), it has then called `erase` exactly `size()` times, and no `++` or `erase` was applied to
a null cursor (either one would make the run end in `Fault.undefined`).  The container it
leaves has `size() == 0`, `empty()` true, `begin() == end()`, no head and no tail, every
collision list of both tables empty, and every `find_left` and `find_right` returns `end()`. -/
theorem clear_terminates_and_empties {m : Mem Key Value} {b o : unordered_bimap}
    (h : ReachableAssign KeyHash ValueHash m b o) :
    ∃ m1 b1,
      (∀ fuel, unordered_bimap.clear KeyHash ValueHash fuel m b =
        if b.size < fuel then .ok (m1, b1) else .error .fuel) ∧
      (∀ fuel, clear_counted KeyHash ValueHash fuel m b =
        if b.size < fuel then .ok (b.size, m1, b1) else .error .fuel) ∧
      b1.size = 0 ∧ b1.empty = true ∧ b1.begin = b1.end_ ∧ b1.head = none ∧ b1.tail = none ∧
      (∀ i, b1.key_hashtable i = [] ∧ b1.value_hashtable i = []) ∧
      (∀ k, find_left KeyHash m1 b1 k = .ok b1.end_) ∧
      (∀ v, find_right ValueHash m1 b1 v = .ok b1.end_) := by
  obtain ⟨L, -, hL, -, -⟩ := reachable_assign_inv h
  obtain ⟨m1, b1, h1, -, -, -, hloop, hcounted⟩ := clear_loop_full L hL
  have hsz : b.size = L.length := hL.count
  refine ⟨m1, b1, ?_, ?_, h1.nil_observers⟩
  · intro fuel
    unfold unordered_bimap.clear unordered_bimap.begin
    rw [hL.head, hsz]
    exact hloop fuel
  · intro fuel
    unfold unordered_bimap.clear_counted unordered_bimap.begin
    rw [hL.head, hsz]
    exact hcounted fuel

/-- Clearing the target of the move assignment of the concrete run, which holds three
entries. -/
theorem clear_terminates_and_empties_witness :
    ∃ m1 b1,
      (∀ fuel, unordered_bimap.clear demo_hash demo_hash fuel demo_moved.1 demo_moved.2.1 =
        if demo_moved.2.1.size < fuel then .ok (m1, b1) else .error .fuel) ∧
      (∀ fuel, clear_counted demo_hash demo_hash fuel demo_moved.1 demo_moved.2.1 =
        if demo_moved.2.1.size < fuel then .ok (demo_moved.2.1.size, m1, b1)
        else .error .fuel) ∧
      b1.size = 0 ∧ b1.empty = true ∧ b1.begin = b1.end_ ∧ b1.head = none ∧ b1.tail = none ∧
      (∀ i, b1.key_hashtable i = [] ∧ b1.value_hashtable i = []) ∧
      (∀ k, find_left demo_hash m1 b1 k = .ok b1.end_) ∧
      (∀ v, find_right demo_hash m1 b1 v = .ok b1.end_) :=
  clear_terminates_and_empties demo_reachable_assign

/-- C20, self-assignment empties the container.  For every reachable container `a`, whatever it
holds, the copy assignment `a = a` and the move assignment `a = std::move(a)` both return, given
more than `size()` evaluations of the loop condition of `clear`, and each leaves `a` with
`size() == 0`, `empty()` true, `begin() == end()` and an empty traversal: `clear()` runs first,
so the copy loop starts at `begin() == end()` and inserts nothing, and each `std::swap` of the
move assignment exchanges a member with itself. -/
theorem self_assignment_empties {m : Mem Key Value} {a o : unordered_bimap}
    (h : ReachableAssign KeyHash ValueHash m a o) :
    ∃ m1 a1,
      (∀ fuel, a.size < fuel →
        copy_assign_self KeyHash ValueHash fuel m a = .ok ([], m1, a1) ∧
        move_assign_self KeyHash ValueHash fuel m a = .ok (m1, a1)) ∧
      a1.size = 0 ∧ a1.empty = true ∧ a1.begin = a1.end_ ∧
      traverse (a1.size + 1) m1 a1 = .ok [] := by
  obtain ⟨L, -, hL, -, -⟩ := reachable_assign_inv h
  obtain ⟨m1, b1, h1, -, -, hclear⟩ := hL.clear
  have hsz : a.size = L.length := hL.count
  obtain ⟨e1, e2, e3, e4, -⟩ := h1.nil_observers
  refine ⟨m1, b1, ?_, e1, e2, e3, h1.traverse_size⟩
  intro fuel hf
  have hc := hclear fuel
  rw [if_pos (by omega)] at hc
  refine ⟨?_, hc⟩
  cases fuel with
  | zero => omega
  | succ f =>
    simp only [unordered_bimap.copy_assign_self, hc, bind, Except.bind]
    simp [unordered_bimap.copy_loop, unordered_bimap.begin, e4, iterator.ne]

/-- The container of three entries of the concrete run, assigned to itself. -/
theorem self_assignment_empties_witness :
    ∃ m1 a1,
      (∀ fuel, demo3.2.2.size < fuel →
        copy_assign_self demo_hash demo_hash fuel demo3.2.1 demo3.2.2 = .ok ([], m1, a1) ∧
        move_assign_self demo_hash demo_hash fuel demo3.2.1 demo3.2.2 = .ok (m1, a1)) ∧
      a1.size = 0 ∧ a1.empty = true ∧ a1.begin = a1.end_ ∧
      traverse (a1.size + 1) m1 a1 = .ok [] :=
  self_assignment_empties (reachable_assign_of_reachable demo_reachable)

end ClearClaims

section Retreat
variable {Key Value : Type} {hk : Key → Nat} {hv : Value → Nat}
  {m : Mem Key Value} {b : unordered_bimap} {L : List (Entry Key Value)}

/-- The cursor reached by `n` advances from `begin()`, when it is not `end()`, references the
entry at position `n`. -/
theorem Inv.position (h : Inv hk hv m b L) {it : iterator} {n : Nat}
    (hn : unordered_bimap.advance m n b.begin = .ok it) (hne : it.data ≠ none) :
    ∃ L1 e L2, L = L1 ++ e :: L2 ∧ L1.length = n ∧ it = ⟨some e.addr⟩ := by
  rw [h.advance] at hn
  split at hn
  · next hle =>
    injection hn with hn
    subst hn
    cases hd : L.drop n with
    | nil => simp [hd] at hne
    | cons e L2 =>
      refine ⟨L.take n, e, L2, ?_, ?_, by simp⟩
      · rw [← hd, List.take_append_drop]
      · simp [hle]
  · cases hn

/-- Prefix `--` at an entry that has a predecessor. -/
theorem Inv.decr_mid {L1 L2 : List (Entry Key Value)} {p e : Entry Key Value}
    (h : Inv hk hv m b (L1 ++ p :: e :: L2)) (tail : Option Nat) :
    iterator.decr m tail ⟨some e.addr⟩ = .ok ⟨some p.addr⟩ ∧
      unordered_bimap.advance m L1.length b.begin = .ok ⟨some p.addr⟩ ∧
      iterator.incr m ⟨some p.addr⟩ = .ok ⟨some e.addr⟩ := by
  have hp := chain_cell h.chain
  have h2 : Inv hk hv m b ((L1 ++ [p]) ++ e :: L2) := by simpa using h
  have he := chain_cell h2.chain
  refine ⟨?_, ?_, ?_⟩
  · rw [decr_of_cell tail he]; simp
  · rw [h.advance]; simp
  · rw [incr_of_cell hp]; simp

/-- Prefix `--` at the first entry. -/
theorem Inv.decr_head {L2 : List (Entry Key Value)} {e : Entry Key Value}
    (h : Inv hk hv m b (e :: L2)) (tail : Option Nat) :
    iterator.decr m tail ⟨some e.addr⟩ = .ok ⟨none⟩ := by
  have h2 : Inv hk hv m b ([] ++ e :: L2) := h
  rw [decr_of_cell tail (chain_cell h2.chain)]; rfl

/-- Prefix `--` at `end()` of a container whose last entry is `t`. -/
theorem Inv.decr_last {L0 : List (Entry Key Value)} {t : Entry Key Value}
    (h : Inv hk hv m b (L0 ++ [t])) :
    b.tail = some t.addr ∧
      unordered_bimap.advance m (b.size - 1) b.begin = .ok ⟨some t.addr⟩ ∧
      iterator.incr m ⟨some t.addr⟩ = .ok ⟨none⟩ ∧
      iterator.deref m ⟨some t.addr⟩ = .ok t.pair := by
  have ht := chain_cell h.chain
  refine ⟨by rw [h.tail]; simp, ?_, ?_, ?_⟩
  · rw [h.advance]; simp [unordered_bimap.size, h.count]
  · rw [incr_of_cell ht]; simp
  · rw [deref_of_cell ht]; rfl

end Retreat

section RetreatClaim
variable {Key Value : Type} [DecidableEq Key] [DecidableEq Value]
  {KeyHash : Key → Nat} {ValueHash : Value → Nat}

/-- C14, retreat from `end()`.  For every non-empty reachable container `b`: prefix `--`
applied to an end cursor, made by `end()` in any state `b0` of the container (before any number
of later inserts and erases), returns the cursor whose node is the container's tail at the
moment of the decrement; that cursor is valid, it is `size() - 1` advances from `begin()`, it
dereferences to the last pair of the traversal, and `++` takes it to `end()`.  Applied to a
valid cursor that is `i + 1` advances from `begin()`, prefix `--` returns the valid cursor that
is `i` advances from `begin()`, the predecessor; applied to the cursor of the first entry, whose
`prev` is null, it returns `end()`. -/
theorem retreat_from_end {m : Mem Key Value} {b o : unordered_bimap}
    (h : ReachableAssign KeyHash ValueHash m b o) (hne : b.empty = false) :
    (∀ b0 : unordered_bimap, ∃ it1, iterator.decr m b.tail b0.end_ = .ok it1 ∧
      it1.data = b.tail ∧ ValidCursor m b it1 ∧
      unordered_bimap.advance m (b.size - 1) b.begin = .ok it1 ∧
      iterator.incr m it1 = .ok b.end_ ∧
      ∃ ps kv, unordered_bimap.traverse (b.size + 1) m b = .ok (ps ++ [kv]) ∧
        iterator.deref m it1 = .ok kv) ∧
    (∀ (it : iterator) (i : Nat), it.data ≠ none →
      unordered_bimap.advance m (i + 1) b.begin = .ok it →
      ∃ it0, iterator.decr m b.tail it = .ok it0 ∧
        unordered_bimap.advance m i b.begin = .ok it0 ∧ ValidCursor m b it0 ∧
        iterator.incr m it0 = .ok it) ∧
    (∀ it : iterator, it.data ≠ none → unordered_bimap.advance m 0 b.begin = .ok it →
      iterator.decr m b.tail it = .ok b.end_) := by
  obtain ⟨L, -, hL, -, -⟩ := reachable_assign_inv h
  refine ⟨?_, ?_, ?_⟩
  · intro b0
    rcases List.eq_nil_or_concat L with hnil | ⟨L0, t, hcat⟩
    · subst hnil
      have : b.elem_count = 0 := hL.count
      simp [unordered_bimap.empty, this] at hne
    · simp only [List.concat_eq_append] at hcat
      subst hcat
      obtain ⟨e1, e2, e3, e4⟩ := hL.decr_last
      have hv : ValidCursor m b ⟨some t.addr⟩ := hL.cursor_valid
      refine ⟨⟨some t.addr⟩, ?_, e1.symm, hv, e2, e3, L0.map Entry.pair, t.pair, ?_, e4⟩
      · rw [end_, decr_end, e1]
      · rw [hL.traverse_size]; simp
  · intro it i hd hadv
    obtain ⟨L1, e, L2, hLe, hlen, hit⟩ := hL.position hadv hd
    rcases List.eq_nil_or_concat L1 with hnil | ⟨L0, p, hcat⟩
    · subst hnil; simp at hlen
    · simp only [List.concat_eq_append] at hcat
      subst hcat
      subst hit
      have h2 : Inv KeyHash ValueHash m b (L0 ++ p :: e :: L2) := by
        rw [hLe] at hL; simpa using hL
      obtain ⟨e1, e2, e3⟩ := h2.decr_mid b.tail
      have hl0 : L0.length = i := by simpa using hlen
      refine ⟨⟨some p.addr⟩, e1, by rw [← hl0]; exact e2, h2.cursor_valid, e3⟩
  · intro it hd hadv
    obtain ⟨L1, e, L2, hLe, hlen, hit⟩ := hL.position hadv hd
    have : L1 = [] := List.length_eq_zero.1 hlen
    subst this
    subst hit
    rw [hLe] at hL
    exact hL.decr_head b.tail

/-- The container of three entries of the concrete run: an end cursor made when it held two
entries (`demo2`) goes to the third entry, and the cursor of the second entry, at address 1,
goes back to the first. -/
theorem retreat_from_end_witness :
    demo3.2.2.empty = false ∧
    (∃ it1, iterator.decr demo3.2.1 demo3.2.2.tail demo2.2.2.end_ = .ok it1 ∧
      it1.data = demo3.2.2.tail ∧ ValidCursor demo3.2.1 demo3.2.2 it1 ∧
      unordered_bimap.advance demo3.2.1 (demo3.2.2.size - 1) demo3.2.2.begin = .ok it1 ∧
      iterator.incr demo3.2.1 it1 = .ok demo3.2.2.end_ ∧
      ∃ ps kv, unordered_bimap.traverse (demo3.2.2.size + 1) demo3.2.1 demo3.2.2 =
          .ok (ps ++ [kv]) ∧
        iterator.deref demo3.2.1 it1 = .ok kv) ∧
    (∃ it0, iterator.decr demo3.2.1 demo3.2.2.tail ⟨some 1⟩ = .ok it0 ∧
        unordered_bimap.advance demo3.2.1 0 demo3.2.2.begin = .ok it0 ∧
        ValidCursor demo3.2.1 demo3.2.2 it0 ∧
        iterator.incr demo3.2.1 it0 = .ok ⟨some 1⟩) :=
  ⟨rfl,
    (retreat_from_end (reachable_assign_of_reachable demo_reachable) rfl).1 demo2.2.2,
    (retreat_from_end (reachable_assign_of_reachable demo_reachable) rfl).2.1 ⟨some 1⟩ 0
      (by decide) rfl⟩

end RetreatClaim

section Demo

theorem demo_reachable_orders :
    Reachable2 demo_hash demo_hash demo6.2.1 demo2.2.2 demo6.2.2 :=
  .right (.right (.left (.left (.init Mem.init (fun _ _ => rfl))
    (.insert 1 2
      (rfl : unordered_bimap.insert demo_hash demo_hash Mem.init init 1 2 = .ok demo1)))
    (.insert 5 10
      (rfl : unordered_bimap.insert demo_hash demo_hash demo1.2.1 demo1.2.2 5 10 = .ok demo2)))
    (.insert 5 10
      (rfl : unordered_bimap.insert demo_hash demo_hash demo2.2.1 init 5 10 = .ok demo5)))
    (.insert 1 2
      (rfl : unordered_bimap.insert demo_hash demo_hash demo5.2.1 demo5.2.2 1 2 = .ok demo6))

end Demo

section Equality
variable {Key Value : Type} [DecidableEq Key] [DecidableEq Value]
  {KeyHash : Key → Nat} {ValueHash : Value → Nat}

/-- C11, container equality.  For two reachable containers in one store whose traversals in
insertion order are `pl` and `pr`, and with more than `lhs.size()` evaluations of the loop
condition: `operator==` returns, and it returns true exactly when the sizes are equal and the
traversals are equal, which is when they carry the same pair at every position;
`operator!=` returns the negation; two containers that hold the same pairs in different orders
(which needs at least two pairs) compare not equal; a container compares equal to itself. -/
theorem container_equality {m : Mem Key Value} {lhs rhs : unordered_bimap}
    (h : ReachableAssign KeyHash ValueHash m lhs rhs) {pl pr : List (Key × Value)}
    (hl : unordered_bimap.traverse (lhs.size + 1) m lhs = .ok pl)
    (hr : unordered_bimap.traverse (rhs.size + 1) m rhs = .ok pr)
    (fuel : Nat) (hf : lhs.size < fuel) :
    unordered_bimap.eq fuel m lhs rhs = .ok (decide (lhs.size = rhs.size ∧ pl = pr)) ∧
    unordered_bimap.ne fuel m lhs rhs = .ok (!decide (lhs.size = rhs.size ∧ pl = pr)) ∧
    (unordered_bimap.eq fuel m lhs rhs = .ok true ↔
      lhs.size = rhs.size ∧ ∀ i : Nat, pl[i]? = pr[i]?) ∧
    (pl.Perm pr → pl ≠ pr →
      2 ≤ lhs.size ∧ unordered_bimap.eq fuel m lhs rhs = .ok false ∧
        unordered_bimap.ne fuel m lhs rhs = .ok true) ∧
    unordered_bimap.eq fuel m lhs lhs = .ok true ∧
    unordered_bimap.ne fuel m lhs lhs = .ok false := by
  obtain ⟨Ll, Lr, hLl, hLr, -⟩ := reachable_assign_inv h
  have hpl := hLl.pairs hl
  have hpr := hLr.pairs hr
  have hsl : lhs.size = Ll.length := hLl.count
  have hsr : rhs.size = Lr.length := hLr.count
  have heq := hLl.eq hLr fuel (by omega)
  have hself := hLl.eq hLl fuel (by omega)
  rw [← hpl, ← hpr] at heq
  have hlen : pl = pr → lhs.size = rhs.size := by
    intro hh
    have := congrArg List.length hh
    rw [hpl, hpr] at this
    simpa [hsl, hsr] using this
  have hdec : decide (pl = pr) = decide (lhs.size = rhs.size ∧ pl = pr) := by
    by_cases hh : pl = pr
    · simp [hh, hlen hh]
    · simp [hh]
  rw [hdec] at heq
  have hne : unordered_bimap.ne fuel m lhs rhs =
      .ok (!decide (lhs.size = rhs.size ∧ pl = pr)) := by
    simp only [unordered_bimap.ne, heq, bind, Except.bind, pure, Except.pure]
  refine ⟨heq, hne, ?_, ?_, ?_, ?_⟩
  · rw [heq]
    constructor
    · intro hh
      injection hh with hh
      have := of_decide_eq_true hh
      exact ⟨this.1, fun i => by rw [this.2]⟩
    · intro hh
      have : pl = pr := List.ext_getElem? hh.2
      simp [this, hh.1]
  · intro hperm hdiff
    refine ⟨?_, ?_, ?_⟩
    · have hlen2 : pl.length = lhs.size := by rw [hpl, hsl]; simp
      rw [← hlen2]
      match pl, hperm, hdiff with
      | [], hperm, hdiff => exact absurd (List.nil_perm.1 hperm).symm hdiff
      | [x], hperm, hdiff => exact absurd (List.singleton_perm.1 hperm) hdiff
      | _ :: _ :: _, _, _ => simp
    · rw [heq]; simp [hdiff]
    · rw [hne]; simp [hdiff]
  · simpa using hself
  · simp only [unordered_bimap.ne, hself, bind, Except.bind, pure, Except.pure]
    simp

/-- The containers `demo2` and `demo6` hold the pairs `(1, 2)` and `(5, 10)`, inserted in the two
different orders. -/
theorem container_equality_witness :
    unordered_bimap.eq 3 demo6.2.1 demo2.2.2 demo6.2.2 = .ok false ∧
    unordered_bimap.ne 3 demo6.2.1 demo2.2.2 demo6.2.2 = .ok true ∧
    unordered_bimap.eq 3 demo6.2.1 demo2.2.2 demo2.2.2 = .ok true :=
  have h := container_equality (reachable_assign_of_reachable2 demo_reachable_orders)
    (rfl : unordered_bimap.traverse (demo2.2.2.size + 1) demo6.2.1 demo2.2.2 =
      .ok [(1, 2), (5, 10)])
    (rfl : unordered_bimap.traverse (demo6.2.2.size + 1) demo6.2.1 demo6.2.2 =
      .ok [(5, 10), (1, 2)]) 3 (by decide)
  ⟨(h.2.2.2.1 (List.Perm.swap _ _ _) (by decide)).2.1,
    (h.2.2.2.1 (List.Perm.swap _ _ _) (by decide)).2.2, h.2.2.2.2.1⟩

end Equality

section MoveAssign
variable {Key Value : Type} [DecidableEq Key] [DecidableEq Value]
  {KeyHash : Key → Nat} {ValueHash : Value → Nat}

/-- C13, move assignment.  For two distinct reachable containers `a` and `b` in one store,
`a = std::move(b)` returns exactly when it is given more than `a.size()` evaluations of the loop
condition of `clear`, and then: `a` is `b` as it was (same size, same traversal in the same
order, same results of every `find`, `at` and membership test); every node that a valid cursor
of the former `a` referenced has been deleted; `b` is `a` as `clear()` left it, with the tables
of `a`, every collision list empty, `size() == 0`, `empty()` true, `begin() == end()` and every
`find_left` and `find_right` returning `end()`. -/
theorem move_assignment {m : Mem Key Value} {a b : unordered_bimap}
    (h : ReachableAssign KeyHash ValueHash m a b) :
    ∃ m1 a1 b1 ps,
      (∀ fuel, unordered_bimap.move_assign KeyHash ValueHash fuel m a b =
        if a.size < fuel then .ok (m1, a1, b1) else .error .fuel) ∧
      (∀ fuel, unordered_bimap.clear KeyHash ValueHash fuel m a =
        if a.size < fuel then .ok (m1, b1) else .error .fuel) ∧
      a1.size = b.size ∧
      unordered_bimap.traverse (b.size + 1) m b = .ok ps ∧
      unordered_bimap.traverse (a1.size + 1) m1 a1 = .ok ps ∧
      (∀ k, find_left KeyHash m1 a1 k = find_left KeyHash m b k ∧
        at_left KeyHash m1 a1 k = at_left KeyHash m b k ∧
        present_left KeyHash m1 a1 k = present_left KeyHash m b k) ∧
      (∀ v, find_right ValueHash m1 a1 v = find_right ValueHash m b v ∧
        at_right ValueHash m1 a1 v = at_right ValueHash m b v ∧
        present_right ValueHash m1 a1 v = present_right ValueHash m b v) ∧
      (∀ it, ValidCursor m a it →
        m1.read it.data = .error .undefined ∧ ¬ ValidCursor m1 a1 it) ∧
      b1.size = 0 ∧ b1.empty = true ∧ b1.begin = b1.end_ ∧ b1.head = none ∧ b1.tail = none ∧
      (∀ i, b1.key_hashtable i = [] ∧ b1.value_hashtable i = []) ∧
      (∀ k, find_left KeyHash m1 b1 k = .ok b1.end_) ∧
      (∀ v, find_right ValueHash m1 b1 v = .ok b1.end_) := by
  obtain ⟨La, Lb, ha, hb, hd⟩ := reachable_assign_inv h
  obtain ⟨m1, b1, h1, hbrk, hframe, hfreed, hloop, -⟩ := clear_loop_full La ha
  have hsz : a.size = La.length := ha.count
  have hsame : ∀ y ∈ Lb, m1.cell y.addr = m.cell y.addr := by
    intro y hy
    refine hframe y.addr ?_
    intro hh
    obtain ⟨x, hx, hxa⟩ := List.mem_map.1 hh
    exact hd x hx y hy hxa
  have hb1 : Inv KeyHash ValueHash m1 b Lb := hb.frame h1.fresh (by omega) hsame
  have hclear : ∀ fuel, unordered_bimap.clear KeyHash ValueHash fuel m a =
      if a.size < fuel then .ok (m1, b1) else .error .fuel := by
    intro fuel
    unfold unordered_bimap.clear unordered_bimap.begin
    rw [ha.head, hsz]
    exact hloop fuel
  obtain ⟨hl, hr⟩ := lookups_agree hb hb1
  refine ⟨m1, b, b1, Lb.map Entry.pair, ?_, hclear, rfl, hb.traverse_size, hb1.traverse_size,
    hl, hr, ?_, h1.nil_observers⟩
  · intro fuel
    by_cases hf : a.size < fuel
    · simp only [unordered_bimap.move_assign, hclear fuel, if_pos hf, bind, Except.bind, pure,
        Except.pure]
    · simp only [unordered_bimap.move_assign, hclear fuel, if_neg hf, bind, Except.bind]
  · intro it hit
    obtain ⟨L1, e, L2, hLa, rfl⟩ := ha.valid_cursor hit
    have hmem : e ∈ La := by rw [hLa]; simp
    have hnone := hfreed e hmem
    refine ⟨by simp [Mem.read, hnone], ?_⟩
    intro hv
    obtain ⟨M1, e1, M2, hLb, he1⟩ := hb1.valid_cursor hv
    injection he1 with he1
    injection he1 with he1
    exact hd e hmem e1 (by rw [hLb]; simp) he1

/-- The two containers of the concrete run: the one that holds `(9, 9)` is assigned the one that
holds three entries. -/
theorem move_assignment_witness :
    ∃ m1 a1 b1 ps,
      (∀ fuel, unordered_bimap.move_assign demo_hash demo_hash fuel demo4.2.1 demo4.2.2
          demo3.2.2 =
        if demo4.2.2.size < fuel then .ok (m1, a1, b1) else .error .fuel) ∧
      (∀ fuel, unordered_bimap.clear demo_hash demo_hash fuel demo4.2.1 demo4.2.2 =
        if demo4.2.2.size < fuel then .ok (m1, b1) else .error .fuel) ∧
      a1.size = demo3.2.2.size ∧
      unordered_bimap.traverse (demo3.2.2.size + 1) demo4.2.1 demo3.2.2 = .ok ps ∧
      unordered_bimap.traverse (a1.size + 1) m1 a1 = .ok ps ∧
      (∀ k, find_left demo_hash m1 a1 k = find_left demo_hash demo4.2.1 demo3.2.2 k ∧
        at_left demo_hash m1 a1 k = at_left demo_hash demo4.2.1 demo3.2.2 k ∧
        present_left demo_hash m1 a1 k = present_left demo_hash demo4.2.1 demo3.2.2 k) ∧
      (∀ v, find_right demo_hash m1 a1 v = find_right demo_hash demo4.2.1 demo3.2.2 v ∧
        at_right demo_hash m1 a1 v = at_right demo_hash demo4.2.1 demo3.2.2 v ∧
        present_right demo_hash m1 a1 v = present_right demo_hash demo4.2.1 demo3.2.2 v) ∧
      (∀ it, ValidCursor demo4.2.1 demo4.2.2 it →
        m1.read it.data = .error .undefined ∧ ¬ ValidCursor m1 a1 it) ∧
      b1.size = 0 ∧ b1.empty = true ∧ b1.begin = b1.end_ ∧ b1.head = none ∧ b1.tail = none ∧
      (∀ i, b1.key_hashtable i = [] ∧ b1.value_hashtable i = []) ∧
      (∀ k, find_left demo_hash m1 b1 k = .ok b1.end_) ∧
      (∀ v, find_right demo_hash m1 b1 v = .ok b1.end_) :=
  move_assignment (.swap (reachable_assign_of_reachable2 demo_reachable2))

end MoveAssign

section Defects

/-- C12, the donor after move construction, evaluated on the container of three entries of the
concrete run.  The new container and the donor have the same head and the same tail; the donor
still reports `size() == 3`, `empty()` false and `begin() != end()`, and its traversal is that
of the new container.  Clearing the donor, which its destructor does, returns and deletes the
three nodes, after which the traversal of the new container reads a deleted node. -/
theorem move_ctor_donor_keeps_entries :
    (move_ctor demo3.2.2).2.size = 3 ∧
    (move_ctor demo3.2.2).2.empty = false ∧
    (move_ctor demo3.2.2).2.begin ≠ (move_ctor demo3.2.2).2.end_ ∧
    (move_ctor demo3.2.2).2.head = some 0 ∧
    (move_ctor demo3.2.2).1.head = some 0 ∧
    (move_ctor demo3.2.2).2.tail = some 2 ∧
    (move_ctor demo3.2.2).1.tail = some 2 ∧
    unordered_bimap.traverse 4 demo3.2.1 (move_ctor demo3.2.2).1 =
      .ok [(1, 2), (5, 10), (100, 200)] ∧
    unordered_bimap.traverse 4 demo3.2.1 (move_ctor demo3.2.2).2 =
      .ok [(1, 2), (5, 10), (100, 200)] ∧
    ∃ m1 d1,
      unordered_bimap.clear demo_hash demo_hash 4 demo3.2.1 (move_ctor demo3.2.2).2 =
        .ok (m1, d1) ∧
      d1.size = 0 ∧
      unordered_bimap.traverse 4 m1 (move_ctor demo3.2.2).1 = .error .undefined :=
  ⟨rfl, rfl, by decide, rfl, rfl, rfl, rfl, rfl, rfl, _, _, rfl, rfl, rfl⟩

/-- C18, postfix `--` at `end()`, evaluated on the container of three entries of the concrete
run.  Prefix `--` takes the end cursor to the tail, the node at address 2; postfix `--` reads
`data->prev` through the null pointer of the end cursor.  On the cursor of the second entry, at
address 1, the two agree: both leave the cursor at the first entry, at address 0, and postfix
returns the former position. -/
theorem postfix_retreat_from_end_faults :
    demo3.2.2.empty = false ∧
    iterator.decr demo3.2.1 demo3.2.2.tail demo3.2.2.end_ = .ok ⟨some 2⟩ ∧
    iterator.post_decr demo3.2.1 demo3.2.2.end_ = .error .undefined ∧
    iterator.decr demo3.2.1 demo3.2.2.tail ⟨some 1⟩ = .ok ⟨some 0⟩ ∧
    iterator.post_decr demo3.2.1 ⟨some 1⟩ = .ok (⟨some 1⟩, ⟨some 0⟩) :=
  ⟨rfl, rfl, rfl, rfl, rfl⟩

end Defects

section CopyCursors
variable {Key Value : Type} [DecidableEq Key] [DecidableEq Value]
  {KeyHash : Key → Nat} {ValueHash : Value → Nat}

/-- The copy loop once more, with the entries it makes: the container `c` gains the entries
`Ln`, one for each pair of `A2`, at addresses that were not allocated before, and the cursor
returned by the `i`-th call of `insert` references the `i`-th of them. -/
theorem copy_loop_cursors (A2 : List (Entry Key Value)) {A1 : List (Entry Key Value)}
    {m : Mem Key Value} {a c : unordered_bimap} {Lc : List (Entry Key Value)}
    (ha : Inv KeyHash ValueHash m a (A1 ++ A2)) (hc : Inv KeyHash ValueHash m c Lc)
    (hd : ∀ x ∈ A1 ++ A2, ∀ y ∈ Lc, x.addr ≠ y.addr)
    (hk : (Lc.map Entry.key ++ A2.map Entry.key).Nodup)
    (hv : (Lc.map Entry.value ++ A2.map Entry.value).Nodup) :
    ∃ rs m1 c1 Ln, Inv KeyHash ValueHash m1 a (A1 ++ A2) ∧
      Inv KeyHash ValueHash m1 c1 (Lc ++ Ln) ∧
      Ln.map Entry.pair = A2.map Entry.pair ∧
      rs = Ln.map (fun e => (⟨some e.addr⟩ : iterator)) ∧
      (∀ x ∈ A1 ++ A2, m1.cell x.addr = m.cell x.addr) ∧
      (∀ y ∈ Ln, m.brk ≤ y.addr) ∧ m.brk ≤ m1.brk ∧
      ∀ fuel, copy_loop KeyHash ValueHash fuel m c ⟨first_or none A2⟩ =
        if A2.length < fuel then .ok (rs, m1, c1) else .error .fuel := by
  induction A2 generalizing A1 m c Lc with
  | nil =>
    refine ⟨[], m, c, [], ha, by simpa using hc, rfl, rfl, fun _ _ => rfl,
      fun _ hy => absurd hy (List.not_mem_nil _), le_rfl, ?_⟩
    intro fuel
    cases fuel with
    | zero => rfl
    | succ f => simp [unordered_bimap.copy_loop, iterator.ne]
  | cons e A2 ih =>
    have hce := chain_cell ha.chain
    have h1 : e.key ∉ Lc.map Entry.key := by
      rw [List.nodup_append] at hk
      intro hh
      exact hk.2.2 hh (by simp)
    have h2 : e.value ∉ Lc.map Entry.value := by
      rw [List.nodup_append] at hv
      intro hh
      exact hv.2.2 hh (by simp)
    obtain ⟨m1, c1, hrun, hinv, hbrk, hcell⟩ := hc.insert_new h1 h2
    have hsame : ∀ x ∈ A1 ++ e :: A2, m1.cell x.addr = m.cell x.addr := by
      intro x hx
      refine hcell x.addr ?_ ?_
      · intro hh
        obtain ⟨y, hy, hya⟩ := List.mem_map.1 hh
        exact hd x hx y hy hya.symm
      · have := ha.below x hx
        omega
    have ha1 : Inv KeyHash ValueHash m1 a (A1 ++ e :: A2) :=
      ha.frame hinv.fresh (by omega) hsame
    have ha2 : Inv KeyHash ValueHash m1 a ((A1 ++ [e]) ++ A2) := by
      rw [List.append_assoc]; exact ha1
    have hd2 : ∀ x ∈ (A1 ++ [e]) ++ A2,
        ∀ y ∈ Lc ++ [(⟨m.brk, e.key, e.value⟩ : Entry Key Value)], x.addr ≠ y.addr := by
      intro x hx y hy
      have hx1 : x ∈ A1 ++ e :: A2 := by
        rw [List.append_assoc] at hx; exact hx
      rcases List.mem_append.1 hy with hy | hy
      · exact hd x hx1 y hy
      · simp only [List.mem_singleton] at hy
        subst hy
        have := ha.below x hx1
        simp only [ne_eq]
        omega
    obtain ⟨rs, m2, c2, Ln, ha3, hc3, hp3, hrs3, hsame3, hnew3, hbrk3, hloop⟩ :=
      ih ha2 hinv hd2 (by simpa using hk) (by simpa using hv)
    have hce1 : m1.cell e.addr =
        some ⟨e.key, e.value, last_or none A1, first_or none A2⟩ := by
      rw [hsame e (by simp)]; exact hce
    refine ⟨(⟨some m.brk⟩ : iterator) :: rs, m2, c2,
      (⟨m.brk, e.key, e.value⟩ : Entry Key Value) :: Ln, ?_, ?_, ?_, ?_, ?_, ?_, by omega, ?_⟩
    · rw [List.append_assoc] at ha3; exact ha3
    · simpa using hc3
    · simp [hp3, Entry.pair]
    · simp [hrs3]
    · intro x hx
      rw [hsame3 x (by rw [List.append_assoc]; exact hx), hsame x hx]
    · intro y hy
      rcases List.mem_cons.1 hy with hy | hy
      · subst hy; exact le_rfl
      · have := hnew3 y hy
        omega
    · intro fuel
      cases fuel with
      | zero => rfl
      | succ f =>
        simp only [unordered_bimap.copy_loop, iterator.ne, first_or_cons, deref_of_cell hce,
          hrun, incr_of_cell hce1, hloop f, bind, Except.bind, pure, Except.pure,
          List.length_cons, Nat.add_lt_add_iff_right]
        by_cases hf : A2.length < f <;> simp [hf]

end CopyCursors

section CopyFacts
variable {Key Value : Type}

theorem getElem?_split {α : Type} {L : List α} {i : Nat} {e : α} (h : L[i]? = some e) :
    ∃ L1 L2, L = L1 ++ e :: L2 ∧ L1.length = i := by
  have hi : i < L.length := by
    by_contra hh
    rw [List.getElem?_eq_none (by omega)] at h
    cases h
  refine ⟨L.take i, L.drop (i + 1), ?_, by simp; omega⟩
  have he : L[i] = e := by
    rw [List.getElem?_eq_getElem hi] at h
    injection h
  rw [← he]
  simp

variable [DecidableEq Key] [DecidableEq Value]
  {KeyHash : Key → Nat} {ValueHash : Value → Nat}

/-- What can be observed of a container `c` that holds copies `Ln` of the entries `La` of `a` at
addresses that were not allocated in the store `m` before the copy. -/
theorem copy_observables {m m1 : Mem Key Value} {a c : unordered_bimap}
    {La Ln : List (Entry Key Value)} {rs : List iterator}
    (ha : Inv KeyHash ValueHash m a La) (ha1 : Inv KeyHash ValueHash m1 a La)
    (hc1 : Inv KeyHash ValueHash m1 c Ln)
    (hp : Ln.map Entry.pair = La.map Entry.pair)
    (hrs : rs = Ln.map (fun e => (⟨some e.addr⟩ : iterator)))
    (hsame : ∀ x ∈ La, m1.cell x.addr = m.cell x.addr)
    (hnew : ∀ y ∈ Ln, m.brk ≤ y.addr) :
    c.size = a.size ∧
    (∀ fuel, a.size < fuel → unordered_bimap.eq fuel m1 a c = .ok true ∧
      unordered_bimap.eq fuel m1 c a = .ok true) ∧
    unordered_bimap.traverse (c.size + 1) m1 c = .ok (La.map Entry.pair) ∧
    rs.length = (La.map Entry.pair).length ∧ (∀ r ∈ rs, r ≠ c.end_) ∧
    unordered_bimap.traverse (a.size + 1) m1 a = .ok (La.map Entry.pair) ∧
    (∀ it, ValidCursor m a it → ValidCursor m1 a it ∧ m1.read it.data = m.read it.data) ∧
    (∀ (i : Nat) (r : iterator), rs[i]? = some r →
      unordered_bimap.advance m1 i c.begin = .ok r ∧ ValidCursor m1 c r ∧
      ∃ kv, (La.map Entry.pair)[i]? = some kv ∧ iterator.deref m1 r = .ok kv) ∧
    (∀ it, ValidCursor m1 c it →
      it ∈ rs ∧ m.read it.data = .error .undefined ∧ ¬ ValidCursor m1 a it) ∧
    (∀ m2 c2, Step KeyHash ValueHash m1 c m2 c2 →
      unordered_bimap.traverse (a.size + 1) m2 a = .ok (La.map Entry.pair) ∧
      ∀ it, ValidCursor m a it → ValidCursor m2 a it ∧ m2.read it.data = m.read it.data) ∧
    (∀ m2 a2, Step KeyHash ValueHash m1 a m2 a2 →
      unordered_bimap.traverse (c.size + 1) m2 c = .ok (La.map Entry.pair)) := by
  have hlen1 : Ln.length = La.length := by
    have := congrArg List.length hp
    simpa using this
  have hsz : c.size = a.size := by
    simp [unordered_bimap.size, hc1.count, ha.count, hlen1]
  have hdis : ∀ x ∈ La, ∀ y ∈ Ln, x.addr ≠ y.addr := by
    intro x hx y hy
    have h1 := ha.below x hx
    have h2 := hnew y hy
    omega
  have hcur : ∀ m2 : Mem Key Value, Inv KeyHash ValueHash m2 a La →
      (∀ x ∈ La, m2.cell x.addr = m.cell x.addr) →
      ∀ it, ValidCursor m a it → ValidCursor m2 a it ∧ m2.read it.data = m.read it.data := by
    intro m2 ha2 hs it hvalid
    obtain ⟨L1, e, L2, rfl, rfl⟩ := ha.valid_cursor hvalid
    exact ⟨ha2.cursor_valid, read_of_cell_eq (hs e (by simp))⟩
  refine ⟨hsz, ?_, ?_, ?_, ?_, ha1.traverse_size, hcur m1 ha1 hsame, ?_, ?_, ?_, ?_⟩
  · intro fuel hf
    have hf1 : La.length < fuel := by
      simpa [unordered_bimap.size, ha.count] using hf
    rw [ha1.eq hc1 fuel hf1, hc1.eq ha1 fuel (by omega), hp]
    simp
  · rw [hc1.traverse_size, hp]
  · rw [hrs]; simp [hlen1]
  · intro r hr hh
    rw [hrs] at hr
    obtain ⟨e, -, rfl⟩ := List.mem_map.1 hr
    cases hh
  · intro i r hir
    rw [hrs, List.getElem?_map] at hir
    cases hie : Ln[i]? with
    | none => rw [hie] at hir; cases hir
    | some e =>
      rw [hie] at hir
      injection hir with hir
      subst hir
      obtain ⟨L1, L2, hL, hl1⟩ := getElem?_split hie
      subst hL
      refine ⟨?_, hc1.cursor_valid, e.pair, ?_, ?_⟩
      · rw [hc1.advance, ← hl1]; simp
      · rw [← hp, List.getElem?_map, hie]; rfl
      · exact hc1.deref rfl
  · intro it hit
    obtain ⟨L1, e, L2, hL, rfl⟩ := hc1.valid_cursor hit
    have hmem : e ∈ Ln := by rw [hL]; simp
    refine ⟨?_, ?_, ?_⟩
    · rw [hrs]; exact List.mem_map.2 ⟨e, hmem, rfl⟩
    · have := ha.fresh e.addr (hnew e hmem)
      simp [Mem.read, this]
    · intro hv
      obtain ⟨M1, e1, M2, hLa, he1⟩ := ha1.valid_cursor hv
      injection he1 with he1
      injection he1 with he1
      exact hdis e1 (by rw [hLa]; simp) e hmem he1.symm
  · intro m2 c2 hs
    obtain ⟨Lc2, hc2, hbrk, hcell, -⟩ := step_inv hs hc1
    have hs2 : ∀ x ∈ La, m2.cell x.addr = m1.cell x.addr := by
      intro x hx
      refine hcell x.addr ?_ (ha1.below x hx)
      intro hh
      obtain ⟨y, hy, hya⟩ := List.mem_map.1 hh
      exact hdis x hx y hy hya.symm
    have ha2 : Inv KeyHash ValueHash m2 a La := ha1.frame hc2.fresh hbrk hs2
    exact ⟨ha2.traverse_size, hcur m2 ha2 (fun x hx => (hs2 x hx).trans (hsame x hx))⟩
  · intro m2 a2 hs
    obtain ⟨La2, ha2, hbrk, hcell, -⟩ := step_inv hs ha1
    have hs2 : ∀ y ∈ Ln, m2.cell y.addr = m1.cell y.addr := by
      intro y hy
      refine hcell y.addr ?_ (hc1.below y hy)
      intro hh
      obtain ⟨x, hx, hxa⟩ := List.mem_map.1 hh
      exact hdis x hx y hy hxa
    have hc2 : Inv KeyHash ValueHash m2 c Ln := hc1.frame ha2.fresh hbrk hs2
    rw [hc2.traverse_size, hp]

end CopyFacts

section CopyClaim
variable {Key Value : Type} [DecidableEq Key] [DecidableEq Value]
  {KeyHash : Key → Nat} {ValueHash : Value → Nat}

/-- C10, copy fidelity.  Let `a` and `b` be two distinct reachable containers in one store `m`,
and let the walk over `a` yield `ps`.  The container `c` made by the copy constructor from `a`,
and likewise `b` after the copy assignment `b = a`, whatever `b` held:

* the copy returns, and the pair of `a` and the copy is reachable again;
* the copy has the size of `a`, compares equal to `a` under `operator==` either way round, and
  its walk yields `ps`;
* the copy called `insert` once for each pair of `ps` and no call returned `end()`: the cursor
  returned by the `i`-th call is the valid cursor of the copy that is `i` advances from its
  `begin()`, and it dereferences to the `i`-th pair of `ps`;
* the entries of the copy are nodes of its own: every valid cursor of the copy is one of the
  cursors returned by these calls, its node was not allocated in `m`, and it is not a valid
  cursor of `a`;
* `a` is unchanged: its walk still yields `ps`, and every valid cursor of `a` is still valid and
  reads the same node;
* a later call of any mutating operation on the copy leaves the walk of `a` and the nodes of the
  valid cursors of `a` as they were, and a later call on `a` leaves the walk of the copy as it
  was. -/
theorem copy_fidelity {m : Mem Key Value} {a b : unordered_bimap}
    (h : ReachableAssign KeyHash ValueHash m a b) {ps : List (Key × Value)}
    (hps : unordered_bimap.traverse (a.size + 1) m a = .ok ps) :
    (∃ rs m1 c,
      (∀ fuel, a.size < fuel → copy_ctor KeyHash ValueHash fuel m a = .ok (rs, m1, c)) ∧
      ReachableAssign KeyHash ValueHash m1 a c ∧
      c.size = a.size ∧
      (∀ fuel, a.size < fuel → unordered_bimap.eq fuel m1 a c = .ok true ∧
        unordered_bimap.eq fuel m1 c a = .ok true) ∧
      unordered_bimap.traverse (c.size + 1) m1 c = .ok ps ∧
      rs.length = ps.length ∧ (∀ r ∈ rs, r ≠ c.end_) ∧
      unordered_bimap.traverse (a.size + 1) m1 a = .ok ps ∧
      (∀ it, ValidCursor m a it → ValidCursor m1 a it ∧ m1.read it.data = m.read it.data) ∧
      (∀ (i : Nat) (r : iterator), rs[i]? = some r →
        unordered_bimap.advance m1 i c.begin = .ok r ∧ ValidCursor m1 c r ∧
        ∃ kv, ps[i]? = some kv ∧ iterator.deref m1 r = .ok kv) ∧
      (∀ it, ValidCursor m1 c it →
        it ∈ rs ∧ m.read it.data = .error .undefined ∧ ¬ ValidCursor m1 a it) ∧
      (∀ m2 c2, Step KeyHash ValueHash m1 c m2 c2 →
        unordered_bimap.traverse (a.size + 1) m2 a = .ok ps ∧
        ∀ it, ValidCursor m a it → ValidCursor m2 a it ∧ m2.read it.data = m.read it.data) ∧
      (∀ m2 a2, Step KeyHash ValueHash m1 a m2 a2 →
        unordered_bimap.traverse (c.size + 1) m2 c = .ok ps)) ∧
    (∃ rs m1 b1,
      (∀ fuel, a.size < fuel → b.size < fuel →
        copy_assign KeyHash ValueHash fuel m b a = .ok (rs, m1, b1)) ∧
      ReachableAssign KeyHash ValueHash m1 a b1 ∧
      b1.size = a.size ∧
      (∀ fuel, a.size < fuel → unordered_bimap.eq fuel m1 a b1 = .ok true ∧
        unordered_bimap.eq fuel m1 b1 a = .ok true) ∧
      unordered_bimap.traverse (b1.size + 1) m1 b1 = .ok ps ∧
      rs.length = ps.length ∧ (∀ r ∈ rs, r ≠ b1.end_) ∧
      unordered_bimap.traverse (a.size + 1) m1 a = .ok ps ∧
      (∀ it, ValidCursor m a it → ValidCursor m1 a it ∧ m1.read it.data = m.read it.data) ∧
      (∀ (i : Nat) (r : iterator), rs[i]? = some r →
        unordered_bimap.advance m1 i b1.begin = .ok r ∧ ValidCursor m1 b1 r ∧
        ∃ kv, ps[i]? = some kv ∧ iterator.deref m1 r = .ok kv) ∧
      (∀ it, ValidCursor m1 b1 it →
        it ∈ rs ∧ m.read it.data = .error .undefined ∧ ¬ ValidCursor m1 a it) ∧
      (∀ m2 b2, Step KeyHash ValueHash m1 b1 m2 b2 →
        unordered_bimap.traverse (a.size + 1) m2 a = .ok ps ∧
        ∀ it, ValidCursor m a it → ValidCursor m2 a it ∧ m2.read it.data = m.read it.data) ∧
      (∀ m2 a2, Step KeyHash ValueHash m1 a m2 a2 →
        unordered_bimap.traverse (b1.size + 1) m2 b1 = .ok ps)) := by
  obtain ⟨La, Lb, ha, hb, hdis⟩ := reachable_assign_inv h
  have hp := ha.pairs hps
  subst hp
  have hsa : a.size = La.length := ha.count
  have hsb : b.size = Lb.length := hb.count
  have hnil : ∀ x ∈ [] ++ La, ∀ y ∈ ([] : List (Entry Key Value)), x.addr ≠ y.addr :=
    fun _ _ y hy => absurd hy (List.not_mem_nil _)
  constructor
  · have ha0 : Inv KeyHash ValueHash m a ([] ++ La) := ha
    obtain ⟨rs, m1, c1, Ln, ha1, hc1, hpn, hrs, hsame, hnew, -, hloop⟩ :=
      copy_loop_cursors La ha0 (Inv.init ha.fresh) hnil
        (by simpa using ha.keys) (by simpa using ha.values)
    have hrun : ∀ fuel, a.size < fuel →
        copy_ctor KeyHash ValueHash fuel m a = .ok (rs, m1, c1) := by
      intro fuel hf
      unfold unordered_bimap.copy_ctor unordered_bimap.begin
      rw [ha.head, hloop, if_pos (by omega)]
    exact ⟨rs, m1, c1, hrun, .copy_ctor (a.size + 1) h (hrun _ (Nat.lt_succ_self _)),
      copy_observables ha ha1 (by simpa using hc1) hpn hrs hsame hnew⟩
  · obtain ⟨m0, b0, hb0, hbrk, hcell, hclear⟩ := hb.clear
    have hsame0 : ∀ x ∈ La, m0.cell x.addr = m.cell x.addr := by
      intro x hx
      refine hcell x.addr ?_
      intro hh
      obtain ⟨y, hy, hya⟩ := List.mem_map.1 hh
      exact hdis x hx y hy hya.symm
    have ha0 : Inv KeyHash ValueHash m0 a ([] ++ La) := ha.frame hb0.fresh (by omega) hsame0
    obtain ⟨rs, m1, c1, Ln, ha1, hc1, hpn, hrs, hsame, hnew, -, hloop⟩ :=
      copy_loop_cursors La ha0 hb0 hnil (by simpa using ha.keys) (by simpa using ha.values)
    have hrun : ∀ fuel, a.size < fuel → b.size < fuel →
        copy_assign KeyHash ValueHash fuel m b a = .ok (rs, m1, c1) := by
      intro fuel hfa hfb
      simp only [unordered_bimap.copy_assign, hclear, if_pos (show Lb.length < fuel by omega),
        bind, Except.bind]
      unfold unordered_bimap.begin
      rw [ha.head, hloop, if_pos (by omega)]
    refine ⟨rs, m1, c1, hrun, ?_, copy_observables ha ha1 (by simpa using hc1) hpn hrs
      (fun x hx => (hsame x hx).trans (hsame0 x hx)) (fun y hy => by
        have := hnew y hy
        omega)⟩
    exact .swap (.copy_assign (a.size + b.size + 1) (.swap h)
      (hrun _ (by omega) (by omega)))

/-- The container `a` of the concrete run holds three pairs and the container `b` holds
`(9, 9)`: the copy constructor applied to `a`, and the assignment `b = a`. -/
theorem copy_fidelity_witness :
    (∃ rs m1 c,
      copy_ctor demo_hash demo_hash 4 demo4.2.1 demo3.2.2 = .ok (rs, m1, c) ∧
      c.size = demo3.2.2.size ∧
      unordered_bimap.eq 4 m1 demo3.2.2 c = .ok true ∧
      unordered_bimap.traverse (c.size + 1) m1 c = .ok [(1, 2), (5, 10), (100, 200)] ∧
      rs.length = 3 ∧
      unordered_bimap.traverse (demo3.2.2.size + 1) m1 demo3.2.2 =
        .ok [(1, 2), (5, 10), (100, 200)] ∧
      (∀ it, ValidCursor m1 c it →
        it ∈ rs ∧ demo4.2.1.read it.data = .error .undefined ∧
          ¬ ValidCursor m1 demo3.2.2 it) ∧
      (∀ m2 c2, Step demo_hash demo_hash m1 c m2 c2 →
        unordered_bimap.traverse (demo3.2.2.size + 1) m2 demo3.2.2 =
          .ok [(1, 2), (5, 10), (100, 200)])) ∧
    (∃ rs m1 b1,
      copy_assign demo_hash demo_hash 4 demo4.2.1 demo4.2.2 demo3.2.2 = .ok (rs, m1, b1) ∧
      b1.size = demo3.2.2.size ∧
      unordered_bimap.eq 4 m1 demo3.2.2 b1 = .ok true ∧
      unordered_bimap.traverse (b1.size + 1) m1 b1 = .ok [(1, 2), (5, 10), (100, 200)] ∧
      rs.length = 3 ∧
      unordered_bimap.traverse (demo3.2.2.size + 1) m1 demo3.2.2 =
        .ok [(1, 2), (5, 10), (100, 200)] ∧
      (∀ it, ValidCursor m1 b1 it →
        it ∈ rs ∧ demo4.2.1.read it.data = .error .undefined ∧
          ¬ ValidCursor m1 demo3.2.2 it) ∧
      (∀ m2 b2, Step demo_hash demo_hash m1 b1 m2 b2 →
        unordered_bimap.traverse (demo3.2.2.size + 1) m2 demo3.2.2 =
          .ok [(1, 2), (5, 10), (100, 200)])) := by
  obtain ⟨⟨rs, m1, c, h1, -, h2, h3, h4, h5, -, h6, -, -, h7, h8, -⟩,
      ⟨rs2, n1, b1, g1, -, g2, g3, g4, g5, -, g6, -, -, g7, g8, -⟩⟩ :=
    copy_fidelity (reachable_assign_of_reachable2 demo_reachable2)
      (rfl : unordered_bimap.traverse (demo3.2.2.size + 1) demo4.2.1 demo3.2.2 =
        .ok [(1, 2), (5, 10), (100, 200)])
  exact ⟨⟨rs, m1, c, h1 4 (by decide), h2, (h3 4 (by decide)).1, h4, h5, h6, h7,
      fun m2 c2 hs => (h8 m2 c2 hs).1⟩,
    ⟨rs2, n1, b1, g1 4 (by decide) (by decide), g2, (g3 4 (by decide)).1, g4, g5, g6, g7,
      fun m2 b2 hs => (g8 m2 b2 hs).1⟩⟩

end CopyClaim

end UBimap
